import Mathlib

/-!
# Verification of cvs2svn core algorithms

This development gives a shallow embedding, in Lean 4, of the core data
structures and algorithms of the cvs2svn converter (timestamp
resynchronization, changeset dependency graph cycle detection, symbol
filling scores, the internal checkout engine, the repository mirror and
its LOD histories), translated from the Python sources, together with
proofs and refutations of the specified properties.
-/

set_option maxHeartbeats 1600000

/- ----------------------------------------------------------------------
   LODHistory (repository_mirror.py, class LODHistory)

   The history of root nodes for a line of development: two parallel
   arrays `revnums` (SVN revision numbers where the root id changed, in
   increasing order, with a sentry 0) and `ids` (the corresponding root
   node ids, `none` meaning the LOD did not exist).
   ---------------------------------------------------------------------- -/

namespace CvsMirror

structure LODHistory where
  revnums : List Nat
  ids : List (Option Nat)
deriving Repr, DecidableEq

/-- `LODHistory.__init__`: sentry entry `(0, None)`. -/
def LODHistory.init : LODHistory := ⟨[0], [none]⟩

/-- Python `bisect.bisect_right` specialized to a sorted list: the
insertion index for `x` that keeps the list sorted, placing `x` after any
equal entries.  On a list sorted in increasing order this is the number of
leading elements `≤ x`. -/
def bisectRight (xs : List Nat) (x : Nat) : Nat :=
  (xs.takeWhile (fun y => decide (y ≤ x))).length

/-- `LODHistory.get_id`: binary-search `revnums` for the most recent
change at or before `revnum` and read the corresponding id.  `none`
models a raised `KeyError` (the LOD did not exist in `revnum`). -/
def LODHistory.get_id (h : LODHistory) (revnum : Nat) : Option Nat :=
  match h.ids.get? (bisectRight h.revnums revnum - 1) with
  | some (some id) => some id
  | _ => none

/-- `LODHistory.update`: `none` models a raised `KeyError` (`revnum`
before the last recorded change); an equal revnum overwrites the last
entry in place; a later revnum appends. -/
def LODHistory.update (h : LODHistory) (revnum : Nat) (id : Option Nat) :
    Option LODHistory :=
  match h.revnums.getLast? with
  | none => none
  | some last =>
    if revnum < last then none
    else if revnum = last then some ⟨h.revnums, h.ids.dropLast ++ [id]⟩
    else some ⟨h.revnums ++ [revnum], h.ids ++ [id]⟩

/-- Apply a sequence of `update` calls, failing if any raises. -/
def LODHistory.applyUpdates (h : LODHistory) :
    List (Nat × Option Nat) → Option LODHistory
  | [] => some h
  | u :: us => match h.update u.1 u.2 with
    | none => none
    | some h' => h'.applyUpdates us

/-- The id recorded by the most recent update at or before `revnum`
(`none` when there is none, or when that update recorded `None`). -/
def recordedId (us : List (Nat × Option Nat)) (revnum : Nat) : Option Nat :=
  match (us.filter (fun u => decide (u.1 ≤ revnum))).getLast? with
  | none => none
  | some u => u.2

/-- Well-formedness carried through updates: parallel arrays of equal
length, nonempty, starting at the sentry 0, strictly increasing. -/
def LODHistory.Good (h : LODHistory) : Prop :=
  h.ids.length = h.revnums.length ∧ h.revnums.head? = some 0 ∧
    h.revnums.Chain' (· < ·)

theorem good_init : LODHistory.init.Good := by
  refine ⟨rfl, rfl, ?_⟩; simp [LODHistory.init]

/-- Reference lookup: walk key/value pairs left to right, remembering the
value of the last pair whose key is `≤ r`; `default` is the value in force
before the first pair. -/
def lookupFrom (default : Option Nat) : List (Nat × Option Nat) → Nat → Option Nat
  | [], _ => default
  | (k, v) :: ps, r => if k ≤ r then lookupFrom v ps r else default

theorem lookupFrom_append_single (b : Option Nat) (ps : List (Nat × Option Nat))
    (k : Nat) (v : Option Nat) (r : Nat) :
    lookupFrom b (ps ++ [(k, v)]) r =
      if (∀ p ∈ ps, p.1 ≤ r) ∧ k ≤ r then v else lookupFrom b ps r := by
  induction ps generalizing b with
  | nil => simp [lookupFrom]
  | cons p ps ih =>
    obtain ⟨pk, pv⟩ := p
    by_cases hpk : pk ≤ r
    · rw [List.cons_append]
      show lookupFrom b ((pk, pv) :: (ps ++ [(k, v)])) r = _
      rw [show lookupFrom b ((pk, pv) :: (ps ++ [(k, v)])) r
            = lookupFrom pv (ps ++ [(k, v)]) r from by
          simp [lookupFrom, hpk]]
      rw [ih pv]
      by_cases hall : ∀ p ∈ ps, p.1 ≤ r
      · have hall' : ∀ p ∈ (pk, pv) :: ps, p.1 ≤ r := by
          intro p hp
          rcases List.mem_cons.mp hp with h | h
          · subst h; exact hpk
          · exact hall p h
        by_cases hk : k ≤ r
        · rw [if_pos ⟨hall, hk⟩, if_pos ⟨hall', hk⟩]
        · rw [if_neg (fun hc => hk hc.2), if_neg (fun hc => hk hc.2)]
          show _ = lookupFrom b ((pk, pv) :: ps) r
          simp [lookupFrom, hpk]
      · have hall' : ¬ ∀ p ∈ (pk, pv) :: ps, p.1 ≤ r := by
          intro hc; exact hall (fun p hp => hc p (List.mem_cons_of_mem _ hp))
        rw [if_neg (fun hc => hall hc.1), if_neg (fun hc => hall' hc.1)]
        show _ = lookupFrom b ((pk, pv) :: ps) r
        simp [lookupFrom, hpk]
    · have hall' : ¬ ∀ p ∈ (pk, pv) :: ps, p.1 ≤ r := by
        intro hc; exact hpk (hc (pk, pv) (List.mem_cons_self _ _))
      simp [lookupFrom, hpk, hall']

/-- `get_id` on a well-formed history agrees with the left-to-right
reference lookup over the zipped `(revnums, ids)` pairs. -/
theorem get_id_eq_lookupFrom :
    ∀ (xs : List Nat) (ids : List (Option Nat)) (a : Nat) (b : Option Nat)
      (r : Nat),
      xs.length = ids.length → (a :: xs).Chain' (· < ·) → a ≤ r →
      LODHistory.get_id ⟨a :: xs, b :: ids⟩ r = lookupFrom b (xs.zip ids) r := by
  intro xs
  induction xs with
  | nil =>
    intro ids a b r hlen _ har
    obtain rfl : ids = [] := by
      cases ids with
      | nil => rfl
      | cons d ids' => simp at hlen
    simp only [LODHistory.get_id, bisectRight, List.takeWhile_cons,
      decide_eq_true_eq, List.zip_nil_right, lookupFrom]
    rw [if_pos har]
    cases b <;> rfl
  | cons c xs ih =>
    intro ids a b r hlen hchain har
    obtain ⟨d, ids, rfl⟩ : ∃ d ids', ids = d :: ids' := by
      cases ids with
      | nil => simp at hlen
      | cons d ids' => exact ⟨d, ids', rfl⟩
    have hlen' : xs.length = ids.length := by simpa using hlen
    have hchain' : (c :: xs).Chain' (· < ·) := (List.chain'_cons.mp hchain).2
    by_cases hcr : c ≤ r
    · have hb : bisectRight (a :: c :: xs) r = bisectRight (c :: xs) r + 1 := by
        simp only [bisectRight, List.takeWhile_cons, decide_eq_true_eq]
        rw [if_pos har]
        simp [Nat.add_comm]
      obtain ⟨m, hm⟩ := Nat.exists_eq_add_of_le
        (show 1 ≤ bisectRight (c :: xs) r by
          simp only [bisectRight, List.takeWhile_cons, decide_eq_true_eq]
          rw [if_pos hcr]; simp)
      have ihx := ih ids c d r hlen' hchain' hcr
      simp only [LODHistory.get_id] at ihx ⊢
      rw [hm] at ihx
      rw [hb, hm]
      rw [show 1 + m + 1 - 1 = m + 1 from by omega]
      rw [show 1 + m - 1 = m from by omega] at ihx
      rw [List.get?_cons_succ]
      rw [ihx, List.zip_cons_cons]
      simp [lookupFrom, hcr]
    · have hb : bisectRight (a :: c :: xs) r = 1 := by
        simp only [bisectRight, List.takeWhile_cons, decide_eq_true_eq]
        rw [if_pos har, if_neg hcr]
        rfl
      simp only [LODHistory.get_id, hb, List.zip_cons_cons, lookupFrom]
      rw [if_neg hcr]
      cases b <;> rfl

theorem chain_le_getLast :
    ∀ (l : List Nat), l.Chain' (· < ·) → ∀ last, l.getLast? = some last →
      ∀ y ∈ l, y ≤ last := by
  intro l
  induction l with
  | nil => intro _ last h; simp at h
  | cons a l ih =>
    intro hchain last hlast y hy
    cases l with
    | nil =>
      simp at hlast
      subst hlast
      simp at hy
      omega
    | cons c l' =>
      rw [List.getLast?_cons_cons] at hlast
      have hac : a < c := (List.chain'_cons.mp hchain).1
      have h' := ih (List.chain'_cons.mp hchain).2 last hlast
      rcases List.mem_cons.mp hy with rfl | hy'
      · have := h' c (List.mem_cons_self _ _)
        omega
      · exact h' y hy'

/-- `get_id` on a well-formed history is the left-to-right lookup over
the zipped pairs, starting from the nonexistence default. -/
theorem get_id_eq_lookup (rl : List Nat) (il : List (Option Nat)) (r : Nat)
    (hlen : il.length = rl.length) (hhead : rl.head? = some 0)
    (hchain : rl.Chain' (· < ·)) :
    LODHistory.get_id ⟨rl, il⟩ r = lookupFrom none (rl.zip il) r := by
  obtain ⟨xs, rfl⟩ : ∃ xs, rl = 0 :: xs := by
    cases rl with
    | nil => simp at hhead
    | cons a xs =>
      simp only [List.head?_cons, Option.some_inj] at hhead
      exact ⟨xs, by rw [hhead]⟩
  obtain ⟨b, ids, rfl⟩ : ∃ b ids, il = b :: ids := by
    cases il with
    | nil => simp at hlen
    | cons b ids => exact ⟨b, ids, rfl⟩
  rw [get_id_eq_lookupFrom xs ids 0 b r (by simpa using hlen.symm) hchain
    (Nat.zero_le r)]
  rw [List.zip_cons_cons]
  rw [show lookupFrom none ((0, b) :: xs.zip ids) r = lookupFrom b (xs.zip ids) r
    from by simp [lookupFrom]]

/-- The one-step effect of `update` on lookups, together with
preservation of well-formedness. -/
theorem update_step (h h' : LODHistory) (rev : Nat) (id : Option Nat)
    (hg : h.Good) (hup : h.update rev id = some h') :
    h'.Good ∧ ∀ r, h'.get_id r = if rev ≤ r then id else h.get_id r := by
  obtain ⟨rl, il⟩ := h
  obtain ⟨hlen, hhead, hchain⟩ := hg
  simp only at hlen hhead hchain
  obtain ⟨xs, hrl⟩ : ∃ xs, rl = 0 :: xs := by
    cases rl with
    | nil => simp at hhead
    | cons a xs =>
      simp only [List.head?_cons, Option.some_inj] at hhead
      exact ⟨xs, by rw [hhead]⟩
  have hrlne : rl ≠ [] := by rw [hrl]; simp
  obtain ⟨last, hlast⟩ : ∃ last, rl.getLast? = some last :=
    ⟨rl.getLast hrlne, List.getLast?_eq_getLast_of_ne_nil hrlne⟩
  have hrdec : rl.dropLast ++ [last] = rl := List.dropLast_append_getLast? last hlast
  have hilne : il ≠ [] := by
    intro hc; rw [hc, hrl] at hlen; simp at hlen
  obtain ⟨w, hw⟩ : ∃ w, il.getLast? = some w :=
    ⟨il.getLast hilne, List.getLast?_eq_getLast_of_ne_nil hilne⟩
  have hidec : il.dropLast ++ [w] = il := List.dropLast_append_getLast? w hw
  have hmemle : ∀ y ∈ rl, y ≤ last := chain_le_getLast rl hchain last hlast
  have hlen' : rl.dropLast.length = il.dropLast.length := by
    simp [List.length_dropLast, hlen]
  simp only [LODHistory.update, hlast] at hup
  by_cases hlt : rev < last
  · rw [if_pos hlt] at hup; exact absurd hup (by simp)
  rw [if_neg hlt] at hup
  by_cases heq : rev = last
  case pos =>
    -- overwrite the last entry in place
    rw [if_pos heq] at hup
    obtain rfl : h' = ⟨rl, il.dropLast ++ [id]⟩ := by
      cases hup; rfl
    subst heq
    have hglen : (il.dropLast ++ [id]).length = rl.length := by
      simp [List.length_dropLast, List.length_append]
      rw [← hlen]
      have : 1 ≤ il.length := by
        cases il with
        | nil => exact absurd rfl hilne
        | cons _ _ => simp
      omega
    refine ⟨⟨hglen, hhead, hchain⟩, fun r => ?_⟩
    rw [get_id_eq_lookup rl (il.dropLast ++ [id]) r hglen hhead hchain,
      get_id_eq_lookup rl il r hlen hhead hchain]
    conv_lhs => rw [← hrdec]
    conv_rhs => rw [← hrdec, ← hidec]
    rw [List.zip_append hlen', List.zip_append hlen']
    simp only [List.zip_cons_cons, List.zip_nil_right]
    rw [lookupFrom_append_single, lookupFrom_append_single]
    by_cases hrevr : rev ≤ r
    · have hall : ∀ p ∈ rl.dropLast.zip il.dropLast, p.1 ≤ r := by
        intro p hp
        have hm : p.1 ∈ rl.dropLast := by
          obtain ⟨k, v⟩ := p
          exact (List.of_mem_zip hp).1
        have : p.1 ∈ rl := by
          rw [← hrdec]; exact List.mem_append_left _ hm
        exact le_trans (hmemle _ this) hrevr
      rw [if_pos ⟨hall, hrevr⟩, if_pos hrevr]
    · rw [if_neg (fun hc : _ ∧ rev ≤ r => hrevr hc.2), if_neg hrevr,
        if_neg (fun hc : _ ∧ rev ≤ r => hrevr hc.2)]
  case neg =>
    -- append a new entry
    rw [if_neg heq] at hup
    obtain rfl : h' = ⟨rl ++ [rev], il ++ [id]⟩ := by
      cases hup; rfl
    have hgt : last < rev := by omega
    have hglen : (il ++ [id]).length = (rl ++ [rev]).length := by
      simp [hlen]
    have hghead : (rl ++ [rev]).head? = some 0 := by
      rw [hrl]; simp
    have hgchain : (rl ++ [rev]).Chain' (· < ·) := by
      rw [List.chain'_append]
      refine ⟨hchain, List.chain'_singleton _, ?_⟩
      intro x hx y hy
      rw [hlast] at hx
      simp only [List.head?_cons, Option.mem_def, Option.some_inj] at hx hy
      omega
    refine ⟨⟨hglen, hghead, hgchain⟩, fun r => ?_⟩
    rw [get_id_eq_lookup _ _ r hglen hghead hgchain,
      get_id_eq_lookup rl il r hlen hhead hchain]
    rw [List.zip_append hlen.symm]
    simp only [List.zip_cons_cons, List.zip_nil_right]
    rw [lookupFrom_append_single]
    by_cases hrevr : rev ≤ r
    · have hall : ∀ p ∈ rl.zip il, p.1 ≤ r := by
        intro p hp
        obtain ⟨k, v⟩ := p
        exact le_trans (le_trans (hmemle _ (List.of_mem_zip hp).1) (le_of_lt hgt))
          hrevr
      rw [if_pos ⟨hall, hrevr⟩, if_pos hrevr]
    · rw [if_neg (fun hc : _ ∧ rev ≤ r => hrevr hc.2), if_neg hrevr]

theorem applyUpdates_spec :
    ∀ (us : List (Nat × Option Nat)) (h h' : LODHistory), h.Good →
      h.applyUpdates us = some h' →
      h'.Good ∧ ∀ r, h'.get_id r =
        match (us.filter (fun u => decide (u.1 ≤ r))).getLast? with
        | some u => u.2
        | none => h.get_id r := by
  intro us
  induction us with
  | nil =>
    intro h h' hg happ
    obtain rfl : h = h' := by
      simpa [LODHistory.applyUpdates] using happ
    exact ⟨hg, fun r => by simp⟩
  | cons u us ih =>
    intro h h' hg happ
    simp only [LODHistory.applyUpdates] at happ
    cases hup : h.update u.1 u.2 with
    | none => rw [hup] at happ; exact absurd happ (by simp)
    | some h₁ =>
      rw [hup] at happ
      obtain ⟨hg₁, hstep⟩ := update_step h h₁ u.1 u.2 hg hup
      obtain ⟨hg', hrest⟩ := ih h₁ h' hg₁ happ
      refine ⟨hg', fun r => ?_⟩
      rw [hrest r, List.filter_cons]
      by_cases hur : u.1 ≤ r
      · rw [if_pos (by simpa using hur)]
        cases hfl : us.filter (fun u => decide (u.1 ≤ r)) with
        | nil => simp [hstep r, hur]
        | cons x l =>
          rw [List.getLast?_cons_cons]
          obtain ⟨y, hy⟩ : ∃ y, (x :: l).getLast? = some y :=
            ⟨(x :: l).getLast (by simp),
              List.getLast?_eq_getLast_of_ne_nil (by simp)⟩
          rw [hy]
      · rw [if_neg (by simpa using hur)]
        cases hfl : us.filter (fun u => decide (u.1 ≤ r)) with
        | nil => simp [hstep r, hur]
        | cons x l => rfl

/-- **C10.** `LODHistory` keeps its revision-number array strictly
increasing; `update` raises `KeyError` exactly when the revnum is below
the last recorded one (an equal revnum overwrites in place, a larger one
appends); and after any sequence of successful updates, `get_id revnum`
returns the id recorded by the most recent update at or before `revnum`,
raising `KeyError` (modelled as `none`) exactly when that recorded id is
`None`. -/
theorem C10_lodhistory_correct (us : List (Nat × Option Nat)) (h : LODHistory)
    (happ : LODHistory.init.applyUpdates us = some h) :
    h.revnums.Chain' (· < ·) ∧
    (∀ r, h.get_id r = recordedId us r) ∧
    (∀ rev id last, h.revnums.getLast? = some last →
      (h.update rev id = none ↔ rev < last)) := by
  obtain ⟨hg, hlook⟩ := applyUpdates_spec us LODHistory.init h good_init happ
  refine ⟨hg.2.2, fun r => ?_, fun rev id last hlast => ?_⟩
  · rw [hlook r]
    have hinit : LODHistory.init.get_id r = none := by
      simp [LODHistory.init, LODHistory.get_id, bisectRight]
    rw [recordedId]
    cases (us.filter (fun u => decide (u.1 ≤ r))).getLast? with
    | none => simpa using hinit
    | some u => rfl
  · constructor
    · intro hnone
      simp only [LODHistory.update, hlast] at hnone
      by_cases hlt : rev < last
      · exact hlt
      · rw [if_neg hlt] at hnone
        by_cases heq : rev = last <;> simp [heq] at hnone
    · intro hlt
      simp only [LODHistory.update, hlast, if_pos hlt]

/-- Witness for C10 at a concrete update sequence: create the LOD at r1,
delete it at r3, re-create it at r5; lookups before, between and after
behave as specified. -/
theorem C10_lodhistory_correct_witness :
    ∃ h, LODHistory.init.applyUpdates
        [(1, some 10), (3, none), (5, some 20)] = some h ∧
      (h.get_id 0 = none ∧ h.get_id 2 = some 10 ∧ h.get_id 4 = none ∧
        h.get_id 7 = some 20) := by
  refine ⟨⟨[0, 1, 3, 5], [none, some 10, none, some 20]⟩, by decide, ?_⟩
  have := (C10_lodhistory_correct [(1, some 10), (3, none), (5, some 20)]
    ⟨[0, 1, 3, 5], [none, some 10, none, some 20]⟩ (by decide)).2.1
  rw [this 0, this 2, this 4, this 7]
  refine ⟨by decide, by decide, by decide, by decide⟩

end CvsMirror

/- ----------------------------------------------------------------------
   Symbol filling scores (may-04-redesign/cvs2svn.py,
   SymbolicNameFillingGuide._condense_scores, ._score_revisions,
   ._best_rev)

   A node of the filling guide gathers the opening (and optional closing)
   SVN revision numbers of the leaf paths below it.  `_condense_scores`
   turns the raw revnum lists into sorted (revnum, multiplicity) pairs;
   `_score_revisions` turns them into a stepwise score table; `_best_rev`
   selects the copy source.
   ---------------------------------------------------------------------- -/

namespace SymbolFill

/-- One leaf path under a filling-guide node: its opening revnum and its
optional closing revnum. -/
structure Leaf where
  opening : Nat
  closing : Option Nat
deriving Repr, DecidableEq

/-- `_condense_scores`: count the occurrences of each revnum and return
the `(svn_revnum, count)` pairs sorted by revnum. -/
def condenseScores (revList : List Nat) : List (Nat × Nat) :=
  (revList.dedup.insertionSort (· ≤ ·)).map
    (fun k => (k, revList.count k))

/-- The cumulative-sum loop over the openings in `_score_revisions`
(`opening_score_accum`). -/
def openingScoresAux (acc : Int) : List (Nat × Nat) → List (Nat × Int)
  | [] => []
  | (k, cnt) :: rest => (k, acc + cnt) :: openingScoresAux (acc + cnt) rest

def openingScores (openings : List (Nat × Nat)) : List (Nat × Int) :=
  openingScoresAux 0 openings

/-- Python `scores[-1][1]` (the score of the last entry, by negative
indexing). -/
def lastScore (scores : List (Nat × Int)) : Int :=
  (scores.getLast?.map Prod.snd).getD 0

/-- One iteration of the closings loop of `_score_revisions`.  The loop
subtracts `closing.2` from every entry whose revnum is `≥ closing.1`; when
`closing.1` is not already present it inserts a new entry for it (before
the first larger entry, with the running score of the preceding entry, or
appended at the end using the final score).  The `min` index in the Python
code only skips entries that are already known to be below the closing
revnum and does not change the result. -/
def applyClosing (scores : List (Nat × Int)) (closing : Nat × Nat) :
    List (Nat × Int) :=
  match scores.dropWhile (fun s => decide (s.1 < closing.1)) with
  | [] => scores ++ [(closing.1, lastScore scores - closing.2)]
  | (r, v) :: rest =>
    if r = closing.1 then
      scores.takeWhile (fun s => decide (s.1 < closing.1)) ++
        ((r, v) :: rest).map (fun s => (s.1, s.2 - (closing.2 : Int)))
    else
      scores.takeWhile (fun s => decide (s.1 < closing.1)) ++
        (closing.1,
          (match (scores.takeWhile (fun s => decide (s.1 < closing.1))).getLast?
              with
           | some s => s.2
           | none => lastScore scores) - (closing.2 : Int)) ::
          ((r, v) :: rest).map (fun s => (s.1, s.2 - (closing.2 : Int)))

/-- `_score_revisions`: empty openings give the empty list; otherwise the
cumulative opening scores with each closing applied in turn. -/
def scoreRevisions (openings closings : List (Nat × Nat)) :
    List (Nat × Int) :=
  if openings = [] then []
  else closings.foldl applyClosing (openingScores openings)

/-- The score table is a step function: the score of revnum `r` is the
score of the last entry at or before `r` (0 before the first entry).  This
is the "copying the corresponding revision or any following revision up to
the next revision in the list" reading documented in `_score_revisions`. -/
def scoreAt (default : Int) : List (Nat × Int) → Nat → Int
  | [], _ => default
  | (k, v) :: ps, r => if k ≤ r then scoreAt v ps r else default

/-- The running state of the `_best_rev` loop. -/
structure BRState where
  maxScore : Int
  maxRev : Nat
  preferredScore : Int
  rev : Int
deriving Repr, DecidableEq

/-- One iteration of the `_best_rev` loop. -/
def bestRevStep (preferredRev : Nat) (st : BRState) (sc : Nat × Int) :
    BRState :=
  let st := if sc.1 > st.maxRev then { st with maxRev := sc.1 } else st
  let st := if sc.2 > st.maxScore then
      { st with maxScore := sc.2, rev := (sc.1 : Int) } else st
  if sc.1 ≤ preferredRev then { st with preferredScore := sc.2 } else st

/-- `_best_rev`: fold the loop over the score table starting from
`max_score = 0, max_rev = 1, preferred_rev_score = -1,
rev = SVN_INVALID_REVNUM (= -1)`, then prefer `preferred_rev` when its
score ties the maximum and it does not exceed `max_rev`. -/
def bestRev (scores : List (Nat × Int)) (preferredRev : Nat) : Int :=
  let st := scores.foldl (bestRevStep preferredRev) ⟨0, 1, -1, -1⟩
  if st.preferredScore = st.maxScore ∧ preferredRev ≤ st.maxRev then
    (preferredRev : Int)
  else st.rev

/-- The openings of a list of leaves: every leaf contributes one. -/
def leafOpenings (leaves : List Leaf) : List Nat :=
  leaves.map Leaf.opening

/-- The closings of a list of leaves: only closed leaves contribute. -/
def leafClosings (leaves : List Leaf) : List Nat :=
  leaves.filterMap Leaf.closing

/-- The score table computed for a filling-guide node whose leaf paths
are `leaves`. -/
def nodeScores (leaves : List Leaf) : List (Nat × Int) :=
  scoreRevisions (condenseScores (leafOpenings leaves))
    (condenseScores (leafClosings leaves))

/-- A leaf is correct at revnum `r` when `opening ≤ r < closing` (a leaf
with no closing stays correct forever). -/
def leafCorrectAt (r : Nat) (leaf : Leaf) : Bool :=
  decide (leaf.opening ≤ r) &&
    (match leaf.closing with
     | none => true
     | some c => decide (r < c))

end SymbolFill

namespace SymbolFill

/-- The value of the last entry, `default` for the empty list. -/
def lastVal (default : Int) (ps : List (Nat × Int)) : Int :=
  (ps.getLast?.map Prod.snd).getD default

theorem lastVal_cons (d : Int) (k : Nat) (v : Int) (ps : List (Nat × Int)) :
    lastVal d ((k, v) :: ps) = lastVal v ps := by
  cases ps with
  | nil => rfl
  | cons q qs =>
    obtain ⟨y, hy⟩ : ∃ y, (q :: qs).getLast? = some y :=
      ⟨(q :: qs).getLast (by simp), List.getLast?_eq_getLast_of_ne_nil (by simp)⟩
    simp [lastVal, List.getLast?_cons_cons, hy]

theorem scoreAt_append (ps qs : List (Nat × Int)) (d : Int) (r : Nat) :
    scoreAt d (ps ++ qs) r =
      if ∀ p ∈ ps, p.1 ≤ r then scoreAt (lastVal d ps) qs r
      else scoreAt d ps r := by
  induction ps generalizing d with
  | nil => simp [lastVal]
  | cons p ps ih =>
    obtain ⟨k, v⟩ := p
    by_cases hk : k ≤ r
    · rw [List.cons_append,
        show scoreAt d (((k, v) :: (ps ++ qs))) r = scoreAt v (ps ++ qs) r
          from by simp [scoreAt, hk],
        ih v, lastVal_cons]
      by_cases hall : ∀ p ∈ ps, p.1 ≤ r
      · have hall' : ∀ p ∈ (k, v) :: ps, p.1 ≤ r := by
          intro p hp
          rcases List.mem_cons.mp hp with rfl | hp'
          · exact hk
          · exact hall p hp'
        rw [if_pos hall, if_pos hall']
      · have hall' : ¬ ∀ p ∈ (k, v) :: ps, p.1 ≤ r := by
          intro hc; exact hall fun p hp => hc p (List.mem_cons_of_mem _ hp)
        rw [if_neg hall, if_neg hall']
        simp [scoreAt, hk]
    · have hall' : ¬ ∀ p ∈ (k, v) :: ps, p.1 ≤ r := by
        intro hc; exact hk (hc (k, v) (List.mem_cons_self _ _))
      rw [if_neg hall']
      rw [List.cons_append]
      simp [scoreAt, hk]

theorem scoreAt_map_sub (suf : List (Nat × Int)) (d cnt : Int) (r : Nat) :
    scoreAt (d - cnt) (suf.map (fun s => (s.1, s.2 - cnt))) r
      = scoreAt d suf r - cnt := by
  induction suf generalizing d with
  | nil => simp [scoreAt]
  | cons s suf ih =>
    obtain ⟨k, v⟩ := s
    by_cases hk : k ≤ r <;> simp [scoreAt, hk, ih]

theorem scoreAt_all_le (ps : List (Nat × Int)) (d : Int) (r : Nat)
    (h : ∀ p ∈ ps, p.1 ≤ r) : scoreAt d ps r = lastVal d ps := by
  induction ps generalizing d with
  | nil => rfl
  | cons p ps ih =>
    obtain ⟨k, v⟩ := p
    rw [lastVal_cons]
    have hk : k ≤ r := h (k, v) (List.mem_cons_self _ _)
    simp only [scoreAt, if_pos hk]
    exact ih v fun p hp => h p (List.mem_cons_of_mem _ hp)

/-- Keys strictly ascending. -/
abbrev SortedKeys (ps : List (Nat × Int)) : Prop :=
  ps.Pairwise (fun a b => a.1 < b.1)

theorem lastScore_eq_lastVal (ps : List (Nat × Int)) :
    lastScore ps = lastVal 0 ps := rfl

theorem applyClosing_eq (S : List (Nat × Int)) (c cnt : Nat) :
    applyClosing S (c, cnt) =
      match S.dropWhile (fun s => decide (s.1 < c)) with
      | [] => S ++ [(c, lastScore S - cnt)]
      | (r, v) :: rest =>
        if r = c then
          S.takeWhile (fun s => decide (s.1 < c)) ++
            ((r, v) :: rest).map (fun s => (s.1, s.2 - (cnt : Int)))
        else
          S.takeWhile (fun s => decide (s.1 < c)) ++
            (c, (match (S.takeWhile (fun s => decide (s.1 < c))).getLast? with
                 | some s => s.2
                 | none => lastScore S) - (cnt : Int)) ::
              ((r, v) :: rest).map (fun s => (s.1, s.2 - (cnt : Int))) := rfl

theorem applyClosing_spec (S : List (Nat × Int)) (c cnt : Nat)
    (k₀ : Nat) (v₀ : Int)
    (hhead : S.head? = some (k₀, v₀)) (hk : k₀ < c) (hsorted : SortedKeys S) :
    (applyClosing S (c, cnt)).head? = some (k₀, v₀) ∧
    SortedKeys (applyClosing S (c, cnt)) ∧
    ∀ r, scoreAt 0 (applyClosing S (c, cnt)) r =
      if c ≤ r then scoreAt 0 S r - cnt else scoreAt 0 S r := by
  obtain ⟨T, rfl⟩ : ∃ T, S = (k₀, v₀) :: T := by
    cases S with
    | nil => simp at hhead
    | cons s T =>
      simp only [List.head?_cons, Option.some_inj] at hhead
      exact ⟨T, by rw [hhead]⟩
  set S := (k₀, v₀) :: T with hS
  set p : Nat × Int → Bool := fun s => decide (s.1 < c) with hp
  have hsplit : S.takeWhile p ++ S.dropWhile p = S :=
    List.takeWhile_append_dropWhile p S
  have hpre : ∀ s ∈ S.takeWhile p, s.1 < c := by
    intro s hs
    have := List.mem_takeWhile_imp hs
    simpa [hp] using this
  have hpre' : S.takeWhile p = (k₀, v₀) :: T.takeWhile p := by
    rw [hS, List.takeWhile_cons]
    simp [hp, hk]
  have hsorted' : SortedKeys (S.takeWhile p) ∧ SortedKeys (S.dropWhile p) ∧
      ∀ a ∈ S.takeWhile p, ∀ b ∈ S.dropWhile p, a.1 < b.1 :=
    List.pairwise_append.mp (by rw [hsplit]; exact hsorted)
  have hsufge : ∀ b ∈ S.dropWhile p, c ≤ b.1 := by
    cases hd : S.dropWhile p with
    | nil => intro b hb; simp at hb
    | cons x xs =>
      have hx : p x = false := by
        have := List.head?_dropWhile_not p S
        rw [hd] at this
        simpa using this
      have hxc : c ≤ x.1 := by simpa [hp] using hx
      intro b hb
      rcases List.mem_cons.mp hb with rfl | hb'
      · exact hxc
      · have hsuf : SortedKeys (x :: xs) := hd ▸ hsorted'.2.1
        have := (List.pairwise_cons.mp hsuf).1 b hb'
        omega
  cases hd : S.dropWhile p with
  | nil =>
    have happ : applyClosing S (c, cnt) = S ++ [(c, lastScore S - cnt)] := by
      rw [applyClosing_eq, ← hp, hd]
    rw [happ]
    have hall : ∀ s ∈ S, s.1 < c := by
      intro s hs
      rw [← hsplit, hd, List.append_nil] at hs
      exact hpre s hs
    refine ⟨by rw [hS]; rfl, ?_, ?_⟩
    · exact List.pairwise_append.mpr ⟨hsorted, List.pairwise_singleton _ _,
        fun a ha b hb => by
          simp only [List.mem_singleton] at hb
          subst hb
          exact hall a ha⟩
    · intro r
      rw [scoreAt_append]
      by_cases hcr : c ≤ r
      · have hle : ∀ s ∈ S, s.1 ≤ r := fun s hs => by
          have := hall s hs; omega
        rw [if_pos hle, scoreAt_all_le S 0 r hle, if_pos hcr]
        simp [scoreAt, hcr, lastScore_eq_lastVal]
      · rw [if_neg hcr]
        by_cases hle : ∀ s ∈ S, s.1 ≤ r
        · rw [if_pos hle, scoreAt_all_le S 0 r hle]
          simp [scoreAt, hcr]
        · rw [if_neg hle]
  | cons x xs =>
    obtain ⟨k₁, v₁⟩ := x
    have hk₁c : c ≤ k₁ :=
      hsufge (k₁, v₁) (by rw [hd]; exact List.mem_cons_self _ _)
    have hsufkeys : ∀ b ∈ (k₁, v₁) :: xs, c ≤ b.1 := fun b hb =>
      hsufge b (by rw [hd]; exact hb)
    have hsufsorted : SortedKeys ((k₁, v₁) :: xs) := hd ▸ hsorted'.2.1
    have hcross : ∀ a ∈ S.takeWhile p, ∀ b ∈ (k₁, v₁) :: xs, a.1 < b.1 :=
      fun a ha b hb => hsorted'.2.2 a ha b (by rw [hd]; exact hb)
    by_cases hexact : k₁ = c
    · have happ : applyClosing S (c, cnt) = S.takeWhile p ++
          ((k₁, v₁) :: xs).map (fun s => (s.1, s.2 - (cnt : Int))) := by
        rw [applyClosing_eq, ← hp]
        simp only [hd]
        rw [if_pos hexact]
      rw [happ]
      refine ⟨by rw [hpre', List.cons_append]; rfl, ?_, ?_⟩
      · refine List.pairwise_append.mpr ⟨hsorted'.1, ?_, ?_⟩
        · exact List.pairwise_map.mpr (by simpa using hsufsorted)
        · intro a ha b hb
          obtain ⟨b', hb', rfl⟩ := List.mem_map.mp hb
          exact hcross a ha b' hb'
      · intro r
        conv_rhs => rw [← hsplit, hd]
        rw [scoreAt_append, scoreAt_append]
        by_cases hcr : c ≤ r
        · have hA : ∀ s ∈ S.takeWhile p, s.1 ≤ r := fun s hs => by
            have := hpre s hs; omega
          rw [if_pos hA, if_pos hA, if_pos hcr]
          have hmap := scoreAt_map_sub ((k₁, v₁) :: xs)
            (lastVal 0 (S.takeWhile p) + cnt) cnt r
          rw [show lastVal 0 (S.takeWhile p) + (cnt : Int) - cnt
              = lastVal 0 (S.takeWhile p) from by ring] at hmap
          rw [hmap]
          have hk₁r : k₁ ≤ r := by omega
          simp [scoreAt, hk₁r]
        · rw [if_neg hcr]
          by_cases hA : ∀ s ∈ S.takeWhile p, s.1 ≤ r
          · rw [if_pos hA, if_pos hA]
            have hk₁r : ¬ k₁ ≤ r := by omega
            simp [scoreAt, hk₁r]
          · rw [if_neg hA, if_neg hA]
    · have hck₁ : c < k₁ := by omega
      have hsufgt : ∀ b ∈ (k₁, v₁) :: xs, c < b.1 := by
        intro b hb
        rcases List.mem_cons.mp hb with rfl | hb'
        · exact hck₁
        · have := (List.pairwise_cons.mp hsufsorted).1 b hb'
          omega
      have hgetlast : (match (S.takeWhile p).getLast? with
          | some s => s.2
          | none => lastScore S) = lastVal 0 (S.takeWhile p) := by
        rw [hpre']
        obtain ⟨y, hy⟩ : ∃ y, ((k₀, v₀) :: T.takeWhile p).getLast? = some y :=
          ⟨_, List.getLast?_eq_getLast_of_ne_nil (by simp)⟩
        rw [hy]
        simp [lastVal, hy]
      have happ : applyClosing S (c, cnt) = S.takeWhile p ++
          (c, lastVal 0 (S.takeWhile p) - (cnt : Int)) ::
            ((k₁, v₁) :: xs).map (fun s => (s.1, s.2 - (cnt : Int))) := by
        rw [applyClosing_eq, ← hp]
        simp only [hd]
        rw [if_neg hexact, hgetlast]
      rw [happ]
      refine ⟨by rw [hpre', List.cons_append]; rfl, ?_, ?_⟩
      · refine List.pairwise_append.mpr ⟨hsorted'.1, ?_, ?_⟩
        · refine List.pairwise_cons.mpr ⟨?_, ?_⟩
          · intro b hb
            obtain ⟨b', hb', rfl⟩ := List.mem_map.mp hb
            have := hsufgt b' hb'
            simp only
            omega
          · exact List.pairwise_map.mpr (by simpa using hsufsorted)
        · intro a ha b hb
          rcases List.mem_cons.mp hb with rfl | hb'
          · exact hpre a ha
          · obtain ⟨b', hb'', rfl⟩ := List.mem_map.mp hb'
            exact hcross a ha b' hb''
      · intro r
        conv_rhs => rw [← hsplit, hd]
        rw [scoreAt_append, scoreAt_append]
        by_cases hcr : c ≤ r
        · have hA : ∀ s ∈ S.takeWhile p, s.1 ≤ r := fun s hs => by
            have := hpre s hs; omega
          rw [if_pos hA, if_pos hA, if_pos hcr]
          rw [show scoreAt (lastVal 0 (S.takeWhile p))
              ((c, lastVal 0 (S.takeWhile p) - (cnt : Int)) ::
                ((k₁, v₁) :: xs).map (fun s => (s.1, s.2 - (cnt : Int)))) r
              = scoreAt (lastVal 0 (S.takeWhile p) - (cnt : Int))
                (((k₁, v₁) :: xs).map (fun s => (s.1, s.2 - (cnt : Int)))) r
            from by simp [scoreAt, hcr]]
          rw [scoreAt_map_sub]
        · rw [if_neg hcr]
          by_cases hA : ∀ s ∈ S.takeWhile p, s.1 ≤ r
          · rw [if_pos hA, if_pos hA]
            have hk₁r : ¬ k₁ ≤ r := by omega
            simp [scoreAt, hcr, hk₁r]
          · rw [if_neg hA, if_neg hA]

end SymbolFill

namespace SymbolFill

/-- The total count contributed by entries with key at most `r`. -/
def sumLe (ops : List (Nat × Nat)) (r : Nat) : Int :=
  ((ops.filter (fun s => decide (s.1 ≤ r))).map (fun s => (s.2 : Int))).sum

theorem sumLe_nil (r : Nat) : sumLe [] r = 0 := rfl

theorem sumLe_cons (k cnt : Nat) (ops : List (Nat × Nat)) (r : Nat) :
    sumLe ((k, cnt) :: ops) r =
      (if k ≤ r then (cnt : Int) else 0) + sumLe ops r := by
  unfold sumLe
  rw [List.filter_cons]
  by_cases hk : k ≤ r
  · rw [if_pos (by simpa using hk), if_pos hk]
    simp
  · rw [if_neg (by simpa using hk), if_neg hk]
    simp

theorem sumLe_zero_of_gt (ops : List (Nat × Nat)) (r : Nat)
    (h : ∀ c ∈ ops, ¬ c.1 ≤ r) : sumLe ops r = 0 := by
  unfold sumLe
  rw [List.filter_eq_nil.mpr (fun c hc => by simpa using h c hc)]
  rfl

theorem foldl_applyClosing_spec :
    ∀ (cs : List (Nat × Nat)) (S : List (Nat × Int)) (k₀ : Nat) (v₀ : Int),
      S.head? = some (k₀, v₀) → SortedKeys S → (∀ c ∈ cs, k₀ < c.1) →
      (cs.foldl applyClosing S).head? = some (k₀, v₀) ∧
      SortedKeys (cs.foldl applyClosing S) ∧
      ∀ r, scoreAt 0 (cs.foldl applyClosing S) r = scoreAt 0 S r - sumLe cs r := by
  intro cs
  induction cs with
  | nil =>
    intro S k₀ v₀ hhead hsorted _
    exact ⟨hhead, hsorted, fun r => by simp [sumLe_nil]⟩
  | cons c cs ih =>
    intro S k₀ v₀ hhead hsorted hlt
    obtain ⟨cr, ccnt⟩ := c
    have hck : k₀ < cr := by
      have := hlt (cr, ccnt) (List.mem_cons_self _ _)
      simpa using this
    obtain ⟨hhead', hsorted', hscore'⟩ :=
      applyClosing_spec S cr ccnt k₀ v₀ hhead hck hsorted
    obtain ⟨hh, hs, hsc⟩ := ih (applyClosing S (cr, ccnt)) k₀ v₀ hhead' hsorted'
      (fun c hc => hlt c (List.mem_cons_of_mem _ hc))
    refine ⟨hh, hs, fun r => ?_⟩
    rw [List.foldl_cons] at *
    rw [hsc r, hscore' r, sumLe_cons]
    by_cases hcr : cr ≤ r
    · rw [if_pos hcr, if_pos hcr]; ring
    · rw [if_neg hcr, if_neg hcr]; ring

theorem openingScoresAux_scoreAt :
    ∀ (ops : List (Nat × Nat)) (acc : Int) (r : Nat),
      ops.Pairwise (fun a b => a.1 < b.1) →
      scoreAt acc (openingScoresAux acc ops) r = acc + sumLe ops r := by
  intro ops
  induction ops with
  | nil => intro acc r _; simp [openingScoresAux, scoreAt, sumLe_nil]
  | cons o ops ih =>
    intro acc r hsorted
    obtain ⟨k, cnt⟩ := o
    rw [show openingScoresAux acc ((k, cnt) :: ops)
        = (k, acc + cnt) :: openingScoresAux (acc + cnt) ops from rfl]
    by_cases hk : k ≤ r
    · rw [show scoreAt acc ((k, acc + (cnt : Int)) ::
            openingScoresAux (acc + cnt) ops) r
          = scoreAt (acc + cnt) (openingScoresAux (acc + cnt) ops) r from by
          simp [scoreAt, hk]]
      rw [ih (acc + cnt) r (List.pairwise_cons.mp hsorted).2, sumLe_cons,
        if_pos hk]
      ring
    · rw [show scoreAt acc ((k, acc + (cnt : Int)) ::
            openingScoresAux (acc + cnt) ops) r = acc from by
          simp [scoreAt, hk]]
      rw [sumLe_cons, if_neg hk, sumLe_zero_of_gt ops r
        (fun c hc => by
          have := (List.pairwise_cons.mp hsorted).1 c hc
          omega)]
      ring

theorem openingScoresAux_keys (ops : List (Nat × Nat)) :
    ∀ acc, (openingScoresAux acc ops).map Prod.fst = ops.map Prod.fst := by
  induction ops with
  | nil => intro acc; rfl
  | cons o ops ih =>
    intro acc
    obtain ⟨k, cnt⟩ := o
    rw [show openingScoresAux acc ((k, cnt) :: ops)
        = (k, acc + cnt) :: openingScoresAux (acc + cnt) ops from rfl]
    simp only [List.map_cons, ih]

theorem sortedKeys_iff_keys (ps : List (Nat × Int)) :
    SortedKeys ps ↔ (ps.map Prod.fst).Pairwise (· < ·) :=
  (List.pairwise_map).symm

theorem openingScoresAux_sorted (ops : List (Nat × Nat)) (acc : Int)
    (h : ops.Pairwise (fun a b => a.1 < b.1)) :
    SortedKeys (openingScoresAux acc ops) := by
  rw [sortedKeys_iff_keys, openingScoresAux_keys]
  exact List.pairwise_map.mpr h

theorem condenseScores_keys (xs : List Nat) :
    (condenseScores xs).map Prod.fst = xs.dedup.insertionSort (· ≤ ·) := by
  unfold condenseScores
  rw [List.map_map]
  exact List.map_id _

theorem condenseScores_sorted (xs : List Nat) :
    (condenseScores xs).Pairwise (fun a b => a.1 < b.1) := by
  rw [show (condenseScores xs).Pairwise (fun a b => a.1 < b.1)
      ↔ ((condenseScores xs).map Prod.fst).Pairwise (· < ·) from
    (List.pairwise_map).symm]
  rw [condenseScores_keys]
  have hsorted : (xs.dedup.insertionSort (· ≤ ·)).Pairwise (· ≤ ·) :=
    List.sorted_insertionSort (· ≤ ·) xs.dedup
  have hnodup : (xs.dedup.insertionSort (· ≤ ·)).Nodup :=
    (List.perm_insertionSort (· ≤ ·) xs.dedup).nodup_iff.mpr
      (List.nodup_dedup xs)
  have := hsorted.and hnodup
  exact this.imp (fun {a b} hab => by
    rcases hab with ⟨hle, hne⟩
    omega)
  -- note: Nodup is Pairwise (· ≠ ·)

theorem condenseScores_sum (xs : List Nat) (r : Nat) :
    sumLe (condenseScores xs) r = (xs.countP (fun x => decide (x ≤ r)) : Int) := by
  unfold sumLe condenseScores
  rw [List.filter_map, List.map_map]
  have hperm : (xs.dedup.insertionSort (· ≤ ·)).Perm xs.dedup :=
    List.perm_insertionSort (· ≤ ·) xs.dedup
  have hperm2 := (hperm.filter
    (fun k => decide (k ≤ r))).map (fun k => (xs.count k : Int))
  rw [show ((fun s : Nat × Nat => decide (s.1 ≤ r)) ∘
      fun k => (k, xs.count k)) = fun k => decide (k ≤ r) from rfl]
  rw [show ((fun s : Nat × Nat => (s.2 : Int)) ∘ fun k => (k, xs.count k))
      = fun k => (xs.count k : Int) from rfl]
  rw [hperm2.sum_eq]
  rw [show (List.map (fun k => (xs.count k : Int))
        (xs.dedup.filter fun k => decide (k ≤ r)))
      = List.map Nat.cast (List.map (fun k => xs.count k)
        (xs.dedup.filter fun k => decide (k ≤ r))) from by
    rw [List.map_map]; rfl]
  rw [← Nat.cast_list_sum, List.sum_map_count_dedup_filter_eq_countP]

end SymbolFill

namespace SymbolFill

theorem count_correct (r : Nat) :
    ∀ (leaves : List Leaf),
      (∀ l ∈ leaves, ∀ c, l.closing = some c → l.opening < c) →
      ((leaves.countP (leafCorrectAt r) : Int)) =
        ((leafOpenings leaves).countP (fun x => decide (x ≤ r)) : Int) -
          ((leafClosings leaves).countP (fun x => decide (x ≤ r)) : Int) := by
  intro leaves
  induction leaves with
  | nil => intro _; simp [leafOpenings, leafClosings]
  | cons l leaves ih =>
    intro hcl
    have ihx := ih (fun l hl => hcl l (List.mem_cons_of_mem _ hl))
    rw [List.countP_cons,
      show leafOpenings (l :: leaves) = l.opening :: leafOpenings leaves
        from rfl,
      List.countP_cons]
    cases hc : l.closing with
    | none =>
      rw [show leafClosings (l :: leaves) = leafClosings leaves from by
        simp [leafClosings, List.filterMap_cons, hc]]
      rw [show leafCorrectAt r l = decide (l.opening ≤ r) from by
        simp [leafCorrectAt, hc]]
      by_cases ho : l.opening ≤ r
      · simp [ho]
        omega
      · simp [ho]
        omega
    | some c =>
      have hoc : l.opening < c := hcl l (List.mem_cons_self _ _) c hc
      rw [show leafClosings (l :: leaves) = c :: leafClosings leaves from by
        simp [leafClosings, List.filterMap_cons, hc]]
      rw [List.countP_cons]
      rw [show leafCorrectAt r l
          = (decide (l.opening ≤ r) && decide (r < c)) from by
        simp [leafCorrectAt, hc]]
      by_cases ho : l.opening ≤ r <;> by_cases hcr : r < c
      · have hcle : ¬ c ≤ r := by omega
        simp [ho, hcr, hcle]
        omega
      · have hcle : c ≤ r := by omega
        simp [ho, hcr, hcle]
        omega
      · have hcle : ¬ c ≤ r := by omega
        simp [ho, hcr, hcle]
        omega
      · exact absurd (by omega : r < c) hcr

end SymbolFill

namespace SymbolFill

theorem condenseScores_mem_keys (xs : List Nat) (k : Nat) :
    k ∈ (condenseScores xs).map Prod.fst ↔ k ∈ xs := by
  rw [condenseScores_keys]
  rw [(List.perm_insertionSort (· ≤ ·) xs.dedup).mem_iff]
  exact List.mem_dedup

/-- Part (a) of C4: the computed score of every revnum `r` equals the
number of leaf paths whose `opening ≤ r < closing`. -/
theorem nodeScores_scoreAt (leaves : List Leaf)
    (hcl : ∀ l ∈ leaves, ∀ c, l.closing = some c → l.opening < c) (r : Nat) :
    scoreAt 0 (nodeScores leaves) r = (leaves.countP (leafCorrectAt r) : Int) := by
  cases hlv : leaves with
  | nil => simp [nodeScores, leafOpenings, leafClosings, condenseScores,
      scoreRevisions, scoreAt]
  | cons l₀ ls =>
    rw [← hlv]
    have hone : leafOpenings leaves ≠ [] := by
      rw [hlv]; simp [leafOpenings]
    have hcone : condenseScores (leafOpenings leaves) ≠ [] := by
      intro hc
      have := condenseScores_mem_keys (leafOpenings leaves) l₀.opening
      rw [hc] at this
      simp only [List.map_nil, List.not_mem_nil, false_iff] at this
      exact this (by rw [hlv]; exact List.mem_cons_self _ _)
    obtain ⟨x, co', hco⟩ := List.exists_cons_of_ne_nil hcone
    obtain ⟨o₀, c₀⟩ := x
    have hsorted := condenseScores_sorted (leafOpenings leaves)
    rw [hco] at hsorted
    have hmin : ∀ o ∈ leafOpenings leaves, o₀ ≤ o := by
      intro o ho
      have : o ∈ ((o₀, c₀) :: co').map Prod.fst := by
        rw [← hco]
        exact (condenseScores_mem_keys _ o).mpr ho
      rcases List.mem_cons.mp this with h | h
      · omega
      · obtain ⟨b, hb, rfl⟩ := List.mem_map.mp h
        have := (List.pairwise_cons.mp hsorted).1 b hb
        omega
    have hclgt : ∀ cl ∈ condenseScores (leafClosings leaves), o₀ < cl.1 := by
      intro cl hcl'
      have hmem : cl.1 ∈ leafClosings leaves := by
        have : cl.1 ∈ (condenseScores (leafClosings leaves)).map Prod.fst :=
          List.mem_map.mpr ⟨cl, hcl', rfl⟩
        exact (condenseScores_mem_keys _ _).mp this
      obtain ⟨l, hl, hlc⟩ := List.mem_filterMap.mp hmem
      have h1 : l.opening < cl.1 := hcl l hl cl.1 hlc
      have h2 : o₀ ≤ l.opening := hmin l.opening
        (List.mem_map.mpr ⟨l, hl, rfl⟩)
      omega
    have hres : nodeScores leaves
        = (condenseScores (leafClosings leaves)).foldl applyClosing
            (openingScores (condenseScores (leafOpenings leaves))) := by
      unfold nodeScores scoreRevisions
      rw [if_neg hcone]
    have hoshead : (openingScores (condenseScores (leafOpenings leaves))).head?
        = some (o₀, 0 + (c₀ : Int)) := by
      rw [hco]
      rfl
    have hossorted : SortedKeys
        (openingScores (condenseScores (leafOpenings leaves))) :=
      openingScoresAux_sorted _ 0 (condenseScores_sorted _)
    obtain ⟨_, _, hsc⟩ := foldl_applyClosing_spec
      (condenseScores (leafClosings leaves))
      (openingScores (condenseScores (leafOpenings leaves)))
      o₀ (0 + (c₀ : Int)) hoshead hossorted hclgt
    rw [hres, hsc r]
    rw [show scoreAt 0 (openingScores (condenseScores (leafOpenings leaves))) r
        = 0 + sumLe (condenseScores (leafOpenings leaves)) r from
      openingScoresAux_scoreAt _ 0 r (condenseScores_sorted _)]
    rw [condenseScores_sum, condenseScores_sum, count_correct r leaves hcl]
    ring

end SymbolFill

namespace SymbolFill

/-- The maximum entry count in a score table (0 for the empty table),
matching the `max_score` accumulator's initial value. -/
def maxCount (scores : List (Nat × Int)) : Int :=
  (scores.map Prod.snd).foldl max 0

/-- The maximum revnum in a score table (1 for the empty table), matching
the `max_rev` accumulator's initial value. -/
def maxKey (scores : List (Nat × Int)) : Nat :=
  (scores.map Prod.fst).foldl max 1

theorem foldl_max_init {α : Type} [LinearOrder α] :
    ∀ (l : List α) (a : α), a ≤ l.foldl max a := by
  intro l
  induction l with
  | nil => intro a; exact le_refl a
  | cons x l ih =>
    intro a
    exact le_trans (le_max_left a x) (ih (max a x))

theorem foldl_max_le_mem {α : Type} [LinearOrder α] :
    ∀ (l : List α) (a x : α), x ∈ l → x ≤ l.foldl max a := by
  intro l
  induction l with
  | nil => intro a x hx; simp at hx
  | cons y l ih =>
    intro a x hx
    rcases List.mem_cons.mp hx with rfl | hx'
    · exact le_trans (le_max_right a x) (foldl_max_init l (max a x))
    · exact ih (max a y) x hx'

theorem foldl_max_cases {α : Type} [LinearOrder α] :
    ∀ (l : List α) (a : α), l.foldl max a = a ∨ l.foldl max a ∈ l := by
  intro l
  induction l with
  | nil => intro a; exact Or.inl rfl
  | cons x l ih =>
    intro a
    rcases ih (max a x) with h | h
    · rcases max_cases a x with ⟨hm, _⟩ | ⟨hm, _⟩
      · exact Or.inl (by rw [List.foldl_cons, h, hm])
      · exact Or.inr (by rw [List.foldl_cons, h, hm]; exact List.mem_cons_self _ _)
    · exact Or.inr (List.mem_cons_of_mem _ h)

theorem maxCount_nonneg (scores : List (Nat × Int)) : 0 ≤ maxCount scores :=
  foldl_max_init _ 0

theorem le_maxCount (scores : List (Nat × Int)) :
    ∀ s ∈ scores, s.2 ≤ maxCount scores := fun s hs =>
  foldl_max_le_mem _ 0 s.2 (List.mem_map.mpr ⟨s, hs, rfl⟩)

theorem le_maxKey (scores : List (Nat × Int)) :
    ∀ s ∈ scores, s.1 ≤ maxKey scores := fun s hs =>
  foldl_max_le_mem _ 1 s.1 (List.mem_map.mpr ⟨s, hs, rfl⟩)

theorem maxCount_attained (scores : List (Nat × Int))
    (h : 0 < maxCount scores) : ∃ s ∈ scores, s.2 = maxCount scores := by
  rcases foldl_max_cases (scores.map Prod.snd) 0 with hc | hc
  · rw [maxCount] at h
    omega
  · obtain ⟨s, hs, hv⟩ := List.mem_map.mp hc
    exact ⟨s, hs, hv⟩

theorem maxCount_append_single (S : List (Nat × Int)) (x : Nat × Int) :
    maxCount (S ++ [x]) = max (maxCount S) x.2 := by
  unfold maxCount
  rw [List.map_append, List.foldl_append]
  rfl

theorem maxKey_append_single (S : List (Nat × Int)) (x : Nat × Int) :
    maxKey (S ++ [x]) = max (maxKey S) x.1 := by
  unfold maxKey
  rw [List.map_append, List.foldl_append]
  rfl

/-- The invariant maintained by the `_best_rev` loop over any processed
prefix of the score table. -/
theorem bestRev_foldl_spec (preferred : Nat) :
    ∀ (scores : List (Nat × Int)),
      (scores.foldl (bestRevStep preferred) ⟨0, 1, -1, -1⟩).maxScore
          = maxCount scores ∧
      (scores.foldl (bestRevStep preferred) ⟨0, 1, -1, -1⟩).maxRev
          = maxKey scores ∧
      (scores.foldl (bestRevStep preferred) ⟨0, 1, -1, -1⟩).preferredScore
          = (match (scores.filter
                (fun s => decide (s.1 ≤ preferred))).getLast? with
             | some s => s.2
             | none => -1) ∧
      (scores.foldl (bestRevStep preferred) ⟨0, 1, -1, -1⟩).rev
          = (if 0 < maxCount scores then
              match scores.find? (fun s => decide (s.2 = maxCount scores)) with
              | some s => (s.1 : Int)
              | none => -1
             else -1) := by
  intro scores
  induction scores using List.reverseRecOn with
  | nil =>
    refine ⟨rfl, rfl, rfl, ?_⟩
    rw [if_neg (by unfold maxCount; simp)]
    rfl
  | append_singleton S x ih =>
    obtain ⟨ihms, ihmr, ihps, ihrev⟩ := ih
    obtain ⟨k, v⟩ := x
    rw [List.foldl_append] at *
    set st := S.foldl (bestRevStep preferred) ⟨0, 1, -1, -1⟩ with hst
    simp only [List.foldl_cons, List.foldl_nil]
    have hstep : bestRevStep preferred st (k, v) =
        { maxScore := if v > st.maxScore then v else st.maxScore
          maxRev := if k > st.maxRev then k else st.maxRev
          preferredScore := if k ≤ preferred then v else st.preferredScore
          rev := if v > st.maxScore then (k : Int) else st.rev } := by
      unfold bestRevStep
      by_cases h1 : k > st.maxRev <;> by_cases h2 : v > st.maxScore <;>
        by_cases h3 : k ≤ preferred <;>
        simp [h1, h2, h3]
    rw [hstep]
    refine ⟨?_, ?_, ?_, ?_⟩
    · simp only [maxCount_append_single, ihms]
      rcases max_cases (maxCount S) v with ⟨hm, hle⟩ | ⟨hm, hlt⟩
      · rw [hm, if_neg (by omega)]
      · rw [hm, if_pos (by omega)]
    · simp only [maxKey_append_single, ihmr]
      rcases max_cases (maxKey S) k with ⟨hm, hle⟩ | ⟨hm, hlt⟩
      · rw [hm, if_neg (by omega)]
      · rw [hm, if_pos (by omega)]
    · simp only [List.filter_append]
      by_cases hk : k ≤ preferred
      · rw [if_pos hk]
        rw [show List.filter (fun s => decide (s.1 ≤ preferred)) [(k, v)]
            = [(k, v)] from by simp [hk]]
        rw [List.getLast?_concat]
      · rw [if_neg hk]
        rw [show List.filter (fun s => decide (s.1 ≤ preferred)) [(k, v)]
            = [] from by simp [hk]]
        rw [List.append_nil, ihps]
    · simp only [maxCount_append_single]
      by_cases hv : v > st.maxScore
      · rw [if_pos hv]
        rw [ihms] at hv
        have hmax : max (maxCount S) v = v := by omega
        rw [hmax]
        have hvpos : 0 < v := by
          have := maxCount_nonneg S
          omega
        rw [if_pos hvpos]
        rw [List.find?_append]
        have hnone : S.find? (fun s => decide (s.2 = v)) = none := by
          rw [List.find?_eq_none]
          intro s hs
          have := le_maxCount S s hs
          simp only [decide_eq_true_eq]
          omega
        rw [hnone]
        simp
      · rw [if_neg hv]
        rw [ihms] at hv
        have hmax : max (maxCount S) v = maxCount S := by omega
        rw [hmax, ihrev]
        by_cases hpos : 0 < maxCount S
        · rw [if_pos hpos, if_pos hpos]
          obtain ⟨s₀, hs₀, hv₀⟩ := maxCount_attained S hpos
          have hsome : (S.find? fun s => decide (s.2 = maxCount S)).isSome := by
            rw [List.find?_isSome]
            exact ⟨s₀, hs₀, by simpa using hv₀⟩
          obtain ⟨s₁, hs₁⟩ := Option.isSome_iff_exists.mp hsome
          rw [List.find?_append, hs₁]
          rfl
        · rw [if_neg hpos, if_neg hpos]

end SymbolFill

namespace SymbolFill

/-- On a sorted table, the `preferred_rev_score` accumulator (the value of
the last entry with key at most `r`) is the step-function score with
default `d`. -/
theorem filter_getLast_eq_scoreAt (r : Nat) (d : Int) :
    ∀ (scores : List (Nat × Int)), SortedKeys scores →
      (match (scores.filter (fun s => decide (s.1 ≤ r))).getLast? with
       | some s => s.2
       | none => d) = scoreAt d scores r := by
  intro scores
  induction scores generalizing d with
  | nil => intro _; rfl
  | cons x rest ih =>
    intro hsorted
    obtain ⟨k, v⟩ := x
    rw [List.filter_cons]
    by_cases hk : k ≤ r
    · rw [if_pos (by simpa using hk)]
      rw [show scoreAt d ((k, v) :: rest) r = scoreAt v rest r from by
        simp [scoreAt, hk]]
      rw [← ih v (List.pairwise_cons.mp hsorted).2]
      cases hfl : rest.filter (fun s => decide (s.1 ≤ r)) with
      | nil => rfl
      | cons y l =>
        obtain ⟨z, hz⟩ : ∃ z, (y :: l).getLast? = some z :=
          ⟨(y :: l).getLast (by simp),
            List.getLast?_eq_getLast_of_ne_nil (by simp)⟩
        rw [List.getLast?_cons_cons, hz]
    · rw [if_neg (by simpa using hk)]
      rw [show scoreAt d ((k, v) :: rest) r = d from by simp [scoreAt, hk]]
      rw [List.filter_eq_nil_iff.mpr ?_]
      · rfl
      · intro s hs
        have := (List.pairwise_cons.mp hsorted).1 s hs
        simp only [decide_eq_true_eq]
        omega

/-- The step-function score differs between two defaults only when the
walk never enters the table. -/
theorem scoreAt_default_cases :
    ∀ (scores : List (Nat × Int)) (d d' : Int) (r : Nat),
      (scoreAt d scores r = d ∧ scoreAt d' scores r = d') ∨
        scoreAt d scores r = scoreAt d' scores r := by
  intro scores
  induction scores with
  | nil => intro d d' r; exact Or.inl ⟨rfl, rfl⟩
  | cons x rest ih =>
    intro d d' r
    obtain ⟨k, v⟩ := x
    by_cases hk : k ≤ r
    · right; simp [scoreAt, hk]
    · left; constructor <;> simp [scoreAt, hk]

/-- Every step-function value is either the default or a listed count. -/
theorem scoreAt_cases :
    ∀ (scores : List (Nat × Int)) (d : Int) (r : Nat),
      scoreAt d scores r = d ∨ ∃ s ∈ scores, scoreAt d scores r = s.2 := by
  intro scores
  induction scores with
  | nil => intro d r; exact Or.inl rfl
  | cons x rest ih =>
    intro d r
    obtain ⟨k, v⟩ := x
    by_cases hk : k ≤ r
    · rcases ih v r with h | ⟨s, hs, h⟩
      · exact Or.inr ⟨(k, v), List.mem_cons_self _ _, by simp [scoreAt, hk, h]⟩
      · exact Or.inr ⟨s, List.mem_cons_of_mem _ hs, by simp [scoreAt, hk, h]⟩
    · exact Or.inl (by simp [scoreAt, hk])

/-- On a sorted table, the score at a listed revnum is its listed count. -/
theorem scoreAt_listed :
    ∀ (scores : List (Nat × Int)) (d : Int) (k : Nat) (v : Int),
      SortedKeys scores → (k, v) ∈ scores → scoreAt d scores k = v := by
  intro scores
  induction scores with
  | nil => intro d k v _ h; simp at h
  | cons x rest ih =>
    intro d k v hsorted hmem
    obtain ⟨a, b⟩ := x
    rcases List.mem_cons.mp hmem with heq | hmem'
    · cases heq
      rw [show scoreAt d ((k, v) :: rest) k = scoreAt v rest k from by
        simp [scoreAt]]
      have hgt : ∀ s ∈ rest, ¬ s.1 ≤ k := by
        intro s hs
        have := (List.pairwise_cons.mp hsorted).1 s hs
        omega
      cases rest with
      | nil => rfl
      | cons y l =>
        have := hgt y (List.mem_cons_self _ _)
        obtain ⟨yk, yv⟩ := y
        simp only at this
        simp [scoreAt, this]
    · have ha : a < k := by
        have := (List.pairwise_cons.mp hsorted).1 (k, v) hmem'
        simpa using this
      rw [show scoreAt d ((a, b) :: rest) k = scoreAt b rest k from by
        simp [scoreAt, le_of_lt ha]]
      exact ih b k v (List.pairwise_cons.mp hsorted).2 hmem'

/-- On a sorted table, `find?` returns the entry with the least key among
those satisfying the predicate. -/
theorem find?_least :
    ∀ (scores : List (Nat × Int)) (p : Nat × Int → Bool) (s₀ : Nat × Int),
      SortedKeys scores → scores.find? p = some s₀ →
      s₀ ∈ scores ∧ p s₀ = true ∧ ∀ s ∈ scores, p s = true → s₀.1 ≤ s.1 := by
  intro scores
  induction scores with
  | nil => intro p s₀ _ h; simp at h
  | cons x rest ih =>
    intro p s₀ hsorted hfind
    rw [List.find?_cons] at hfind
    cases hx : p x with
    | true =>
      rw [hx] at hfind
      obtain rfl : x = s₀ := by simpa using hfind
      refine ⟨List.mem_cons_self _ _, hx, ?_⟩
      intro s hs _
      rcases List.mem_cons.mp hs with rfl | hs'
      · exact le_refl _
      · have := (List.pairwise_cons.mp hsorted).1 s hs'
        omega
    | false =>
      rw [hx] at hfind
      obtain ⟨hmem, hp, hleast⟩ :=
        ih p s₀ (List.pairwise_cons.mp hsorted).2 hfind
      refine ⟨List.mem_cons_of_mem _ hmem, hp, ?_⟩
      intro s hs hps
      rcases List.mem_cons.mp hs with rfl | hs'
      · rw [hps] at hx; exact absurd hx (by simp)
      · exact hleast s hs' hps

end SymbolFill

namespace SymbolFill

/-- The `_best_rev` selection rule, characterized: the result is the
preferred revnum when its score ties the maximum and it does not exceed
the largest scored revnum; otherwise it is the least revnum attaining the
maximum score.  Either way the selected revnum attains the maximum
score. -/
theorem bestRev_spec (scores : List (Nat × Int)) (preferred : Nat)
    (hsorted : SortedKeys scores) (hmax1 : 1 ≤ maxCount scores) :
    ∃ s₀, scores.find? (fun s => decide (s.2 = maxCount scores)) = some s₀ ∧
      s₀.2 = maxCount scores ∧
      (∀ s ∈ scores, s.2 = maxCount scores → s₀.1 ≤ s.1) ∧
      bestRev scores preferred =
        (if scoreAt 0 scores preferred = maxCount scores ∧
            preferred ≤ maxKey scores
         then (preferred : Int) else (s₀.1 : Int)) ∧
      scoreAt 0 scores (bestRev scores preferred).toNat = maxCount scores := by
  have hpos : 0 < maxCount scores := by omega
  have hsome : (scores.find? fun s => decide (s.2 = maxCount scores)).isSome := by
    rw [List.find?_isSome]
    obtain ⟨s, hs, hv⟩ := maxCount_attained scores hpos
    exact ⟨s, hs, by simpa using hv⟩
  obtain ⟨s₀, hs₀⟩ := Option.isSome_iff_exists.mp hsome
  obtain ⟨hmem, hp, hleast⟩ := find?_least scores _ s₀ hsorted hs₀
  have hs₀v : s₀.2 = maxCount scores := by simpa using hp
  obtain ⟨hms, hmr, hps, hrev⟩ := bestRev_foldl_spec preferred scores
  have hpseq : (scores.foldl (bestRevStep preferred) ⟨0, 1, -1, -1⟩).preferredScore
      = scoreAt (-1) scores preferred := by
    rw [hps, filter_getLast_eq_scoreAt preferred (-1) scores hsorted]
  have hcond : ((scores.foldl (bestRevStep preferred) ⟨0, 1, -1, -1⟩).preferredScore
        = (scores.foldl (bestRevStep preferred) ⟨0, 1, -1, -1⟩).maxScore
      ∧ preferred ≤ (scores.foldl (bestRevStep preferred) ⟨0, 1, -1, -1⟩).maxRev)
      ↔ (scoreAt 0 scores preferred = maxCount scores ∧
          preferred ≤ maxKey scores) := by
    rw [hpseq, hms, hmr]
    constructor
    · rintro ⟨h1, h2⟩
      refine ⟨?_, h2⟩
      rcases scoreAt_default_cases scores (-1) 0 preferred with ⟨ha, _⟩ | heq
      · rw [ha] at h1; omega
      · rw [← heq, h1]
    · rintro ⟨h1, h2⟩
      refine ⟨?_, h2⟩
      rcases scoreAt_default_cases scores (-1) 0 preferred with ⟨_, hb⟩ | heq
      · rw [hb] at h1; omega
      · rw [heq, h1]
  have hbr : bestRev scores preferred =
      (if scoreAt 0 scores preferred = maxCount scores ∧
          preferred ≤ maxKey scores
       then (preferred : Int) else (s₀.1 : Int)) := by
    unfold bestRev
    simp only
    rw [if_congr hcond rfl rfl]
    by_cases hc : scoreAt 0 scores preferred = maxCount scores ∧
        preferred ≤ maxKey scores
    · rw [if_pos hc, if_pos hc]
    · rw [if_neg hc, if_neg hc, hrev, if_pos hpos, hs₀]
  refine ⟨s₀, hs₀, hs₀v, fun s hs hv => hleast s hs (by simpa using hv), hbr, ?_⟩
  rw [hbr]
  by_cases hc : scoreAt 0 scores preferred = maxCount scores ∧
      preferred ≤ maxKey scores
  · rw [if_pos hc]
    rw [Int.toNat_natCast]
    exact hc.1
  · rw [if_neg hc]
    rw [Int.toNat_natCast]
    rw [scoreAt_listed scores 0 s₀.1 s₀.2 hsorted (by
      rcases s₀ with ⟨a, b⟩; exact hmem)]
    exact hs₀v

/-- Structure of a nonempty node's score table: its head entry is the
least opening revnum with a positive count, and its keys are sorted. -/
theorem nodeScores_struct (leaves : List Leaf)
    (hcl : ∀ l ∈ leaves, ∀ c, l.closing = some c → l.opening < c)
    (l₀ : Leaf) (ls : List Leaf) (hlv : leaves = l₀ :: ls) :
    ∃ o₀ c₀, (nodeScores leaves).head? = some (o₀, c₀) ∧ 1 ≤ c₀ ∧
      SortedKeys (nodeScores leaves) := by
  have hcone : condenseScores (leafOpenings leaves) ≠ [] := by
    intro hc
    have := condenseScores_mem_keys (leafOpenings leaves) l₀.opening
    rw [hc] at this
    simp only [List.map_nil, List.not_mem_nil, false_iff] at this
    exact this (by rw [hlv]; exact List.mem_cons_self _ _)
  obtain ⟨x, co', hco⟩ := List.exists_cons_of_ne_nil hcone
  obtain ⟨o₀, c₀⟩ := x
  have hsorted := condenseScores_sorted (leafOpenings leaves)
  rw [hco] at hsorted
  have hmin : ∀ o ∈ leafOpenings leaves, o₀ ≤ o := by
    intro o ho
    have : o ∈ ((o₀, c₀) :: co').map Prod.fst := by
      rw [← hco]
      exact (condenseScores_mem_keys _ o).mpr ho
    rcases List.mem_cons.mp this with h | h
    · omega
    · obtain ⟨b, hb, rfl⟩ := List.mem_map.mp h
      have := (List.pairwise_cons.mp hsorted).1 b hb
      omega
  have hclgt : ∀ cl ∈ condenseScores (leafClosings leaves), o₀ < cl.1 := by
    intro cl hcl'
    have hmem : cl.1 ∈ leafClosings leaves := by
      have : cl.1 ∈ (condenseScores (leafClosings leaves)).map Prod.fst :=
        List.mem_map.mpr ⟨cl, hcl', rfl⟩
      exact (condenseScores_mem_keys _ _).mp this
    obtain ⟨l, hl, hlc⟩ := List.mem_filterMap.mp hmem
    have h1 : l.opening < cl.1 := hcl l hl cl.1 hlc
    have h2 : o₀ ≤ l.opening := hmin l.opening
      (List.mem_map.mpr ⟨l, hl, rfl⟩)
    omega
  have hres : nodeScores leaves
      = (condenseScores (leafClosings leaves)).foldl applyClosing
          (openingScores (condenseScores (leafOpenings leaves))) := by
    unfold nodeScores scoreRevisions
    rw [if_neg hcone]
  have hoshead : (openingScores (condenseScores (leafOpenings leaves))).head?
      = some (o₀, 0 + (c₀ : Int)) := by
    rw [hco]
    rfl
  have hossorted : SortedKeys
      (openingScores (condenseScores (leafOpenings leaves))) :=
    openingScoresAux_sorted _ 0 (condenseScores_sorted _)
  obtain ⟨hh, hs, _⟩ := foldl_applyClosing_spec
    (condenseScores (leafClosings leaves))
    (openingScores (condenseScores (leafOpenings leaves)))
    o₀ (0 + (c₀ : Int)) hoshead hossorted hclgt
  refine ⟨o₀, 0 + (c₀ : Int), by rw [hres]; exact hh, ?_, by rw [hres]; exact hs⟩
  have hc₀ : c₀ = (leafOpenings leaves).count o₀ := by
    have : (o₀, c₀) ∈ condenseScores (leafOpenings leaves) := by
      rw [hco]; exact List.mem_cons_self _ _
    unfold condenseScores at this
    obtain ⟨k, _, hk⟩ := List.mem_map.mp this
    have hfst : k = o₀ := by simpa using congrArg Prod.fst hk
    subst hfst
    have := congrArg Prod.snd hk
    simpa using this.symm
  have ho₀mem : o₀ ∈ leafOpenings leaves := by
    have : o₀ ∈ (condenseScores (leafOpenings leaves)).map Prod.fst := by
      rw [hco]; simp
    exact (condenseScores_mem_keys _ _).mp this
  have : 1 ≤ (leafOpenings leaves).count o₀ := List.count_pos_iff_mem.mpr ho₀mem
  omega

end SymbolFill

namespace SymbolFill

/-- **C4 (amended).** For a filling-guide node whose leaf paths each have
`opening < closing`, the computed score of every candidate revnum `r`
equals the number of leaf paths under the node with `opening ≤ r <
closing`; and (for a node with at least one leaf) the revnum selected by
`_best_rev` attains the maximum score, with ties resolved in favor of the
preferred (inherited) revnum when it attains the maximum *and does not
exceed the largest scored revnum*, and otherwise in favor of the lowest
revnum attaining the maximum. -/
theorem C4_scoring_amended (leaves : List Leaf) (preferred : Nat)
    (hcl : ∀ l ∈ leaves, ∀ c, l.closing = some c → l.opening < c) :
    (∀ r, scoreAt 0 (nodeScores leaves) r
        = (leaves.countP (leafCorrectAt r) : Int)) ∧
    (∀ r, scoreAt 0 (nodeScores leaves) r ≤ maxCount (nodeScores leaves)) ∧
    (leaves ≠ [] →
      ∃ s₀, (nodeScores leaves).find?
            (fun s => decide (s.2 = maxCount (nodeScores leaves))) = some s₀ ∧
        s₀.2 = maxCount (nodeScores leaves) ∧
        (∀ s ∈ nodeScores leaves,
          s.2 = maxCount (nodeScores leaves) → s₀.1 ≤ s.1) ∧
        bestRev (nodeScores leaves) preferred =
          (if scoreAt 0 (nodeScores leaves) preferred
                = maxCount (nodeScores leaves) ∧
              preferred ≤ maxKey (nodeScores leaves)
           then (preferred : Int) else (s₀.1 : Int)) ∧
        scoreAt 0 (nodeScores leaves)
            (bestRev (nodeScores leaves) preferred).toNat
          = maxCount (nodeScores leaves)) := by
  refine ⟨nodeScores_scoreAt leaves hcl, ?_, ?_⟩
  · intro r
    rcases scoreAt_cases (nodeScores leaves) 0 r with h | ⟨s, hs, h⟩
    · rw [h]; exact maxCount_nonneg _
    · rw [h]; exact le_maxCount _ s hs
  · intro hne
    obtain ⟨l₀, ls, hlv⟩ := List.exists_cons_of_ne_nil hne
    obtain ⟨o₀, c₀, hhead, hc₀, hsorted⟩ := nodeScores_struct leaves hcl l₀ ls hlv
    have hmem : (o₀, c₀) ∈ nodeScores leaves := by
      cases hsc : nodeScores leaves with
      | nil => rw [hsc] at hhead; simp at hhead
      | cons y l =>
        rw [hsc] at hhead
        simp only [List.head?_cons, Option.some_inj] at hhead
        rw [← hhead]
        exact List.mem_cons_self _ _
    have hmax1 : 1 ≤ maxCount (nodeScores leaves) :=
      le_trans hc₀ (le_maxCount _ _ hmem)
    exact bestRev_spec (nodeScores leaves) preferred hsorted hmax1

/-- **C4 counterexample.** A node with the single leaf `(opening 5, no
closing)`, with inherited preferred revnum 10: revnum 10 attains the
node's maximum score (copying from revision 10 yields the one correct
path), yet `_best_rev` selects 5 because the preferred revnum exceeds the
largest scored revnum.  This refutes the tie-breaking rule as stated in
the claim. -/
theorem C4_counterexample :
    scoreAt 0 (nodeScores [⟨5, none⟩]) 10 = maxCount (nodeScores [⟨5, none⟩]) ∧
    (([⟨5, none⟩] : List Leaf).countP (leafCorrectAt 10) : Int)
      = maxCount (nodeScores [⟨5, none⟩]) ∧
    bestRev (nodeScores [⟨5, none⟩]) 10 = 5 ∧ ((5 : Int) ≠ 10) := by decide

/-- Witness for C4 (amended) at a node with two leaves `(5, closing 7)`
and `(6, open)`: the score at revnum 6 counts both correct leaf paths. -/
theorem C4_scoring_amended_witness :
    scoreAt 0 (nodeScores [⟨5, some 7⟩, ⟨6, none⟩]) 6
      = (([⟨5, some 7⟩, ⟨6, none⟩] : List Leaf).countP (leafCorrectAt 6) : Int) :=
  (C4_scoring_amended [⟨5, some 7⟩, ⟨6, none⟩] 6 (by decide)).1 6

end SymbolFill

/- ----------------------------------------------------------------------
   Pass 2 timestamp resynchronization (may-04-redesign/cvs2svn.py,
   read_resync and pass2)

   Pass 1 records, for every revision whose timestamp it had to shove
   back in time, a resync hint line `old_time digest new_time`.
   `read_resync` turns the hint file into a map
   digest -> [[old_time - T/2, old_time + T/2, new_time], ...] with each
   list sorted; `pass2` streams the revision records and rewrites the
   timestamp of every record whose digest has a hint whose interval
   contains the record's time, widening that hint's interval by +-T/2
   around the record's time.
   ---------------------------------------------------------------------- -/

namespace Resync

/-- COMMIT_THRESHOLD = 5 * 60 (cvs2svn.py line 226). -/
def COMMIT_THRESHOLD : Int := 5 * 60

/-- One revision record of the revs file, with the same-LOD predecessor
link carried alongside (ids are unique). -/
structure RevRecord where
  id : Nat
  prev : Option Nat
  digest : Nat
  timestamp : Int
deriving Repr, DecidableEq

/-- Association-list lookup (a Python dict keyed by digest). -/
def alistLookup {β : Type} : List (Nat × β) → Nat → Option β
  | [], _ => none
  | (k, v) :: rest, d => if k = d then some v else alistLookup rest d

/-- Association-list update of an existing key. -/
def alistSet {β : Type} : List (Nat × β) → Nat → β → List (Nat × β)
  | [], _, _ => []
  | (k, v) :: rest, d, w =>
    if k = d then (k, w) :: rest else (k, v) :: alistSet rest d w

/-- Append a value to a key's list, creating the key if needed (the
`resync.has_key` branch of `read_resync`). -/
def alistAppend : List (Nat × List (Int × Int × Int)) → Nat →
    (Int × Int × Int) → List (Nat × List (Int × Int × Int))
  | [], d, e => [(d, [e])]
  | (k, v) :: rest, d, e =>
    if k = d then (k, v ++ [e]) :: rest else (k, v) :: alistAppend rest d e

/-- Lexicographic comparison of hint records `[lower, upper, new]`, the
order Python's `list.sort()` uses on the three-element lists. -/
def hintLe (a b : Int × Int × Int) : Prop :=
  a.1 < b.1 ∨ (a.1 = b.1 ∧ (a.2.1 < b.2.1 ∨ (a.2.1 = b.2.1 ∧ a.2.2 ≤ b.2.2)))

instance : DecidableRel hintLe := fun a b => by
  unfold hintLe; infer_instance

/-- `read_resync`: build the digest map from the hint lines
`(old_time, digest, new_time)` and sort each digest's records. -/
def read_resync (hints : List (Int × Nat × Int)) :
    List (Nat × List (Int × Int × Int)) :=
  let m := hints.foldl
    (fun m h => alistAppend m h.2.1
      (h.1 - COMMIT_THRESHOLD / 2, h.1 + COMMIT_THRESHOLD / 2, h.2.2))
    []
  m.map (fun e => (e.1, e.2.insertionSort hintLe))

/-- The inner loop of `pass2`: find the first hint record whose interval
contains `ts`; widen its interval by the half-threshold around `ts` and
return the new time. -/
def findAndWiden (ts : Int) : List (Int × Int × Int) →
    Option (List (Int × Int × Int) × Int)
  | [] => none
  | (lo, hi, tnew) :: rest =>
    if lo ≤ ts ∧ ts ≤ hi then
      some ((min lo (ts - COMMIT_THRESHOLD / 2),
             max hi (ts + COMMIT_THRESHOLD / 2), tnew) :: rest, tnew)
    else
      match findAndWiden ts rest with
      | none => none
      | some (rest', t) => some ((lo, hi, tnew) :: rest', t)

/-- One record of the `pass2` stream loop. -/
def pass2Step (resync : List (Nat × List (Int × Int × Int))) (r : RevRecord) :
    List (Nat × List (Int × Int × Int)) × RevRecord :=
  match alistLookup resync r.digest with
  | none => (resync, r)
  | some recs =>
    match findAndWiden r.timestamp recs with
    | none => (resync, r)
    | some (recs', tnew) =>
      (alistSet resync r.digest recs', { r with timestamp := tnew })

/-- `pass2`: stream the records, threading the (mutated) resync map. -/
def pass2Go (resync : List (Nat × List (Int × Int × Int))) :
    List RevRecord → List RevRecord
  | [] => []
  | r :: rs =>
    match pass2Step resync r with
    | (resync', r') => r' :: pass2Go resync' rs

def pass2 (hints : List (Int × Nat × Int)) (records : List RevRecord) :
    List RevRecord :=
  pass2Go (read_resync hints) records

/-- The claimed output property: every revision's timestamp strictly
exceeds its same-LOD predecessor's. -/
def StrictPredOrder (records : List RevRecord) : Prop :=
  ∀ r ∈ records, ∀ r' ∈ records, r.prev = some r'.id →
    r'.timestamp < r.timestamp

instance (records : List RevRecord) : Decidable (StrictPredOrder records) := by
  unfold StrictPredOrder; infer_instance

/-- **C1 counterexample.**  A file with revisions r1 (digest 10, t=100)
and its successor r2 (digest 11, t=200), plus the resync hint
`(200, digest 11, 50)` — exactly what Pass 1 emits when another file's
digest-11 commit at t=200 had to be shoved back to t=50.  The input
satisfies the strict predecessor ordering, but Pass 2 rewrites r2's time
to 50 < 100, so the output violates it. -/
theorem C1_counterexample :
    StrictPredOrder [⟨1, none, 10, 100⟩, ⟨2, some 1, 11, 200⟩] ∧
    (pass2 [(200, 11, 50)] [⟨1, none, 10, 100⟩, ⟨2, some 1, 11, 200⟩]).map
        RevRecord.timestamp = [100, 50] ∧
    ¬ StrictPredOrder
      (pass2 [(200, 11, 50)] [⟨1, none, 10, 100⟩, ⟨2, some 1, 11, 200⟩]) := by
  refine ⟨by decide, by decide, by decide⟩

theorem pass2Go_no_hit (resync : List (Nat × List (Int × Int × Int))) :
    ∀ records : List RevRecord,
      (∀ r ∈ records, alistLookup resync r.digest = none) →
      pass2Go resync records = records := by
  intro records
  induction records with
  | nil => intro _; rfl
  | cons r rs ih =>
    intro h
    have hr : alistLookup resync r.digest = none :=
      h r (List.mem_cons_self _ _)
    unfold pass2Go pass2Step
    rw [hr]
    simp only
    rw [ih (fun r hr => h r (List.mem_cons_of_mem _ hr))]

/-- **C1 (amended).**  Pass 2 leaves every record whose digest has no
resync hint unchanged; in particular, for an input whose digests are
disjoint from the hinted digests, the output is the input itself and the
strict predecessor ordering of the input is preserved.  (By
`C1_counterexample`, a hint can rewrite a matching revision's timestamp to
a time at or before its predecessor's, so the strict ordering does not
hold for every input.) -/
theorem C1_pass2_amended (hints : List (Int × Nat × Int))
    (records : List RevRecord)
    (hmiss : ∀ r ∈ records, alistLookup (read_resync hints) r.digest = none)
    (hord : StrictPredOrder records) :
    pass2 hints records = records ∧ StrictPredOrder (pass2 hints records) := by
  have h := pass2Go_no_hit (read_resync hints) records hmiss
  exact ⟨h, by rw [pass2, h]; exact hord⟩

/-- Witness for C1 (amended): the hint digest 5 touches no record. -/
theorem C1_pass2_amended_witness :
    pass2 [(200, 5, 50)] [⟨1, none, 10, 100⟩, ⟨2, some 1, 11, 200⟩]
        = [⟨1, none, 10, 100⟩, ⟨2, some 1, 11, 200⟩] ∧
      StrictPredOrder
        (pass2 [(200, 5, 50)] [⟨1, none, 10, 100⟩, ⟨2, some 1, 11, 200⟩]) :=
  C1_pass2_amended [(200, 5, 50)]
    [⟨1, none, 10, 100⟩, ⟨2, some 1, 11, 200⟩] (by decide) (by decide)

end Resync

/- ----------------------------------------------------------------------
   Schedule pass timestamp assignment (C2)

   The changeset consumers in the sources
   (graph-based/cvs2svn_lib/cvs_revision_aggregator.py
   CVSRevisionAggregator.process_changeset and
   symbol-dependencies/cvs2svn_lib/svn_commit_creator.py
   SVNCommitCreator._process_revision_changeset) take the already-assigned
   timestamp as a parameter and stamp it onto every CVSRevision and
   SVNCommit of the changeset; the scheduler that computes that timestamp
   is not among the source files.
   ---------------------------------------------------------------------- -/

namespace Sched

/-- Modelled from the spec: the Schedule pass (§4.3) assigns each emitted
changeset the SVN timestamp `t = max(t_min_of_changeset,
last_emitted_t + 1)`; the scheduler component computing this is missing
from the source tree, which only contains the consumers that stamp the
given timestamp onto all of a changeset's entries. -/
def assignTimestamps (tmins : List Int) : List Int :=
  go none tmins
where
  go : Option Int → List Int → List Int
    | _, [] => []
    | none, t :: ts => t :: go (some t) ts
    | some last, t :: ts =>
      let t' := max t (last + 1)
      t' :: go (some t') ts

/-- `SVNCommitCreator._process_revision_changeset` together with
`_commit_symbols` (symbol-dependencies/cvs2svn_lib/svn_commit_creator.py
lines 294-325 and 59-82): each processed changeset emits its primary
commit and then its secondary commits (`_pre_commit`/`_post_commit`
results, each given `svn_commit.date = timestamp`) and symbol-close
commits (`SVNSymbolCloseCommit(symbol, timestamp)`), every one stamped
with the changeset's assigned timestamp.  Each such SVNCommit becomes
its own SVN revision.  A changeset is abstracted to the data that
determines the emitted dates: its minimal member timestamp and the
number of extra (secondary plus symbol-close) commits it motivates; the
timestamp itself is computed as in `assignTimestamps`. -/
def emittedDates (cs : List (Int × Nat)) : List Int :=
  go none cs
where
  go : Option Int → List (Int × Nat) → List Int
    | _, [] => []
    | last, (tmin, extra) :: rest =>
      let t := match last with
        | none => tmin
        | some l => max tmin (l + 1)
      (t :: List.replicate extra t) ++ go (some t) rest

theorem assignTimestamps_go_chain (last : Int) :
    ∀ (ts : List Int), (assignTimestamps.go (some last) ts).Chain' (· < ·) ∧
      ∀ x ∈ (assignTimestamps.go (some last) ts).head?, last < x := by
  intro ts
  induction ts generalizing last with
  | nil => exact ⟨List.chain'_nil, by simp [assignTimestamps.go]⟩
  | cons t ts ih =>
    obtain ⟨hchain, hhead⟩ := ih (max t (last + 1))
    constructor
    · show List.Chain' (· < ·) (max t (last + 1) :: _)
      rw [List.chain'_cons']
      exact ⟨fun y hy => hhead y hy, hchain⟩
    · intro x hx
      simp only [assignTimestamps.go, List.head?_cons, Option.mem_def,
        Option.some_inj] at hx
      subst hx
      omega

theorem replicate_chain_le (t : Int) (L : List Int)
    (hL : L.Chain' (· ≤ ·)) (hhd : ∀ x ∈ L.head?, t ≤ x) :
    ∀ k, (List.replicate k t ++ L).Chain' (· ≤ ·) ∧
      (∀ x ∈ (List.replicate k t ++ L).head?, t ≤ x) := by
  intro k
  induction k with
  | zero => exact ⟨hL, hhd⟩
  | succ k ih =>
    rw [List.replicate_succ, List.cons_append]
    refine ⟨List.chain'_cons'.mpr ⟨ih.2, ih.1⟩, ?_⟩
    intro x hx
    rw [List.head?_cons, Option.mem_def, Option.some_inj] at hx
    omega

theorem emittedDates_go_chain :
    ∀ (cs : List (Int × Nat)) (last : Option Int),
      (emittedDates.go last cs).Chain' (· ≤ ·) ∧
      (∀ x ∈ (emittedDates.go last cs).head?, ∀ l, last = some l →
        l < x) := by
  intro cs
  induction cs with
  | nil =>
    intro last
    exact ⟨List.chain'_nil, by simp [emittedDates.go]⟩
  | cons c rest ih =>
    intro last
    obtain ⟨tmin, extra⟩ := c
    have hgo : emittedDates.go last ((tmin, extra) :: rest)
        = ((match last with
            | none => tmin
            | some l => max tmin (l + 1)) ::
            List.replicate extra (match last with
              | none => tmin
              | some l => max tmin (l + 1))) ++
          emittedDates.go (some (match last with
            | none => tmin
            | some l => max tmin (l + 1))) rest := rfl
    obtain ⟨w, hw⟩ : ∃ w, (match last with
        | none => tmin
        | some l => max tmin (l + 1) : Int) = w := ⟨_, rfl⟩
    rw [hgo, hw]
    obtain ⟨hch, hhd⟩ := ih (some w)
    have hrep := replicate_chain_le w (emittedDates.go (some w) rest) hch
      (fun x hx => le_of_lt (hhd x hx w rfl)) extra
    constructor
    · rw [List.cons_append]
      exact List.chain'_cons'.mpr ⟨hrep.2, hrep.1⟩
    · intro x hx l hlast
      rw [List.cons_append, List.head?_cons, Option.mem_def,
        Option.some_inj] at hx
      subst hx
      rw [hlast] at hw
      subst hw
      simp only []
      omega

/-- The emitted date stream is the flattening of one constant group per
scheduled changeset, the group timestamps being exactly the
`assignTimestamps` schedule. -/
theorem emittedDates_groups :
    ∀ (cs : List (Int × Nat)) (last : Option Int),
      emittedDates.go last cs
        = (List.zipWith (fun t k => t :: List.replicate k t)
            (assignTimestamps.go last (cs.map Prod.fst))
            (cs.map Prod.snd)).join := by
  intro cs
  induction cs with
  | nil =>
    intro last
    cases last with
    | none => rfl
    | some l => rfl
  | cons c rest ih =>
    intro last
    obtain ⟨tmin, extra⟩ := c
    cases last with
    | none =>
      show (tmin :: List.replicate extra tmin)
            ++ emittedDates.go (some tmin) rest
          = (tmin :: List.replicate extra tmin)
            ++ (List.zipWith (fun t k => t :: List.replicate k t)
                (assignTimestamps.go (some tmin) (rest.map Prod.fst))
                (rest.map Prod.snd)).join
      rw [ih (some tmin)]
    | some l =>
      show (max tmin (l + 1) :: List.replicate extra (max tmin (l + 1)))
            ++ emittedDates.go (some (max tmin (l + 1))) rest
          = (max tmin (l + 1) :: List.replicate extra (max tmin (l + 1)))
            ++ (List.zipWith (fun t k => t :: List.replicate k t)
                (assignTimestamps.go (some (max tmin (l + 1)))
                  (rest.map Prod.fst))
                (rest.map Prod.snd)).join
      rw [ih (some (max tmin (l + 1)))]

/-- C2 counterexample: a changeset that motivates one secondary commit
(e.g. a post-commit or a symbol-close commit) yields two consecutive
emitted SVN revisions with the same `svn:date`, because
`_process_revision_changeset` sets `svn_commit.date = timestamp` on
every secondary commit; the claimed strict increase fails. -/
theorem C2_counterexample :
    emittedDates [((0 : Int), 1)] = [0, 0] ∧
    ¬ (emittedDates [((0 : Int), 1)]).Chain' (· < ·) := by
  refine ⟨rfl, ?_⟩
  intro h
  rw [show emittedDates [((0 : Int), 1)] = [0, 0] from rfl,
    List.chain'_cons] at h
  exact absurd h.1 (lt_irrefl 0)

/-- **C2 (amended).** Each scheduled changeset is assigned the SVN
timestamp `t = max(t_min, last_emitted_t + 1)`, and these per-changeset
timestamps are strictly increasing; every SVN revision emitted for one
changeset (the primary commit, its secondary pre/post commits and its
symbol-close commits) carries that same timestamp as `svn:date`.  Hence
the `svn:date` stream over consecutive emitted revisions is
non-decreasing, with strict increase between revisions of different
changesets, but consecutive revisions emitted for the same changeset
share an equal `svn:date` (see `C2_counterexample`), so the claimed
universal strict increase fails exactly there. -/
theorem C2_emitted_dates_amended (cs : List (Int × Nat)) :
    (emittedDates cs).Chain' (· ≤ ·) ∧
    emittedDates cs
      = (List.zipWith (fun t k => t :: List.replicate k t)
          (assignTimestamps (cs.map Prod.fst)) (cs.map Prod.snd)).join ∧
    (assignTimestamps (cs.map Prod.fst)).Chain' (· < ·) := by
  refine ⟨(emittedDates_go_chain cs none).1, emittedDates_groups cs none, ?_⟩
  unfold assignTimestamps
  cases hm : cs.map Prod.fst with
  | nil => exact List.chain'_nil
  | cons t ts =>
    show List.Chain' (· < ·) (t :: assignTimestamps.go (some t) ts)
    rw [List.chain'_cons']
    exact ⟨fun y hy => (assignTimestamps_go_chain t ts).2 y hy,
      (assignTimestamps_go_chain t ts).1⟩

end Sched

/- ----------------------------------------------------------------------
   Primary-commit creation (symbol-dependencies/cvs2svn_lib/
   svn_commit_creator.py, SVNCommitCreator._delete_needed, ._commit,
   ._process_revision_changeset)
   ---------------------------------------------------------------------- -/

namespace Commit

inductive Op where
  | add
  | change
  | delete
deriving Repr, DecidableEq

/-- A CVSRevision as consumed by `_commit`.  `rev` is the dotted RCS
revision number; `logIsCvsGenerated` abstracts the comparison of the
revision's log message with the CVS-fabricated
`file ... was initially added on branch ...` message. -/
structure CVSRev where
  id : Nat
  rev : List Nat
  deltatext_exists : Bool
  default_branch_revision : Bool
  op : Op
  prev_id : Option Nat
  branch_ids : List Nat
  logIsCvsGenerated : Bool
deriving Repr, DecidableEq

/-- `SVNCommitCreator._delete_needed`. -/
def delete_needed (r : CVSRev) : Bool :=
  match r.prev_id with
  | some _ => true
  | none =>
    if r.branch_ids = [] then false
    else ! r.logIsCvsGenerated

structure SVNPrimaryCommit where
  cvs_revs : List CVSRev
  date : Int
deriving Repr, DecidableEq

/-- `SVNCommitCreator._commit`: build the primary commit from CHANGES and
DELETES and collect the default-branch revisions, skipping a `1.1.1.1`
revision with empty deltatext.  Returns the commit, the default-branch
revisions and whether the commit was flushed to the persistence
manager. -/
def commit (timestamp : Int) (changes deletes : List CVSRev) :
    SVNPrimaryCommit × List CVSRev × Bool :=
  let needed_deletes := deletes.filter delete_needed
  let svn_commit : SVNPrimaryCommit := ⟨changes ++ needed_deletes, timestamp⟩
  let default_branch_cvs_revisions :=
    (changes.filter (fun r =>
      if r.rev = [1, 1, 1, 1] && !r.deltatext_exists then false
      else r.default_branch_revision)) ++
    needed_deletes.filter (fun r => r.default_branch_revision)
  (svn_commit, default_branch_cvs_revisions, !(svn_commit.cvs_revs = []))

/-- The partition of a revision changeset into changes and deletes
(`_process_revision_changeset`). -/
def partitionChangeset (cvs_revs : List CVSRev) : List CVSRev × List CVSRev :=
  (cvs_revs.filter (fun r => !(r.op = Op.delete)),
   cvs_revs.filter (fun r => r.op = Op.delete))

/-- Modelled from the spec: the dumpfile emitter (spec 4.7, not among the
source files) applies each member operation of the flushed primary commit
to the mirror and emits one node record per add/change and one delete per
delete, i.e. one operation per member CVSRevision of the commit. -/
def emittedOps (c : SVNPrimaryCommit) : List (Nat × Op) :=
  c.cvs_revs.map (fun r => (r.id, r.op))

/-- **C9.** The vendor-import boundary case: file with revisions 1.1
(content, `Initial revision`) and 1.1.1.1 with empty deltatext.  The
commit carrying 1.1 emits exactly one add operation.  But `_commit`
includes the 1.1.1.1 revision in `SVNPrimaryCommit(changes +
needed_deletes, ...)` unconditionally — the empty-deltatext check (whose
comment says "we want to do nothing in this case") only excludes the
revision from `default_branch_cvs_revisions` — so a separate change
operation is emitted for 1.1.1.1, contrary to the claim. -/
theorem C9_vendor_import_code_bug :
    -- the changeset carrying 1.1 produces exactly one add operation:
    emittedOps (commit 100
        (partitionChangeset [⟨1, [1, 1], true, false, Op.add, none, [3], true⟩]).1
        (partitionChangeset [⟨1, [1, 1], true, false, Op.add, none, [3], true⟩]).2).1
      = [(1, Op.add)] ∧
    -- the changeset carrying the empty-deltatext 1.1.1.1 still registers
    -- the revision in the primary commit and emits an operation for it:
    (commit 200
        (partitionChangeset
          [⟨2, [1, 1, 1, 1], false, false, Op.change, some 1, [], false⟩]).1
        (partitionChangeset
          [⟨2, [1, 1, 1, 1], false, false, Op.change, some 1, [], false⟩]).2).1.cvs_revs
      = [⟨2, [1, 1, 1, 1], false, false, Op.change, some 1, [], false⟩] ∧
    emittedOps (commit 200
        (partitionChangeset
          [⟨2, [1, 1, 1, 1], false, false, Op.change, some 1, [], false⟩]).1
        (partitionChangeset
          [⟨2, [1, 1, 1, 1], false, false, Op.change, some 1, [], false⟩]).2).1
      = [(2, Op.change)] ∧
    -- the only effect of the 1.1.1.1 check: the revision is kept out of
    -- the default-branch list (even when marked default_branch_revision):
    (commit 200
        [⟨2, [1, 1, 1, 1], false, true, Op.change, some 1, [], false⟩]
        []).2.1 = [] := by
  refine ⟨by decide, by decide, by decide, by decide⟩

end Commit

/- ----------------------------------------------------------------------
   delete_path with pruning (repository-mirror/cvs2svn_lib/
   svn_repository_mirror.py, SVNRepositoryMirror.delete_path and
   .delete_lod)

   The mirror's current file tree for one LOD, content-free: a directory
   node maps entry names to None (a file) or a subdirectory.  delete_path
   removes the named file; with pruning it then walks up the parent
   chain, deleting every directory that has become empty; when the
   LOD root itself becomes empty it calls delete_lod, which silently
   refuses to delete Trunk but deletes any other LOD.
   ---------------------------------------------------------------------- -/

namespace Prune

inductive DirTree where
  | node (entries : List (String × Option DirTree))
deriving Repr

def entryLookup : List (String × Option DirTree) → String →
    Option (Option DirTree)
  | [], _ => none
  | (k, v) :: rest, c => if k = c then some v else entryLookup rest c

/-- Deletion of a key (Python `del` on a dict; keys are unique in a
dict, so removing every matching entry of the association list is the
same operation). -/
def entryErase (es : List (String × Option DirTree)) (c : String) :
    List (String × Option DirTree) :=
  es.filter (fun e => !(e.1 = c))

/-- Look up the node at a path (`some` = the node; files are
`some (node ...)`-free: a path ending at a file yields `none` one level
down, matching the mirror's directory lookups). -/
def lookupDir : DirTree → List String → Option DirTree
  | t, [] => some t
  | DirTree.node es, c :: cs =>
    match entryLookup es c with
    | some (some t) => lookupDir t cs
    | _ => none

/-- Remove the entry `name` from the directory at `path` (identity when
the path does not lead to a directory). -/
def removeAt : DirTree → List String → String → DirTree
  | DirTree.node es, [], name => DirTree.node (entryErase es name)
  | DirTree.node es, c :: cs, name =>
    DirTree.node (es.map (fun e =>
      if e.1 = c then (e.1, e.2.map (fun t => removeAt t cs name)) else e))

/-- Remove the entry `name` from the directory at `path`, failing (the
`KeyError` from `del parent_node[cvs_path]`) when the path or entry does
not exist. -/
def removeAtChecked : DirTree → List String → String → Option DirTree
  | DirTree.node es, [], name =>
    match entryLookup es name with
    | some _ => some (DirTree.node (entryErase es name))
    | none => none
  | DirTree.node es, c :: cs, name =>
    match entryLookup es c with
    | some (some t) =>
      match removeAtChecked t cs name with
      | some t' => some (DirTree.node (es.map (fun e =>
          if e.1 = c then (e.1, some t') else e)))
      | none => none
    | _ => none

/-- The pruning loop of `delete_path`, recursing over the reversed path
of the candidate directory (the loop variable `parent_node`): while the
candidate is empty, delete it from its parent and move up; at the LOD
root call `delete_lod`, which keeps Trunk (`isTrunk`) and deletes any
other LOD (`none`). -/
def pruneUpAux (isTrunk : Bool) : List String → DirTree → Option DirTree
  | [], DirTree.node [] => if isTrunk then some (DirTree.node []) else none
  | [], root => some root
  | h :: rparent, root =>
    match lookupDir root (rparent.reverse ++ [h]) with
    | some (DirTree.node []) =>
      pruneUpAux isTrunk rparent (removeAt root rparent.reverse h)
    | _ => some root

def pruneUp (isTrunk : Bool) (root : DirTree) (path : List String) :
    Option DirTree :=
  pruneUpAux isTrunk path.reverse root

/-- `SVNRepositoryMirror.delete_path` for a file at `dirPath ++ [fname]`
within one LOD: outer `none` = the path did not exist; `some none` = the
LOD itself was deleted by pruning; `some (some t)` = the LOD's new
tree. -/
def delete_path (isTrunk : Bool) (root : DirTree) (dirPath : List String)
    (fname : String) (should_prune : Bool) : Option (Option DirTree) :=
  match removeAtChecked root dirPath fname with
  | none => none
  | some root₁ =>
    if should_prune then
      match pruneUp isTrunk root₁ dirPath with
      | some root₂ => some (some root₂)
      | none => some none
    else some (some root₁)

/-- branches/B holding lib/util/f only. -/
def sampleTree : DirTree :=
  DirTree.node [("lib", some (DirTree.node
    [("util", some (DirTree.node [("f", none)]))]))]

end Prune

namespace Prune

theorem entryLookup_erase :
    ∀ (es : List (String × Option DirTree)) (n c : String),
      entryLookup (entryErase es n) c
        = if c = n then none else entryLookup es c := by
  intro es
  induction es with
  | nil => intro n c; by_cases hc : c = n <;> simp [entryErase, entryLookup, hc]
  | cons e es ih =>
    intro n c
    obtain ⟨k, v⟩ := e
    by_cases hk : k = n
    · subst hk
      rw [show entryErase ((k, v) :: es) k = entryErase es k from by
        simp [entryErase, List.filter_cons]]
      rw [ih]
      by_cases hc : c = k
      · rw [if_pos hc, if_pos hc]
      · rw [if_neg hc, if_neg hc]
        rw [show entryLookup ((k, v) :: es) c = entryLookup es c from by
          simp only [entryLookup]
          rw [if_neg (fun h => hc h.symm)]]
    · rw [show entryErase ((k, v) :: es) n = (k, v) :: entryErase es n from by
        simp [entryErase, List.filter_cons, hk]]
      simp only [entryLookup]
      by_cases hkc : k = c
      · rw [if_pos hkc, if_pos hkc,
          if_neg (fun h : c = n => hk (hkc.trans h))]
      · rw [if_neg hkc, if_neg hkc, ih]

theorem entryLookup_mapValue :
    ∀ (es : List (String × Option DirTree)) (c d : String)
      (f : Option DirTree → Option DirTree),
      entryLookup (es.map (fun e => if e.1 = c then (e.1, f e.2) else e)) d
        = if d = c then (entryLookup es c).map f else entryLookup es d := by
  intro es
  induction es with
  | nil =>
    intro c d f
    by_cases hd : d = c <;> simp [entryLookup, hd]
  | cons e es ih =>
    intro c d f
    obtain ⟨k, v⟩ := e
    rw [List.map_cons]
    by_cases hk : k = c
    · rw [show (if (k, v).1 = c then ((k, v).1, f (k, v).2) else (k, v))
          = (k, f v) from by simp [hk]]
      simp only [entryLookup]
      by_cases hkd : k = d
      · have hdc : d = c := hkd.symm.trans hk
        rw [if_pos hkd, if_pos hkd, if_pos hdc, if_pos hk]
        rfl
      · have hdc : ¬ d = c := fun h => hkd (hk.trans h.symm)
        rw [if_neg hkd, if_neg hkd, ih, if_neg hdc, if_neg hdc]
    · rw [show (if (k, v).1 = c then ((k, v).1, f (k, v).2) else (k, v))
          = (k, v) from by simp [hk]]
      simp only [entryLookup]
      by_cases hkd : k = d
      · have hdc : ¬ d = c := fun h => hk (hkd.trans h)
        rw [if_pos hkd, if_pos hkd, if_neg hdc]
      · rw [if_neg hkd, if_neg hkd, ih, if_neg hk]

/-- Looking up a concatenated path steps through the intermediate node. -/
theorem lookupDir_append :
    ∀ (p q : List String) (root : DirTree),
      lookupDir root (p ++ q)
        = match lookupDir root p with
          | some t => lookupDir t q
          | none => none := by
  intro p
  induction p with
  | nil => intro q root; obtain ⟨es⟩ := root; rfl
  | cons c cs ih =>
    intro q root
    obtain ⟨es⟩ := root
    show (match entryLookup es c with
          | some (some t) => lookupDir t (cs ++ q)
          | _ => none)
        = match (match entryLookup es c with
                 | some (some t) => lookupDir t cs
                 | _ => none) with
          | some t => lookupDir t q
          | none => none
    cases he : entryLookup es c with
    | none => rfl
    | some v =>
      cases v with
      | none => rfl
      | some t => exact ih q t

/-- Removal somewhere in the tree never makes a missing path appear. -/
theorem lookupDir_removeAt_none :
    ∀ (q : List String) (root : DirTree) (p : List String) (n : String),
      lookupDir root q = none → lookupDir (removeAt root p n) q = none := by
  intro q
  induction q with
  | nil =>
    intro root p n h
    obtain ⟨es⟩ := root
    rw [show lookupDir (DirTree.node es) [] = some (DirTree.node es) from rfl]
      at h
    exact Option.noConfusion h
  | cons c cs ih =>
    intro root p n h
    obtain ⟨es⟩ := root
    cases p with
    | nil =>
      show (match entryLookup (entryErase es n) c with
            | some (some t) => lookupDir t cs
            | _ => none) = none
      rw [entryLookup_erase]
      by_cases hc : c = n
      · rw [if_pos hc]
      · rw [if_neg hc]
        exact h
    | cons d ds =>
      show (match entryLookup (es.map (fun e =>
              if e.1 = d then (e.1, e.2.map (fun t => removeAt t ds n)) else e)) c
              with
            | some (some t) => lookupDir t cs
            | _ => none) = none
      rw [entryLookup_mapValue]
      by_cases hc : c = d
      · rw [if_pos hc, ← hc]
        cases he : entryLookup es c with
        | none => rfl
        | some v =>
          cases v with
          | none => rfl
          | some t =>
            rw [show lookupDir (DirTree.node es) (c :: cs)
                = (match entryLookup es c with
                   | some (some t) => lookupDir t cs
                   | _ => none) from rfl, he] at h
            show lookupDir (removeAt t ds n) cs = none
            exact ih t ds n h
      · rw [if_neg hc]
        rw [show lookupDir (DirTree.node es) (c :: cs)
            = (match entryLookup es c with
               | some (some t) => lookupDir t cs
               | _ => none) from rfl] at h
        exact h



theorem lookupDir_empty_node :
    ∀ (q : List String), q ≠ [] → lookupDir (DirTree.node []) q = none := by
  intro q hq
  cases q with
  | nil => exact absurd rfl hq
  | cons c cs => rfl

theorem lookupDir_removeAt_self :
    ∀ (p : List String) (root : DirTree)
      (es : List (String × Option DirTree)) (n : String),
      lookupDir root p = some (DirTree.node es) →
      lookupDir (removeAt root p n) p
        = some (DirTree.node (entryErase es n)) := by
  intro p
  induction p with
  | nil =>
    intro root es n h
    obtain ⟨es0⟩ := root
    have h2 : DirTree.node es0 = DirTree.node es := Option.some.inj h
    cases h2
    rfl
  | cons c cs ih =>
    intro root es n h
    obtain ⟨es0⟩ := root
    rw [show lookupDir (DirTree.node es0) (c :: cs)
        = (match entryLookup es0 c with
           | some (some t) => lookupDir t cs
           | _ => none) from rfl] at h
    cases he : entryLookup es0 c with
    | none => rw [he] at h; exact Option.noConfusion h
    | some v =>
      cases v with
      | none => rw [he] at h; exact Option.noConfusion h
      | some t =>
        rw [he] at h
        show (match entryLookup (es0.map (fun e =>
              if e.1 = c then (e.1, e.2.map (fun u => removeAt u cs n))
              else e)) c with
            | some (some u) => lookupDir u cs
            | _ => none) = some (DirTree.node (entryErase es n))
        rw [entryLookup_mapValue, if_pos (rfl : c = c), he]
        show lookupDir (removeAt t cs n) cs
          = some (DirTree.node (entryErase es n))
        exact ih t es n h

theorem pruneUpAux_preserves_none :
    ∀ (rpath : List String) (isTrunk : Bool) (root : DirTree)
      (q : List String) (result : DirTree),
      lookupDir root q = none → pruneUpAux isTrunk rpath root = some result →
      lookupDir result q = none := by
  intro rpath
  induction rpath with
  | nil =>
    intro isTrunk root q result h hp
    obtain ⟨es⟩ := root
    cases es with
    | nil =>
      cases isTrunk with
      | false =>
        rw [show pruneUpAux false [] (DirTree.node []) = none from rfl] at hp
        exact Option.noConfusion hp
      | true =>
        rw [show pruneUpAux true [] (DirTree.node [])
            = some (DirTree.node []) from rfl] at hp
        obtain rfl := Option.some.inj hp
        exact h
    | cons e es2 =>
      rw [show pruneUpAux isTrunk [] (DirTree.node (e :: es2))
          = some (DirTree.node (e :: es2)) from rfl] at hp
      obtain rfl := Option.some.inj hp
      exact h
  | cons hd rparent ih =>
    intro isTrunk root q result h hp
    rw [show pruneUpAux isTrunk (hd :: rparent) root
        = (match lookupDir root (rparent.reverse ++ [hd]) with
           | some (DirTree.node []) =>
             pruneUpAux isTrunk rparent (removeAt root rparent.reverse hd)
           | _ => some root) from rfl] at hp
    cases hl : lookupDir root (rparent.reverse ++ [hd]) with
    | none =>
      rw [hl] at hp
      obtain rfl := Option.some.inj hp
      exact h
    | some t =>
      obtain ⟨es2⟩ := t
      cases es2 with
      | nil =>
        rw [hl] at hp
        exact ih isTrunk _ q result
          (lookupDir_removeAt_none q root rparent.reverse hd h) hp
      | cons e es3 =>
        rw [hl] at hp
        obtain rfl := Option.some.inj hp
        exact h

theorem entryLookup_setValue :
    ∀ (es : List (String × Option DirTree)) (c : String) (u : Option DirTree),
      entryLookup (es.map (fun e => if e.1 = c then (e.1, u) else e)) c
        = (entryLookup es c).map (fun _ => u) := by
  intro es
  induction es with
  | nil => intro c u; rfl
  | cons e es ih =>
    intro c u
    obtain ⟨k, v⟩ := e
    by_cases hk : k = c
    · rw [List.map_cons, show (if (k, v).1 = c then ((k, v).1, u) else (k, v))
          = (k, u) from by simp [hk]]
      simp only [entryLookup]
      rw [if_pos hk, if_pos hk]
      rfl
    · rw [List.map_cons, show (if (k, v).1 = c then ((k, v).1, u) else (k, v))
          = (k, v) from by simp [hk]]
      simp only [entryLookup]
      rw [if_neg hk, if_neg hk, ih]

theorem removeAtChecked_lookup :
    ∀ (p : List String) (root root2 : DirTree) (n : String),
      removeAtChecked root p n = some root2 →
      ∃ es, lookupDir root2 p = some (DirTree.node es) := by
  intro p
  induction p with
  | nil =>
    intro root root2 n h
    obtain ⟨es⟩ := root
    rw [show removeAtChecked (DirTree.node es) [] n
        = (match entryLookup es n with
           | some _ => some (DirTree.node (entryErase es n))
           | none => none) from rfl] at h
    cases he : entryLookup es n with
    | none => rw [he] at h; exact Option.noConfusion h
    | some v =>
      rw [he] at h
      obtain rfl := Option.some.inj h
      exact ⟨entryErase es n, rfl⟩
  | cons c cs ih =>
    intro root root2 n h
    obtain ⟨es⟩ := root
    rw [show removeAtChecked (DirTree.node es) (c :: cs) n
        = (match entryLookup es c with
           | some (some t) =>
             match removeAtChecked t cs n with
             | some u => some (DirTree.node (es.map (fun e =>
                 if e.1 = c then (e.1, some u) else e)))
             | none => none
           | _ => none) from rfl] at h
    cases he : entryLookup es c with
    | none => rw [he] at h; exact Option.noConfusion h
    | some v =>
      cases v with
      | none => rw [he] at h; exact Option.noConfusion h
      | some t =>
        rw [he] at h
        have h2 : (match removeAtChecked t cs n with
            | some u => some (DirTree.node (es.map (fun e =>
                if e.1 = c then (e.1, some u) else e)))
            | none => none) = some root2 := h
        cases hr : removeAtChecked t cs n with
        | none => rw [hr] at h2; exact Option.noConfusion h2
        | some u =>
          rw [hr] at h2
          obtain rfl := Option.some.inj h2
          obtain ⟨es2, hes2⟩ := ih t u n hr
          refine ⟨es2, ?_⟩
          show (match entryLookup (es.map (fun e =>
                if e.1 = c then (e.1, some u) else e)) c with
              | some (some w) => lookupDir w cs
              | _ => none) = some (DirTree.node es2)
          rw [entryLookup_setValue, he]
          show lookupDir u cs = some (DirTree.node es2)
          exact hes2

/-- Behaviour of the pruning loop: it never deletes Trunk, and in any
surviving tree no strict ancestor directory on the pruned path is left
empty. -/
theorem pruneUpAux_spec :
    ∀ (rpath : List String) (isTrunk : Bool) (root : DirTree),
      (lookupDir root rpath.reverse).isSome →
      (isTrunk = true → pruneUpAux isTrunk rpath root ≠ none) ∧
      (∀ result, pruneUpAux isTrunk rpath root = some result →
        ∀ pre rq, rpath = pre ++ rq → rq ≠ [] →
          lookupDir result rq.reverse ≠ some (DirTree.node [])) := by
  intro rpath
  induction rpath with
  | nil =>
    intro isTrunk root _
    obtain ⟨es⟩ := root
    constructor
    · intro ht
      subst ht
      cases es with
      | nil =>
        rw [show pruneUpAux true [] (DirTree.node [])
            = some (DirTree.node []) from rfl]
        exact fun hc => Option.noConfusion hc
      | cons e es2 =>
        rw [show pruneUpAux true [] (DirTree.node (e :: es2))
            = some (DirTree.node (e :: es2)) from rfl]
        exact fun hc => Option.noConfusion hc
    · intro result _ pre rq hpr hrq
      exact absurd (List.append_eq_nil.mp hpr.symm).2 hrq
  | cons hd rparent ih =>
    intro isTrunk root hsome
    rw [List.reverse_cons] at hsome
    have hstep : pruneUpAux isTrunk (hd :: rparent) root
        = (match lookupDir root (rparent.reverse ++ [hd]) with
           | some (DirTree.node []) =>
             pruneUpAux isTrunk rparent (removeAt root rparent.reverse hd)
           | _ => some root) := rfl
    cases hl : lookupDir root (rparent.reverse ++ [hd]) with
    | none =>
      rw [hl] at hsome
      exact absurd hsome (by simp)
    | some t =>
      obtain ⟨es2⟩ := t
      cases es2 with
      | cons e es3 =>
        rw [hl] at hstep
        have hstep2 : pruneUpAux isTrunk (hd :: rparent) root = some root :=
          hstep
        constructor
        · intro _
          rw [hstep2]
          exact fun hc => Option.noConfusion hc
        · intro result hres pre rq hpr hrq
          rw [hstep2] at hres
          obtain rfl := Option.some.inj hres
          intro hbad
          have hfull : lookupDir root (rq.reverse ++ pre.reverse)
              = some (DirTree.node (e :: es3)) := by
            rw [← List.reverse_append, ← hpr, List.reverse_cons]
            exact hl
          cases pre with
          | nil =>
            rw [show ([] : List String).reverse = [] from rfl,
              List.append_nil, hbad] at hfull
            have h2 := Option.some.inj hfull
            injection h2 with h3
            exact List.noConfusion h3
          | cons p0 ps =>
            rw [lookupDir_append, hbad] at hfull
            have hfull2 : lookupDir (DirTree.node []) (p0 :: ps).reverse
                = some (DirTree.node (e :: es3)) := hfull
            rw [lookupDir_empty_node ((p0 :: ps).reverse) (by simp)] at hfull2
            exact Option.noConfusion hfull2
      | nil =>
        rw [hl] at hstep
        have hstep2 : pruneUpAux isTrunk (hd :: rparent) root
            = pruneUpAux isTrunk rparent (removeAt root rparent.reverse hd) :=
          hstep
        have happ := lookupDir_append rparent.reverse [hd] root
        rw [hl] at happ
        cases hpar : lookupDir root rparent.reverse with
        | none =>
          rw [hpar] at happ
          exact absurd happ (fun hc => Option.noConfusion hc)
        | some t0 =>
          obtain ⟨es0⟩ := t0
          have hremove : lookupDir (removeAt root rparent.reverse hd)
              rparent.reverse = some (DirTree.node (entryErase es0 hd)) :=
            lookupDir_removeAt_self rparent.reverse root es0 hd hpar
          have hIH := ih isTrunk (removeAt root rparent.reverse hd)
            (by rw [hremove]; rfl)
          constructor
          · intro ht
            rw [hstep2]
            exact hIH.1 ht
          · intro result hres pre rq hpr hrq
            rw [hstep2] at hres
            have hnone : lookupDir (removeAt root rparent.reverse hd)
                (rparent.reverse ++ [hd]) = none := by
              rw [lookupDir_append, hremove]
              show lookupDir (DirTree.node (entryErase es0 hd)) [hd] = none
              show (match entryLookup (entryErase es0 hd) hd with
                    | some (some u) => lookupDir u []
                    | _ => none) = none
              rw [entryLookup_erase, if_pos (rfl : hd = hd)]
            have hresnone : lookupDir result (rparent.reverse ++ [hd])
                = none :=
              pruneUpAux_preserves_none rparent isTrunk _ _ result hnone hres
            cases pre with
            | nil =>
              have hrq2 : rq = hd :: rparent := hpr.symm
              subst hrq2
              rw [List.reverse_cons, hresnone]
              exact fun hc => Option.noConfusion hc
            | cons p0 ps =>
              injection hpr with ha hb
              exact hIH.2 result hres ps rq hb hrq

/-- C8 counterexample: with pruning enabled, deleting the last file
lib/util/f of a non-trunk LOD (branches/B) empties lib/util, lib and
the LOD root in turn; delete_lod refuses only Trunk, so the LOD root
branches/B itself is deleted (result `some none`), contradicting the
claim that a project top-level directory is never deleted. -/
theorem C8_counterexample :
    delete_path false sampleTree ["lib", "util"] "f" true = some none := by
  rfl

/-- C8 (amended): for every delete_path call with pruning enabled, every
parent directory of the deleted file that becomes empty is deleted
recursively upward, and the trunk LOD is never deleted (its root may be
left empty); but a non-trunk LOD whose root becomes empty is itself
deleted, since delete_lod refuses only trunk paths. -/
theorem C8_prune_amended :
    ∀ (isTrunk : Bool) (root : DirTree) (dirPath : List String)
      (fname : String),
      (∀ r, delete_path true root dirPath fname true = some r → r ≠ none) ∧
      (∀ t2, delete_path isTrunk root dirPath fname true = some (some t2) →
        ∀ p q, dirPath = p ++ q → p ≠ [] →
          lookupDir t2 p ≠ some (DirTree.node [])) := by
  intro isTrunk root dirPath fname
  constructor
  · intro r hr
    cases hrem : removeAtChecked root dirPath fname with
    | none =>
      have hd0 : delete_path true root dirPath fname true
          = (match removeAtChecked root dirPath fname with
             | none => none
             | some root1 =>
               match pruneUp true root1 dirPath with
               | some root2 => some (some root2)
               | none => some none) := rfl
      rw [hrem] at hd0
      have hd1 : delete_path true root dirPath fname true = none := hd0
      rw [hd1] at hr
      exact Option.noConfusion hr
    | some root1 =>
      obtain ⟨es, hes⟩ := removeAtChecked_lookup dirPath root root1 fname hrem
      have hspec := pruneUpAux_spec dirPath.reverse true root1
        (by rw [List.reverse_reverse, hes]; rfl)
      have hne := hspec.1 rfl
      cases hp : pruneUpAux true dirPath.reverse root1 with
      | none => exact absurd hp hne
      | some root2 =>
        have hd0 : delete_path true root dirPath fname true
            = (match removeAtChecked root dirPath fname with
               | none => none
               | some root1 =>
                 match pruneUp true root1 dirPath with
                 | some root2 => some (some root2)
                 | none => some none) := rfl
        rw [hrem] at hd0
        have hd1 : delete_path true root dirPath fname true
            = (match pruneUpAux true dirPath.reverse root1 with
               | some root2 => some (some root2)
               | none => some none) := hd0
        rw [hp] at hd1
        have hd2 : delete_path true root dirPath fname true
            = some (some root2) := hd1
        rw [hd2] at hr
        obtain rfl := Option.some.inj hr
        exact fun hc => Option.noConfusion hc
  · intro t2 ht2 p q hpq hp
    cases hrem : removeAtChecked root dirPath fname with
    | none =>
      have hd0 : delete_path isTrunk root dirPath fname true
          = (match removeAtChecked root dirPath fname with
             | none => none
             | some root1 =>
               match pruneUp isTrunk root1 dirPath with
               | some root2 => some (some root2)
               | none => some none) := rfl
      rw [hrem] at hd0
      have hd1 : delete_path isTrunk root dirPath fname true = none := hd0
      rw [hd1] at ht2
      exact Option.noConfusion ht2
    | some root1 =>
      obtain ⟨es, hes⟩ := removeAtChecked_lookup dirPath root root1 fname hrem
      have hspec := pruneUpAux_spec dirPath.reverse isTrunk root1
        (by rw [List.reverse_reverse, hes]; rfl)
      have hd0 : delete_path isTrunk root dirPath fname true
          = (match removeAtChecked root dirPath fname with
             | none => none
             | some root1 =>
               match pruneUp isTrunk root1 dirPath with
               | some root2 => some (some root2)
               | none => some none) := rfl
      rw [hrem] at hd0
      have hd1 : delete_path isTrunk root dirPath fname true
          = (match pruneUpAux isTrunk dirPath.reverse root1 with
             | some root2 => some (some root2)
             | none => some none) := hd0
      cases hpu : pruneUpAux isTrunk dirPath.reverse root1 with
      | none =>
        rw [hpu] at hd1
        have hd2 : delete_path isTrunk root dirPath fname true
            = some none := hd1
        rw [hd2] at ht2
        exact Option.noConfusion (Option.some.inj ht2)
      | some root2 =>
        rw [hpu] at hd1
        have hd2 : delete_path isTrunk root dirPath fname true
            = some (some root2) := hd1
        rw [hd2] at ht2
        obtain rfl := Option.some.inj (Option.some.inj ht2)
        have hconc := hspec.2 root2 hpu q.reverse p.reverse
          (by rw [← List.reverse_append, ← hpq])
          (fun hc => hp (List.reverse_eq_nil_iff.mp hc))
        rw [List.reverse_reverse] at hconc
        exact hconc

/-- C8 witness: on a trunk tree holding only lib/util/f, deleting f with
pruning keeps the (now empty) trunk root and leaves no empty directory
at lib. -/
theorem C8_prune_amended_witness :
    (some (DirTree.node []) : Option DirTree) ≠ none ∧
    lookupDir (DirTree.node []) ["lib"] ≠ some (DirTree.node []) :=
  ⟨(C8_prune_amended true sampleTree ["lib", "util"] "f").1
      (some (DirTree.node [])) (by rfl),
   (C8_prune_amended true sampleTree ["lib", "util"] "f").2
      (DirTree.node []) (by rfl) ["lib"] ["util"] rfl
      (List.cons_ne_nil _ _)⟩

end Prune
/- ----------------------------------------------------------------------
   RepositoryMirror (repository-mirror/cvs2svn_lib/repository_mirror.py)

   State: _key_generator (next fresh node id), _nodes_db (persisted
   nodes: id -> entries), _new_nodes (nodes created during the current
   commit; every node stored there is writable), _lod_histories
   (LOD -> LODHistory, embedded in namespace CvsMirror above), and
   _youngest (the revision being constructed).  A node's entries map a
   CVSPath id to the id of a subdirectory node, or to None for a file.

   Raised exceptions are embedded as error values: KeyError and the
   TypeError that Python raises when a path lookup descends into a file
   (indexing None), plus copy_path's ParentMissingError/PathExistsError.
   ---------------------------------------------------------------------- -/

namespace CvsMirror

/-- `LODHistory.get_current_id`: the last recorded id; `none` models the
raised `KeyError` (entry missing or recorded as `None`). -/
def LODHistory.get_current_id (h : LODHistory) : Option Nat :=
  match h.ids.getLast? with
  | some (some id) => some id
  | _ => none

/-- `LODHistory.exists`: the LOD exists at the end of history. -/
def LODHistory.existsAtEnd (h : LODHistory) : Bool :=
  match h.ids.getLast? with
  | some (some _) => true
  | _ => false

end CvsMirror

namespace Mirror

open CvsMirror

abbrev Entries := List (Nat × Option Nat)

/-- Python dict lookup on an association list with unique keys. -/
def alistLookup {β : Type} : List (Nat × β) → Nat → Option β
  | [], _ => none
  | (k, v) :: rest, c => if k = c then some v else alistLookup rest c

/-- Python dict assignment: overwrite the key's entry or append it. -/
def alistInsert {β : Type} : List (Nat × β) → Nat → β → List (Nat × β)
  | [], k, v => [(k, v)]
  | (k0, v0) :: rest, k, v =>
    if k0 = k then (k0, v) :: rest else (k0, v0) :: alistInsert rest k v

/-- Python dict `del`: keys are unique, so filtering is the same. -/
def alistErase {β : Type} (l : List (Nat × β)) (k : Nat) : List (Nat × β) :=
  l.filter (fun e => !(e.1 = k))

inductive MirrorErr where
  | keyError
  | typeError
  | parentMissing
  | pathExists
  | attributeError
deriving Repr, DecidableEq

structure MirrorState where
  keygen : Nat
  nodesDb : List (Nat × Entries)
  newNodes : List (Nat × Entries)
  lodHistories : List (Nat × CvsMirror.LODHistory)
  youngest : Nat
deriving Repr, DecidableEq

/-- `RepositoryMirror._get_lod_history`: an LOD never seen before gets a
fresh (sentry-only) history. -/
def MirrorState.lhOf (s : MirrorState) (lod : Nat) : CvsMirror.LODHistory :=
  (alistLookup s.lodHistories lod).getD CvsMirror.LODHistory.init

/-- `RepositoryMirror.get_old_lod_directory`: the LOD's root node at
`revnum`, read from `_nodes_db`. -/
def get_old_lod_directory (s : MirrorState) (lod revnum : Nat) :
    Except MirrorErr (Nat × Entries) :=
  match (s.lhOf lod).get_id revnum with
  | none => .error .keyError
  | some id =>
    match alistLookup s.nodesDb id with
    | none => .error .keyError
    | some es => .ok (id, es)

/-- `OldMirrorDirectory.__getitem__` iterated along a path: a missing
entry raises `KeyError`; descending through a file (`None`) raises
`TypeError`; the subnode's entries are read from `_nodes_db`.  The
result is `none` for a file, `some (id, entries)` for a directory. -/
def get_old_walk (s : MirrorState) :
    Nat × Entries → List Nat → Except MirrorErr (Option (Nat × Entries))
  | nd, [] => .ok (some nd)
  | nd, c :: cs =>
    match alistLookup nd.2 c with
    | none => .error .keyError
    | some none =>
      match cs with
      | [] => .ok none
      | _ => .error .typeError
    | some (some cid) =>
      match alistLookup s.nodesDb cid with
      | none => .error .keyError
      | some ces => get_old_walk s (cid, ces) cs

/-- `RepositoryMirror.get_old_directory` for the node at `path` below
the LOD root (`path = []` is the root itself). -/
def get_old_directory (s : MirrorState) (lod revnum : Nat)
    (path : List Nat) : Except MirrorErr (Option (Nat × Entries)) :=
  match get_old_lod_directory s lod revnum with
  | .error e => .error e
  | .ok nd => get_old_walk s nd path

/-- `CurrentMirrorDirectory` node lookup: `_new_nodes` first, then
`_nodes_db`. -/
def curNode (s : MirrorState) (id : Nat) : Option Entries :=
  match alistLookup s.newNodes id with
  | some es => some es
  | none => alistLookup s.nodesDb id

/-- `RepositoryMirror.get_current_lod_directory`. -/
def get_current_lod_directory (s : MirrorState) (lod : Nat) :
    Except MirrorErr (Nat × Entries) :=
  match (s.lhOf lod).get_current_id with
  | none => .error .keyError
  | some id =>
    match curNode s id with
    | none => .error .keyError
    | some es => .ok (id, es)

/-- `CurrentMirrorDirectory.__getitem__` iterated along a path. -/
def get_current_walk (s : MirrorState) :
    Nat × Entries → List Nat → Except MirrorErr (Option (Nat × Entries))
  | nd, [] => .ok (some nd)
  | nd, c :: cs =>
    match alistLookup nd.2 c with
    | none => .error .keyError
    | some none =>
      match cs with
      | [] => .ok none
      | _ => .error .typeError
    | some (some cid) =>
      match curNode s cid with
      | none => .error .keyError
      | some ces => get_current_walk s (cid, ces) cs

/-- `RepositoryMirror.get_current_directory`. -/
def get_current_directory (s : MirrorState) (lod : Nat)
    (path : List Nat) : Except MirrorErr (Option (Nat × Entries)) :=
  match get_current_lod_directory s lod with
  | .error e => .error e
  | .ok nd => get_current_walk s nd path

/-- `_CurrentMirrorReadOnlyLODDirectory._make_writable`: give the LOD
root a fresh id, register it in `_new_nodes`, and record the new id in
the LOD history at `_youngest`.  A root already in `_new_nodes` is
already writable. -/
def makeWritableRoot (s : MirrorState) (lod : Nat) :
    Option (MirrorState × Nat) :=
  match (s.lhOf lod).get_current_id with
  | none => none
  | some id =>
    match alistLookup s.newNodes id with
    | some _ => some (s, id)
    | none =>
      match alistLookup s.nodesDb id with
      | none => none
      | some es =>
        match (s.lhOf lod).update s.youngest (some s.keygen) with
        | none => none
        | some lh2 =>
          some ({ s with
                  keygen := s.keygen + 1,
                  newNodes := alistInsert s.newNodes s.keygen es,
                  lodHistories := alistInsert s.lodHistories lod lh2 },
                s.keygen)

/-- The ids and entries of the nodes along `path` below a node with
entries `es`, target first (the chain reversed), exactly as the
iterated `CurrentMirrorDirectory.__getitem__` of `get_current_directory`
builds the object chain (`_new_nodes` first, then `_nodes_db`). -/
def walkRev (s : MirrorState) :
    Entries → List (Nat × Entries) → List Nat →
      Option (List (Nat × Entries))
  | _, acc, [] => some acc
  | es, acc, c :: cs =>
    match alistLookup es c with
    | none => none
    | some none => none
    | some (some cid) =>
      match curNode s cid with
      | none => none
      | some ces => walkRev s ces ((cid, ces) :: acc) cs

/-- `_CurrentMirrorReadOnlySubdirectory._make_writable` ascending the
parent chain: each read-only node registers itself under a fresh id in
`_new_nodes` (`self.id = self.repo._key_generator.gen_id();
self.repo._new_nodes[self.id] = self`) and then assigns the *integer*
`self.id` into its parent through `__setitem__` (line 314).  A parent
that is already writable evaluates `node.id` on that integer at once; a
read-only parent first recurses through its own `_make_writable`.
`registerUp` performs exactly the registrations that precede the
inevitable AttributeError; the flag is true when the whole chain below
the root was read-only, in which case the LOD root's `_make_writable`
still runs before the crash. -/
def registerUp : MirrorState → List (Nat × Entries) → MirrorState × Bool
  | s, [] => (s, true)
  | s, (nid, es) :: rest =>
    match alistLookup s.newNodes nid with
    | some _ => (s, false)
    | none =>
      registerUp
        { s with keygen := s.keygen + 1,
                 newNodes := alistInsert s.newNodes s.keygen es }
        rest

/-- Make the current directory at `path` in `lod` writable.  For the
LOD root (`path = []`) this is
`_CurrentMirrorReadOnlyLODDirectory._make_writable`, which succeeds.
For a node below the root, the node is writable only if it is already
in `_new_nodes`; otherwise `_CurrentMirrorReadOnlySubdirectory.
_make_writable` registers fresh nodes up the chain (updating the LOD
history when it reaches the read-only root) and then raises
AttributeError from the integer-into-`__setitem__` assignment, leaving
that partial state behind. -/
def makeWritable (s : MirrorState) (lod : Nat) (path : List Nat) :
    MirrorState × Except MirrorErr Nat :=
  match path with
  | [] =>
    match makeWritableRoot s lod with
    | none => (s, .error .keyError)
    | some (s1, rid) => (s1, .ok rid)
  | _ :: _ =>
    match get_current_lod_directory s lod with
    | .error e => (s, .error e)
    | .ok rootNd =>
      match walkRev s rootNd.2 [] path with
      | none => (s, .error .keyError)
      | some [] => (s, .error .keyError)
      | some ((target, tes) :: ups) =>
        match alistLookup s.newNodes target with
        | some _ => (s, .ok target)
        | none =>
          match registerUp s ((target, tes) :: ups) with
          | (s1, false) => (s1, .error .attributeError)
          | (s1, true) =>
            match makeWritableRoot s1 lod with
            | none => (s1, .error .attributeError)
            | some (s2, _) => (s2, .error .attributeError)

/-- `_WritableMirrorDirectoryMixin.__setitem__` on the writable node
`dirId`. -/
def setEntry (s : MirrorState) (dirId : Nat) (key : Nat)
    (v : Option Nat) : MirrorState :=
  match alistLookup s.newNodes dirId with
  | none => s
  | some es =>
    { s with newNodes := alistInsert s.newNodes dirId (alistInsert es key v) }

/-- `_WritableMirrorDirectoryMixin.__delitem__` on the writable node
`dirId`. -/
def delEntry (s : MirrorState) (dirId : Nat) (key : Nat) : MirrorState :=
  match alistLookup s.newNodes dirId with
  | none => s
  | some es =>
    { s with newNodes := alistInsert s.newNodes dirId (alistErase es key) }

/-- `RepositoryMirror.copy_lod` (also the `parent_directory is None`
branch of `copy_path`): cheap copy of the source LOD root id into the
destination's history. -/
def copy_lod (s : MirrorState) (srcLod destLod srcRevnum : Nat) :
    MirrorState × Except MirrorErr (Option Nat) :=
  match get_old_lod_directory s srcLod srcRevnum with
  | .error e => (s, .error e)
  | .ok nd =>
    if (s.lhOf destLod).existsAtEnd then (s, .error .pathExists)
    else
      match (s.lhOf destLod).update s.youngest (some nd.1) with
      | none => (s, .error .keyError)
      | some lh2 =>
        ({ s with lodHistories := alistInsert s.lodHistories destLod lh2 },
         .ok (some nd.1))

/-- The final write of `copy_path`: `dest_parent_node[cvs_path] =
src_node`.  The assigned value is a node object (or None for a file), so
this `__setitem__` itself works — but it first has to make the parent
writable, which below the LOD root ends in the AttributeError of
`_make_writable`, with its partial mutations. -/
def copy_path_write (s : MirrorState) (dirPath : List Nat) (fname : Nat)
    (src : Option (Nat × Entries)) (destLod : Nat) :
    MirrorState × Except MirrorErr (Option Nat) :=
  match makeWritable s destLod dirPath with
  | (s1, .error e) => (s1, .error e)
  | (s1, .ok dirId) =>
    (setEntry s1 dirId fname (src.map Prod.fst), .ok (src.map Prod.fst))

/-- `RepositoryMirror.copy_path` for a path `dirPath ++ [fname]` that
has a parent directory: look up the source node at `srcRevnum` (errors
propagate), then the destination's parent in the current revision
(`KeyError` becomes `ParentMissingError`; a file at the parent path is
the uncaught `TypeError` of `cvs_path in None`), refuse an occupied
destination (`PathExistsError`), and otherwise write the source node id
into the (copy-on-write) writable parent. -/
def copy_path (s : MirrorState) (dirPath : List Nat)
    (fname srcLod destLod srcRevnum : Nat) :
    MirrorState × Except MirrorErr (Option Nat) :=
  match get_old_directory s srcLod srcRevnum (dirPath ++ [fname]) with
  | .error e => (s, .error e)
  | .ok src =>
    match get_current_directory s destLod dirPath with
    | .error .keyError => (s, .error .parentMissing)
    | .error e => (s, .error e)
    | .ok none => (s, .error .typeError)
    | .ok (some nd) =>
      if (alistLookup nd.2 fname).isSome then (s, .error .pathExists)
      else copy_path_write s dirPath fname src destLod

/-- `_WritableMirrorDirectoryMixin.mkdir` reached through
`_ReadOnlyMirrorDirectoryMixin.mkdir` on the current directory at
`dirPath` in `lod`: after `_make_writable`, the occupied-path check can
raise PathExistsError; otherwise the body evaluates
`self.repo.key_generator.gen_id()` (line 211) — but `open()` (line 491)
only ever sets `_key_generator`, so the attribute access raises
AttributeError before any directory entry is written. -/
def dir_mkdir (s : MirrorState) (lod : Nat) (dirPath : List Nat)
    (c : Nat) : MirrorState × Except MirrorErr Nat :=
  match makeWritable s lod dirPath with
  | (s1, .error e) => (s1, .error e)
  | (s1, .ok did) =>
    match alistLookup s1.newNodes did with
    | none => (s1, .error .keyError)
    | some es =>
      if (alistLookup es c).isSome then (s1, .error .pathExists)
      else (s1, .error .attributeError)

/-- `_WritableMirrorDirectoryMixin.add_file` on the current directory at
`dirPath`: below the LOD root it dies in `_make_writable`; at the LOD
root it works, because `self[cvs_file] = None` takes the
`node is None` branch of `__setitem__`. -/
def dir_add_file (s : MirrorState) (lod : Nat) (dirPath : List Nat)
    (c : Nat) : MirrorState × Except MirrorErr Unit :=
  match makeWritable s lod dirPath with
  | (s1, .error e) => (s1, .error e)
  | (s1, .ok did) =>
    match alistLookup s1.newNodes did with
    | none => (s1, .error .keyError)
    | some es =>
      if (alistLookup es c).isSome then (s1, .error .pathExists)
      else (setEntry s1 did c none, .ok ())

/-- Two LODs, each with a persisted subdirectory `7` below its root;
inside LOD 0's subdirectory lives the file `6`.  Everything persisted
in revision 1; the mirror is in revision 2 with no in-flight nodes. -/
def sampleDeep : MirrorState :=
  ⟨22,
   [(10, [(7, some 11)]), (11, [(6, none)]),
    (20, [(7, some 21)]), (21, [])],
   [],
   [(0, ⟨[0, 1], [none, some 10]⟩), (1, ⟨[0, 1], [none, some 20]⟩)],
   2⟩

/-- C6 (code bug): the copy-on-write machinery of the mirror does not
work below an LOD root, so the claimed fresh-id clone-and-thread
behaviour never happens there.  (a) `mkdir` never creates a directory:
every call errors — `_WritableMirrorDirectoryMixin.mkdir` (line 211)
reads `self.repo.key_generator`, an attribute that `open()` never sets
(it sets `_key_generator`), raising AttributeError; before reaching
that point a call can only raise PathExistsError or die making its
target writable.  (b) Making a persisted subdirectory writable
(`_CurrentMirrorReadOnlySubdirectory._make_writable`, line 314) raises
AttributeError instead of producing the writable clone: it assigns the
integer `self.id` through the parent's `__setitem__`, whose else branch
evaluates `node.id`.  The crash comes only after fresh nodes were
registered in `_new_nodes` and — once the chain reaches the read-only
root — the LOD history was repointed, as the concrete run on
`sampleDeep` exhibits: partial mutation, no clone. -/
theorem C6_copy_on_write_code_bug :
    (∀ (s : MirrorState) (lod : Nat) (dirPath : List Nat) (c : Nat),
      ∃ e, (dir_mkdir s lod dirPath c).2 = Except.error e) ∧
    (makeWritable sampleDeep 0 [7]).2
      = Except.error MirrorErr.attributeError ∧
    (makeWritable sampleDeep 0 [7]).1.newNodes
      = [(22, [(6, none)]), (23, [(7, some 11)])] ∧
    (makeWritable sampleDeep 0 [7]).1.lodHistories
      = [(0, ⟨[0, 1, 2], [none, some 10, some 23]⟩),
         (1, ⟨[0, 1], [none, some 20]⟩)] := by
  refine ⟨?_, rfl, rfl, rfl⟩
  intro s lod dirPath c
  have hdm : dir_mkdir s lod dirPath c
      = (match makeWritable s lod dirPath with
         | (s1, .error e) => (s1, Except.error e)
         | (s1, .ok did) =>
           match alistLookup s1.newNodes did with
           | none => (s1, Except.error MirrorErr.keyError)
           | some es =>
             if (alistLookup es c).isSome then
               (s1, Except.error MirrorErr.pathExists)
             else (s1, Except.error MirrorErr.attributeError)) := rfl
  obtain ⟨p, hp⟩ : ∃ p, makeWritable s lod dirPath = p := ⟨_, rfl⟩
  obtain ⟨s1, r⟩ := p
  cases r with
  | error e =>
    refine ⟨e, ?_⟩
    rw [hdm, hp]
  | ok did =>
    obtain ⟨w, hw⟩ : ∃ w, alistLookup s1.newNodes did = w := ⟨_, rfl⟩
    cases w with
    | none =>
      refine ⟨MirrorErr.keyError, ?_⟩
      rw [hdm, hp]
      show (match alistLookup s1.newNodes did with
            | none => (s1, Except.error MirrorErr.keyError)
            | some es =>
              if (alistLookup es c).isSome then
                (s1, Except.error MirrorErr.pathExists)
              else (s1, Except.error MirrorErr.attributeError)).2
          = Except.error MirrorErr.keyError
      rw [hw]
    | some es =>
      by_cases hc : (alistLookup es c).isSome
      · refine ⟨MirrorErr.pathExists, ?_⟩
        rw [hdm, hp]
        show (match alistLookup s1.newNodes did with
              | none => (s1, Except.error MirrorErr.keyError)
              | some es =>
                if (alistLookup es c).isSome then
                  (s1, Except.error MirrorErr.pathExists)
                else (s1, Except.error MirrorErr.attributeError)).2
            = Except.error MirrorErr.pathExists
        rw [hw]
        show (if (alistLookup es c).isSome then
                (s1, Except.error MirrorErr.pathExists)
              else (s1, Except.error MirrorErr.attributeError)).2
            = Except.error MirrorErr.pathExists
        rw [if_pos hc]
      · refine ⟨MirrorErr.attributeError, ?_⟩
        rw [hdm, hp]
        show (match alistLookup s1.newNodes did with
              | none => (s1, Except.error MirrorErr.keyError)
              | some es =>
                if (alistLookup es c).isSome then
                  (s1, Except.error MirrorErr.pathExists)
                else (s1, Except.error MirrorErr.attributeError)).2
            = Except.error MirrorErr.attributeError
        rw [hw]
        show (if (alistLookup es c).isSome then
                (s1, Except.error MirrorErr.pathExists)
              else (s1, Except.error MirrorErr.attributeError)).2
            = Except.error MirrorErr.attributeError
        rw [if_neg hc]

/-- C7 (code bug): `copy_path` is not atomic — a failing call can leave
partial state, and the failure is neither of the claim's documented
errors.  On `sampleDeep`, copying the existing file `7/6` of LOD 0 at
revision 1 to the free destination `7/6` of LOD 1 (whose parent
directory `7` exists in the current revision) passes the source lookup,
the ParentMissingError check and the PathExistsError check, then dies
with AttributeError inside `_make_writable` (the integer passed into
`__setitem__` at line 314) — after the destination parent and the LOD
root were re-registered under fresh ids in `_new_nodes` and the
destination LOD's history was repointed at the new root id for the
current revision. -/
theorem C7_copy_path_not_atomic_code_bug :
    (copy_path sampleDeep [7] 6 0 1 1).2
      = Except.error MirrorErr.attributeError ∧
    (copy_path sampleDeep [7] 6 0 1 1).1.newNodes
      = [(22, []), (23, [(7, some 21)])] ∧
    (copy_path sampleDeep [7] 6 0 1 1).1.lodHistories
      = [(0, ⟨[0, 1], [none, some 10]⟩),
         (1, ⟨[0, 1, 2], [none, some 20, some 23]⟩)] ∧
    ¬ (copy_path sampleDeep [7] 6 0 1 1).1 = sampleDeep := by
  refine ⟨rfl, rfl, rfl, by decide⟩

end Mirror
namespace Mirror

open CvsMirror

theorem alistLookup_insert {β : Type} (l : List (Nat × β)) (k c : Nat)
    (v : β) :
    alistLookup (alistInsert l k v) c
      = if k = c then some v else alistLookup l c := by
  induction l with
  | nil =>
    by_cases hk : k = c
    · rw [if_pos hk]
      show (if k = c then some v else none) = some v
      rw [if_pos hk]
    · rw [if_neg hk]
      show (if k = c then some v else none) = none
      rw [if_neg hk]
  | cons e l ih =>
    obtain ⟨k0, v0⟩ := e
    by_cases h0 : k0 = k
    · rw [show alistInsert ((k0, v0) :: l) k v = (k0, v) :: l from by
        show (if k0 = k then (k0, v) :: l else (k0, v0) :: alistInsert l k v)
          = (k0, v) :: l
        rw [if_pos h0]]
      show (if k0 = c then some v else alistLookup l c)
        = if k = c then some v else alistLookup ((k0, v0) :: l) c
      by_cases hc : k0 = c
      · rw [if_pos hc, if_pos (h0.symm.trans hc)]
      · rw [if_neg hc, if_neg (fun h : k = c => hc (h0.trans h))]
        show alistLookup l c
          = if k0 = c then some v0 else alistLookup l c
        rw [if_neg hc]
    · rw [show alistInsert ((k0, v0) :: l) k v
          = (k0, v0) :: alistInsert l k v from by
        show (if k0 = k then (k0, v) :: l else (k0, v0) :: alistInsert l k v)
          = (k0, v0) :: alistInsert l k v
        rw [if_neg h0]]
      show (if k0 = c then some v0 else alistLookup (alistInsert l k v) c)
        = if k = c then some v else alistLookup ((k0, v0) :: l) c
      by_cases hc : k0 = c
      · rw [if_pos hc, if_neg (fun h : k = c => h0 (hc.trans h.symm))]
        show some v0 = if k0 = c then some v0 else alistLookup l c
        rw [if_pos hc]
      · rw [if_neg hc, ih]
        by_cases hkc : k = c
        · rw [if_pos hkc, if_pos hkc]
        · rw [if_neg hkc, if_neg hkc]
          show alistLookup l c
            = if k0 = c then some v0 else alistLookup l c
          rw [if_neg hc]

theorem alistInsert_mem {β : Type} :
    ∀ (l : List (Nat × β)) (k : Nat) (v : β) (p : Nat × β),
      p ∈ alistInsert l k v → p ∈ l ∨ p = (k, v) := by
  intro l
  induction l with
  | nil =>
    intro k v p hp
    show p ∈ ([] : List (Nat × β)) ∨ p = (k, v)
    right
    rw [show alistInsert ([] : List (Nat × β)) k v = [(k, v)] from rfl] at hp
    exact (List.mem_singleton).mp hp
  | cons e l ih =>
    intro k v p hp
    obtain ⟨k0, v0⟩ := e
    by_cases h0 : k0 = k
    · rw [show alistInsert ((k0, v0) :: l) k v = (k0, v) :: l from by
        show (if k0 = k then (k0, v) :: l else (k0, v0) :: alistInsert l k v)
          = (k0, v) :: l
        rw [if_pos h0]] at hp
      rcases List.mem_cons.mp hp with h | h
      · right
        rw [h, h0]
      · left
        exact List.mem_cons_of_mem _ h
    · rw [show alistInsert ((k0, v0) :: l) k v
          = (k0, v0) :: alistInsert l k v from by
        show (if k0 = k then (k0, v) :: l else (k0, v0) :: alistInsert l k v)
          = (k0, v0) :: alistInsert l k v
        rw [if_neg h0]] at hp
      rcases List.mem_cons.mp hp with h | h
      · left
        rw [h]
        exact List.mem_cons_self _ _
      · rcases ih k v p h with h2 | h2
        · left
          exact List.mem_cons_of_mem _ h2
        · right
          exact h2

theorem alistLookup_mem {β : Type} :
    ∀ (l : List (Nat × β)) (k : Nat) (v : β),
      alistLookup l k = some v → (k, v) ∈ l := by
  intro l
  induction l with
  | nil => intro k v h; exact Option.noConfusion h
  | cons e l ih =>
    intro k v h
    obtain ⟨k0, v0⟩ := e
    by_cases h0 : k0 = k
    · rw [show alistLookup ((k0, v0) :: l) k
          = (if k0 = k then some v0 else alistLookup l k) from rfl,
        if_pos h0] at h
      obtain rfl := Option.some.inj h
      rw [← h0]
      exact List.mem_cons_self _ _
    · rw [show alistLookup ((k0, v0) :: l) k
          = (if k0 = k then some v0 else alistLookup l k) from rfl,
        if_neg h0] at h
      exact List.mem_cons_of_mem _ (ih k v h)

theorem alistLookup_none_of_bound {β : Type} :
    ∀ (l : List (Nat × β)) (n : Nat),
      (∀ p ∈ l, p.1 < n) → alistLookup l n = none := by
  intro l
  induction l with
  | nil => intro n _; rfl
  | cons e l ih =>
    intro n hb
    obtain ⟨k0, v0⟩ := e
    show (if k0 = n then some v0 else alistLookup l n) = none
    rw [if_neg (Nat.ne_of_lt (hb (k0, v0) (List.mem_cons_self _ _))),
      ih n (fun p hp => hb p (List.mem_cons_of_mem _ hp))]

theorem getLast?_mem_list {α : Type} (l : List α) (a : α)
    (h : l.getLast? = some a) : a ∈ l := by
  obtain ⟨hne, heq⟩ := List.mem_getLast?_eq_getLast h
  rw [heq]
  exact List.getLast_mem hne

theorem takeWhile_append_nomore (p : Nat → Bool) :
    ∀ (l1 l2 : List Nat), (∀ x ∈ l2, p x = false) →
      (l1 ++ l2).takeWhile p = l1.takeWhile p := by
  intro l1
  induction l1 with
  | nil =>
    intro l2 h
    cases l2 with
    | nil => rfl
    | cons a t =>
      show (a :: t).takeWhile p = List.takeWhile p []
      rw [List.takeWhile_cons, h a (List.mem_cons_self _ _)]
      rfl
  | cons a l1 ih =>
    intro l2 h
    rw [List.cons_append, List.takeWhile_cons, List.takeWhile_cons]
    cases hp : p a with
    | false => rfl
    | true => rw [ih l2 h]

theorem get?_dropLast {α : Type} (l : List α) (i : Nat)
    (hi : i < l.length - 1) : l.dropLast.get? i = l.get? i := by
  rw [List.dropLast_eq_take, List.get?_take hi]

end Mirror
/- ----------------------------------------------------------------------
   ChangesetGraph.find_cycle (graph-based/cvs2svn_lib/changeset_graph.py)

   A changeset graph node records its id, pred_ids and succ_ids, with
   the two edge sets kept mutually inverse by add_changeset and
   __delitem__.  The embedding keeps each node as (id, pred_ids); the
   succ_ids set is the inverse index (the successors of i are exactly
   the nodes whose pred list holds i), so __delitem__'s removal of the
   deleted id from its successors' pred sets and from its predecessors'
   succ sets becomes: drop the node and drop its id from every pred
   list.

   remove_nopred_nodes drains a worklist seeded with the nodes whose
   pred set is empty, deleting each and enqueueing successors whose
   pred set becomes empty; find_cycle runs the drain, answers None on
   an emptied graph, and otherwise walks predecessor links (an
   arbitrary choice each step — here the first listed pred) from an
   arbitrary remaining node (here the first) until a node repeats,
   returning the interval between the two sightings, reversed.  The
   drain loop runs at most one deletion per surviving node, so fuel
   `g.length + 1` is never exhausted; the walk revisits a node after at
   most `g.length + 1` steps.
   ---------------------------------------------------------------------- -/

namespace Changeset

abbrev PGraph := List (Nat × List Nat)

def delNode (g : PGraph) (i : Nat) : PGraph :=
  (g.filter (fun n => !(n.1 = i))).map
    (fun n => (n.1, n.2.filter (fun x => !(x = i))))

/-- The initial worklist: nodes without predecessors. -/
def nopreds (g : PGraph) : List Nat :=
  (g.filter (fun n => n.2.isEmpty)).map Prod.fst

/-- The successors of `i` whose pred set empties when `i` is deleted. -/
def newlyNopred (g : PGraph) (i : Nat) : List Nat :=
  (g.filter (fun n => !(n.1 = i) && n.2.contains i
    && (n.2.filter (fun x => !(x = i))).isEmpty)).map Prod.fst

/-- `remove_nopred_nodes`, driven to exhaustion as `find_cycle` does.
The `none` arm of the lookup is unreachable: worklist ids are always
present. -/
def drainF : Nat → PGraph → List Nat → PGraph
  | 0, g, _ => g
  | _ + 1, g, [] => g
  | fuel + 1, g, i :: rest =>
    match Mirror.alistLookup g i with
    | none => g
    | some _ => drainF fuel (delNode g i) (rest ++ newlyNopred g i)

/-- The backward walk of `find_cycle`: follow a predecessor of the
current node; when the predecessor was already seen, return the
interval from its first sighting, reversed. -/
def walk (g : PGraph) : Nat → Nat → List Nat → Option (List Nat)
  | 0, _, _ => none
  | fuel + 1, cur, seen =>
    match Mirror.alistLookup g cur with
    | none => none
    | some pl =>
      match pl.head? with
      | none => none
      | some p =>
        if p ∈ seen then some ((seen.drop (seen.indexOf p)).reverse)
        else walk g fuel p (seen ++ [p])

def find_cycle (g : PGraph) : Option (List Nat) :=
  match drainF (g.length + 1) g (nopreds g) with
  | [] => none
  | n :: rest => walk (n :: rest) (rest.length + 2) n.1 [n.1]

/-- Graph well-formedness: distinct node ids, and every pred id names a
node of the graph. -/
def WFg (g : PGraph) : Prop :=
  (g.map Prod.fst).Nodup ∧ ∀ n ∈ g, ∀ p ∈ n.2, p ∈ g.map Prod.fst

/-- `a` is a predecessor of `b` (equivalently, `b` a successor of `a`). -/
def predEdge (g : PGraph) (a b : Nat) : Prop :=
  ∃ pl, Mirror.alistLookup g b = some pl ∧ a ∈ pl

/-- A nonempty set of nodes each of which keeps a predecessor inside
the set — the finite-graph witness of a dependency cycle. -/
def HasPredClosedSet (g : PGraph) : Prop :=
  ∃ S : List Nat, S ≠ [] ∧ ∀ i ∈ S, ∃ p ∈ S, predEdge g p i

theorem lookup_filterKey_ne (i j : Nat) (hne : ¬ j = i) :
    ∀ (g : PGraph),
      Mirror.alistLookup (g.filter (fun n => !(n.1 = i))) j
        = Mirror.alistLookup g j := by
  intro g
  induction g with
  | nil => rfl
  | cons n g ih =>
    obtain ⟨k, v⟩ := n
    by_cases hk : k = i
    · rw [show List.filter (fun n => !(n.1 = i)) ((k, v) :: g)
          = List.filter (fun n => !(n.1 = i)) g from by
        simp [List.filter_cons, hk]]
      rw [ih]
      show Mirror.alistLookup g j
        = if k = j then some v else Mirror.alistLookup g j
      rw [if_neg (fun h : k = j => hne (h.symm.trans hk))]
    · rw [show List.filter (fun n => !(n.1 = i)) ((k, v) :: g)
          = (k, v) :: List.filter (fun n => !(n.1 = i)) g from by
        simp [List.filter_cons, hk]]
      show (if k = j then some v
            else Mirror.alistLookup (g.filter (fun n => !(n.1 = i))) j)
        = if k = j then some v else Mirror.alistLookup g j
      rw [ih]

theorem lookup_filterKey_self (i : Nat) :
    ∀ (g : PGraph),
      Mirror.alistLookup (g.filter (fun n => !(n.1 = i))) i = none := by
  intro g
  induction g with
  | nil => rfl
  | cons n g ih =>
    obtain ⟨k, v⟩ := n
    by_cases hk : k = i
    · rw [show List.filter (fun n => !(n.1 = i)) ((k, v) :: g)
          = List.filter (fun n => !(n.1 = i)) g from by
        simp [List.filter_cons, hk]]
      exact ih
    · rw [show List.filter (fun n => !(n.1 = i)) ((k, v) :: g)
          = (k, v) :: List.filter (fun n => !(n.1 = i)) g from by
        simp [List.filter_cons, hk]]
      show (if k = i then some v
            else Mirror.alistLookup (g.filter (fun n => !(n.1 = i))) i) = none
      rw [if_neg hk]
      exact ih

theorem lookup_mapVal (f : List Nat → List Nat) (j : Nat) :
    ∀ (g : PGraph),
      Mirror.alistLookup (g.map (fun n => (n.1, f n.2))) j
        = (Mirror.alistLookup g j).map f := by
  intro g
  induction g with
  | nil => rfl
  | cons n g ih =>
    obtain ⟨k, v⟩ := n
    rw [List.map_cons]
    show (if k = j then some (f v)
          else Mirror.alistLookup (g.map (fun n => (n.1, f n.2))) j)
      = ((if k = j then some v else Mirror.alistLookup g j).map f)
    by_cases hk : k = j
    · rw [if_pos hk, if_pos hk]
      rfl
    · rw [if_neg hk, if_neg hk, ih]

theorem delNode_lookup (g : PGraph) (i j : Nat) :
    Mirror.alistLookup (delNode g i) j
      = if j = i then none
        else (Mirror.alistLookup g j).map
          (fun pl => pl.filter (fun x => !(x = i))) := by
  by_cases hj : j = i
  · rw [if_pos hj, hj]
    show Mirror.alistLookup
      ((g.filter (fun n => !(n.1 = i))).map
        (fun n => (n.1, n.2.filter (fun x => !(x = i))))) i = none
    rw [lookup_mapVal, lookup_filterKey_self]
    rfl
  · rw [if_neg hj]
    show Mirror.alistLookup
      ((g.filter (fun n => !(n.1 = i))).map
        (fun n => (n.1, n.2.filter (fun x => !(x = i))))) j = _
    rw [lookup_mapVal, lookup_filterKey_ne i j hj]

theorem delNode_ids (g : PGraph) (i : Nat) :
    (delNode g i).map Prod.fst
      = (g.map Prod.fst).filter (fun x => !(x = i)) := by
  induction g with
  | nil => rfl
  | cons n g ih =>
    obtain ⟨k, v⟩ := n
    by_cases hk : k = i
    · rw [show delNode ((k, v) :: g) i = delNode g i from by
        simp [delNode, List.filter_cons, hk]]
      rw [ih, List.map_cons]
      rw [show List.filter (fun x => !(x = i)) (k :: g.map Prod.fst)
          = List.filter (fun x => !(x = i)) (g.map Prod.fst) from by
        simp [List.filter_cons, hk]]
    · rw [show delNode ((k, v) :: g) i
          = (k, v.filter (fun x => !(x = i))) :: delNode g i from by
        simp [delNode, List.filter_cons, hk]]
      rw [List.map_cons, List.map_cons]
      rw [show List.filter (fun x => !(x = i)) (k :: g.map Prod.fst)
          = k :: List.filter (fun x => !(x = i)) (g.map Prod.fst) from by
        simp [List.filter_cons, hk]]
      rw [ih]

theorem mem_delNode (g : PGraph) (i : Nat) (n : Nat × List Nat)
    (hn : n ∈ delNode g i) :
    ∃ m ∈ g, ¬ m.1 = i ∧ n = (m.1, m.2.filter (fun x => !(x = i))) := by
  obtain ⟨m, hm, hmap⟩ := List.mem_map.mp hn
  have hm2 := List.mem_filter.mp hm
  refine ⟨m, hm2.1, ?_, hmap.symm⟩
  have := hm2.2
  simp at this
  exact this

theorem WFg_delNode (g : PGraph) (i : Nat) (h : WFg g) :
    WFg (delNode g i) := by
  constructor
  · rw [delNode_ids]
    exact h.1.filter _
  · intro n hn p hp
    obtain ⟨m, hm, hmi, heq⟩ := mem_delNode g i n hn
    rw [heq] at hp
    have hp2 := List.mem_filter.mp hp
    have hpi : ¬ p = i := by
      have := hp2.2
      simp at this
      exact this
    rw [delNode_ids, List.mem_filter]
    refine ⟨h.2 m hm p hp2.1, ?_⟩
    simp [hpi]

theorem mem_ids_lookup :
    ∀ (g : PGraph) (j : Nat), j ∈ g.map Prod.fst →
      ∃ pl, Mirror.alistLookup g j = some pl := by
  intro g
  induction g with
  | nil => intro j hj; exact absurd hj (List.not_mem_nil j)
  | cons n g ih =>
    intro j hj
    obtain ⟨k, v⟩ := n
    by_cases hk : k = j
    · refine ⟨v, ?_⟩
      show (if k = j then some v else Mirror.alistLookup g j) = some v
      rw [if_pos hk]
    · rw [List.map_cons] at hj
      rcases List.mem_cons.mp hj with h | h
      · exact absurd h.symm hk
      · obtain ⟨pl, hpl⟩ := ih j h
        refine ⟨pl, ?_⟩
        show (if k = j then some v else Mirror.alistLookup g j) = some pl
        rw [if_neg hk]
        exact hpl

theorem mem_lookup_nodup :
    ∀ (g : PGraph) (j : Nat) (pl : List Nat),
      (g.map Prod.fst).Nodup → (j, pl) ∈ g →
      Mirror.alistLookup g j = some pl := by
  intro g
  induction g with
  | nil => intro j pl _ hm; exact absurd hm (List.not_mem_nil _)
  | cons n g ih =>
    intro j pl hnd hm
    obtain ⟨k, v⟩ := n
    rw [List.map_cons] at hnd
    rcases List.mem_cons.mp hm with h | h
    · obtain ⟨h1, h2⟩ := Prod.mk.inj h.symm
      show (if k = j then some v else Mirror.alistLookup g j) = some pl
      rw [if_pos h1, h2]
    · show (if k = j then some v else Mirror.alistLookup g j) = some pl
      have hk : ¬ k = j := by
        intro hkj
        exact (List.nodup_cons.mp hnd).1
          (hkj ▸ List.mem_map.mpr ⟨(j, pl), h, rfl⟩)
      rw [if_neg hk]
      exact ih j pl (List.nodup_cons.mp hnd).2 h

theorem delNode_length :
    ∀ (g : PGraph) (i : Nat) (pl : List Nat),
      (g.map Prod.fst).Nodup → Mirror.alistLookup g i = some pl →
      (delNode g i).length + 1 = g.length := by
  intro g
  induction g with
  | nil => intro i pl _ h; exact Option.noConfusion h
  | cons n g ih =>
    intro i pl hnd h
    obtain ⟨k, v⟩ := n
    rw [List.map_cons] at hnd
    by_cases hk : k = i
    · rw [show delNode ((k, v) :: g) i = delNode g i from by
        simp [delNode, List.filter_cons, hk]]
      have hgone : ∀ m ∈ g, ¬ m.1 = i := by
        intro m hm hmi
        exact (List.nodup_cons.mp hnd).1
          ((hk.trans hmi.symm) ▸ List.mem_map.mpr ⟨m, hm, rfl⟩)
      rw [show delNode g i = g.map
          (fun n => (n.1, n.2.filter (fun x => !(x = i)))) from by
        rw [delNode, List.filter_eq_self.mpr
          (fun m hm => by simp [hgone m hm])]]
      rw [List.length_map, List.length_cons]
    · have h2 : Mirror.alistLookup g i = some pl := by
        rw [show Mirror.alistLookup ((k, v) :: g) i
            = (if k = i then some v else Mirror.alistLookup g i) from rfl,
          if_neg hk] at h
        exact h
      rw [show delNode ((k, v) :: g) i
          = (k, v.filter (fun x => !(x = i))) :: delNode g i from by
        simp [delNode, List.filter_cons, hk]]
      rw [List.length_cons, List.length_cons,
        ih i pl (List.nodup_cons.mp hnd).2 h2]

theorem mem_nopreds_lookup (g : PGraph) (j : Nat)
    (hnd : (g.map Prod.fst).Nodup) (hj : j ∈ nopreds g) :
    Mirror.alistLookup g j = some [] := by
  obtain ⟨m, hm, hfst⟩ := List.mem_map.mp hj
  have hm2 := List.mem_filter.mp hm
  have hempty : m.2 = [] := List.isEmpty_iff.mp hm2.2
  have : (j, ([] : List Nat)) ∈ g := by
    rw [← hfst, ← hempty]
    exact hm2.1
  exact mem_lookup_nodup g j [] hnd this

theorem mem_nopreds_intro (g : PGraph) (j : Nat) (pl : List Nat)
    (hm : (j, pl) ∈ g) (hempty : pl = []) : j ∈ nopreds g := by
  refine List.mem_map.mpr ⟨(j, pl), List.mem_filter.mpr ⟨hm, ?_⟩, rfl⟩
  rw [hempty]
  rfl

theorem nopreds_nodup (g : PGraph) (hnd : (g.map Prod.fst).Nodup) :
    (nopreds g).Nodup :=
  List.Sublist.nodup ((List.filter_sublist g).map Prod.fst) hnd

theorem newly_nodup (g : PGraph) (i : Nat)
    (hnd : (g.map Prod.fst).Nodup) : (newlyNopred g i).Nodup :=
  List.Sublist.nodup ((List.filter_sublist g).map Prod.fst) hnd

theorem mem_newly_elim (g : PGraph) (i w : Nat)
    (hnd : (g.map Prod.fst).Nodup) (hw : w ∈ newlyNopred g i) :
    ¬ w = i ∧ ∃ pl, Mirror.alistLookup g w = some pl ∧ i ∈ pl ∧
      pl.filter (fun x => !(x = i)) = [] := by
  obtain ⟨m, hm, hfst⟩ := List.mem_map.mp hw
  have hm2 := List.mem_filter.mp hm
  obtain ⟨⟨hne, hcont⟩, hemp⟩ :
      ((¬ m.1 = i) ∧ i ∈ m.2) ∧ m.2.filter (fun x => !(x = i)) = [] := by
    simpa using hm2.2
  refine ⟨?_, m.2, ?_, hcont, hemp⟩
  · rw [← hfst]
    exact hne
  · rw [← hfst]
    exact mem_lookup_nodup g m.1 m.2 hnd (by
      rw [show (m.1, m.2) = m from rfl]
      exact hm2.1)

theorem mem_newly_intro (g : PGraph) (i j : Nat) (pl : List Nat)
    (hm : (j, pl) ∈ g) (hne : ¬ j = i) (hcont : i ∈ pl)
    (hemp : pl.filter (fun x => !(x = i)) = []) :
    j ∈ newlyNopred g i := by
  refine List.mem_map.mpr ⟨(j, pl), List.mem_filter.mpr ⟨hm, ?_⟩, rfl⟩
  simp [hne, hcont, hemp]

theorem drainF_eq_step (fuel : Nat) (g : PGraph) (i : Nat)
    (rest : List Nat) :
    drainF (fuel + 1) g (i :: rest)
      = match Mirror.alistLookup g i with
        | none => g
        | some _ => drainF fuel (delNode g i) (rest ++ newlyNopred g i) :=
  rfl

theorem drainF_spec :
    ∀ (fuel : Nat) (g : PGraph) (work : List Nat),
      WFg g → work.Nodup →
      (∀ w ∈ work, Mirror.alistLookup g w = some []) →
      (∀ n ∈ g, n.2 = [] → n.1 ∈ work) →
      g.length + 1 ≤ fuel →
      WFg (drainF fuel g work) ∧
      (∀ n ∈ drainF fuel g work, ¬ n.2 = []) ∧
      (∀ j pl2, Mirror.alistLookup (drainF fuel g work) j = some pl2 →
        ∃ pl, Mirror.alistLookup g j = some pl ∧ pl2 ⊆ pl) := by
  intro fuel
  induction fuel with
  | zero =>
    intro g work _ _ _ _ hf
    exact absurd hf (by omega)
  | succ fuel ih =>
    intro g work hwf hnd hwork hP hf
    cases work with
    | nil =>
      refine ⟨hwf, ?_, ?_⟩
      · intro n hn hemp
        exact absurd (hP n hn hemp) (List.not_mem_nil _)
      · intro j pl2 h
        exact ⟨pl2, h, fun x hx => hx⟩
    | cons i rest =>
      have hlk : Mirror.alistLookup g i = some [] :=
        hwork i (List.mem_cons_self _ _)
      have hstep : drainF (fuel + 1) g (i :: rest)
          = drainF fuel (delNode g i) (rest ++ newlyNopred g i) := by
        rw [drainF_eq_step, hlk]
      rw [hstep]
      have hnd2 := List.nodup_cons.mp hnd
      have hwf2 := WFg_delNode g i hwf
      have hndw : (rest ++ newlyNopred g i).Nodup := by
        refine (hnd2.2).append (newly_nodup g i hwf.1) ?_
        intro w hw hw2
        obtain ⟨hne, pl, hpl, hipl, hemp⟩ := mem_newly_elim g i w hwf.1 hw2
        have hlw := hwork w (List.mem_cons_of_mem _ hw)
        rw [hlw] at hpl
        obtain rfl := Option.some.inj hpl
        exact absurd hipl (List.not_mem_nil i)
      have hworkw : ∀ w ∈ rest ++ newlyNopred g i,
          Mirror.alistLookup (delNode g i) w = some [] := by
        intro w hw
        rcases List.mem_append.mp hw with hw | hw
        · have hwi : ¬ w = i := fun h => hnd2.1 (h ▸ hw)
          rw [delNode_lookup, if_neg hwi,
            hwork w (List.mem_cons_of_mem _ hw)]
          rfl
        · obtain ⟨hne, pl, hpl, _, hemp⟩ := mem_newly_elim g i w hwf.1 hw
          rw [delNode_lookup, if_neg hne, hpl]
          show some (pl.filter (fun x => !(x = i))) = some []
          rw [hemp]
      have hPw : ∀ n ∈ delNode g i, n.2 = [] →
          n.1 ∈ rest ++ newlyNopred g i := by
        intro n hn hemp
        obtain ⟨m, hm, hmi, heq⟩ := mem_delNode g i n hn
        rw [heq] at hemp
        have hemp2 : m.2.filter (fun x => !(x = i)) = [] := hemp
        rw [heq]
        show m.1 ∈ rest ++ newlyNopred g i
        by_cases hpl : m.2 = []
        · have := hP m hm hpl
          rcases List.mem_cons.mp this with h | h
          · exact absurd h hmi
          · exact List.mem_append.mpr (Or.inl h)
        · have hall := List.filter_eq_nil.mp hemp2
          have hcont : i ∈ m.2 := by
            cases hm2 : m.2 with
            | nil => exact absurd hm2 hpl
            | cons x xs =>
              have hx := hall x (by rw [hm2]; exact List.mem_cons_self _ _)
              have hx2 : x = i := by simpa using hx
              rw [hx2]
              exact List.mem_cons_self _ _
          exact List.mem_append.mpr (Or.inr
            (mem_newly_intro g i m.1 m.2
              (show (m.1, m.2) ∈ g from hm) hmi hcont hemp2))
      have hdel := delNode_length g i [] hwf.1 hlk
      obtain ⟨hW, hN, hS⟩ := ih (delNode g i) (rest ++ newlyNopred g i)
        hwf2 hndw hworkw hPw (by omega)
      refine ⟨hW, hN, ?_⟩
      intro j pl2 h
      obtain ⟨plm, hplm, hsub⟩ := hS j pl2 h
      rw [delNode_lookup] at hplm
      by_cases hj : j = i
      · rw [if_pos hj] at hplm
        exact Option.noConfusion hplm
      · rw [if_neg hj] at hplm
        cases hg : Mirror.alistLookup g j with
        | none =>
          rw [hg] at hplm
          exact Option.noConfusion hplm
        | some pl0 =>
          rw [hg] at hplm
          obtain rfl := Option.some.inj hplm
          refine ⟨pl0, rfl, fun x hx => ?_⟩
          exact (List.mem_filter.mp (hsub hx)).1

theorem drainF_guilty :
    ∀ (fuel : Nat) (g : PGraph) (work S : List Nat),
      WFg g →
      (∀ i ∈ S, ∃ p ∈ S, predEdge g p i) →
      (∀ w ∈ work, w ∉ S) →
      ∀ i ∈ S, ∃ p ∈ S, predEdge (drainF fuel g work) p i := by
  intro fuel
  induction fuel with
  | zero => intro g work S _ hg _; exact hg
  | succ fuel ih =>
    intro g work S hwf hg hdisj
    cases work with
    | nil => exact hg
    | cons i rest =>
      cases hlk : Mirror.alistLookup g i with
      | none =>
        have hstep : drainF (fuel + 1) g (i :: rest) = g := by
          rw [drainF_eq_step, hlk]
        rw [hstep]
        exact hg
      | some pl =>
        have hstep : drainF (fuel + 1) g (i :: rest)
            = drainF fuel (delNode g i) (rest ++ newlyNopred g i) := by
          rw [drainF_eq_step, hlk]
        rw [hstep]
        have hiS : i ∉ S := hdisj i (List.mem_cons_self _ _)
        have hg2 : ∀ j ∈ S, ∃ p ∈ S, predEdge (delNode g i) p j := by
          intro j hj
          obtain ⟨p, hpS, hedge⟩ := hg j hj
          obtain ⟨plj, hplj, hpin⟩ := hedge
          refine ⟨p, hpS, plj.filter (fun x => !(x = i)), ?_, ?_⟩
          · rw [delNode_lookup, if_neg (fun h : j = i => hiS (h ▸ hj)), hplj]
            rfl
          · refine List.mem_filter.mpr ⟨hpin, ?_⟩
            simp only [Bool.not_eq_true', decide_eq_false_iff_not]
            exact fun h => hiS (h ▸ hpS)
        refine ih (delNode g i) (rest ++ newlyNopred g i) S
          (WFg_delNode g i hwf) hg2 ?_
        intro w hw hwS
        rcases List.mem_append.mp hw with h | h
        · exact hdisj w (List.mem_cons_of_mem _ h) hwS
        · obtain ⟨hne, plw, hplw, hiplw, hemp⟩ :=
            mem_newly_elim g i w hwf.1 h
          obtain ⟨p, hpS, pl2, hpl2, hpin⟩ := hg2 w hwS
          rw [delNode_lookup, if_neg hne, hplw] at hpl2
          obtain rfl := Option.some.inj hpl2
          have hpin2 : p ∈ plw.filter (fun x => !(x = i)) := hpin
          rw [hemp] at hpin2
          exact absurd hpin2 (List.not_mem_nil p)

theorem walk_eq_step (g : PGraph) (fuel cur : Nat) (seen : List Nat) :
    walk g (fuel + 1) cur seen
      = match Mirror.alistLookup g cur with
        | none => none
        | some pl =>
          match pl.head? with
          | none => none
          | some p =>
            if p ∈ seen then some ((seen.drop (seen.indexOf p)).reverse)
            else walk g fuel p (seen ++ [p]) := rfl

theorem nodup_subset_length (l l2 : List Nat) (h1 : l.Nodup)
    (h2 : ∀ x ∈ l, x ∈ l2) : l.length ≤ l2.length := by
  calc l.length = l.toFinset.card := (List.toFinset_card_of_nodup h1).symm
    _ ≤ l2.toFinset.card := Finset.card_le_card (fun x hx => by
        rw [List.mem_toFinset] at hx ⊢
        exact h2 x hx)
    _ ≤ l2.length := l2.toFinset_card_le

theorem walk_succeeds :
    ∀ (fuel : Nat) (g : PGraph) (cur : Nat) (seen : List Nat),
      (g.map Prod.fst).Nodup →
      (∀ n ∈ g, ¬ n.2 = []) →
      (∀ n ∈ g, ∀ p ∈ n.2, p ∈ g.map Prod.fst) →
      seen.Nodup → (∀ x ∈ seen, x ∈ g.map Prod.fst) →
      cur ∈ g.map Prod.fst →
      g.length + 1 ≤ fuel + seen.length →
      (walk g fuel cur seen).isSome := by
  intro fuel
  induction fuel with
  | zero =>
    intro g cur seen hnd hne hcl hsnd hsub hcur hlen
    have h1 := nodup_subset_length seen (g.map Prod.fst) hsnd hsub
    rw [List.length_map] at h1
    exact absurd hlen (by omega)
  | succ fuel ih =>
    intro g cur seen hnd hne hcl hsnd hsub hcur hlen
    obtain ⟨pl, hpl⟩ := mem_ids_lookup g cur hcur
    have hmem : (cur, pl) ∈ g := Mirror.alistLookup_mem g cur pl hpl
    have hplne : ¬ pl = [] := hne (cur, pl) hmem
    obtain ⟨p, ps, hps⟩ : ∃ p ps, pl = p :: ps := by
      cases hc : pl with
      | nil => exact absurd hc hplne
      | cons p ps => exact ⟨p, ps, rfl⟩
    rw [walk_eq_step, hpl, hps]
    show (match (p :: ps).head? with
          | none => none
          | some p =>
            if p ∈ seen then some ((seen.drop (seen.indexOf p)).reverse)
            else walk g fuel p (seen ++ [p])).isSome
    rw [show (p :: ps).head? = some p from rfl]
    show (if p ∈ seen then some ((seen.drop (seen.indexOf p)).reverse)
          else walk g fuel p (seen ++ [p])).isSome
    by_cases hp : p ∈ seen
    · rw [if_pos hp]
      rfl
    · rw [if_neg hp]
      have hpid : p ∈ g.map Prod.fst := hcl (cur, pl) hmem p (by
        rw [hps]
        exact List.mem_cons_self _ _)
      refine ih g p (seen ++ [p]) hnd hne hcl ?_ ?_ hpid ?_
      · exact hsnd.append (List.nodup_singleton p)
          (fun x hx hx2 => hp ((List.mem_singleton.mp hx2) ▸ hx))
      · intro x hx
        rcases List.mem_append.mp hx with h | h
        · exact hsub x h
        · rw [List.mem_singleton.mp h]
          exact hpid
      · rw [List.length_append]
        rw [show List.length [p] = 1 from rfl]
        omega

theorem walk_cycle :
    ∀ (fuel : Nat) (g : PGraph) (cur : Nat) (seen : List Nat)
      (l : List Nat),
      seen.Chain' (fun a b => predEdge g b a) →
      seen.getLast? = some cur →
      walk g fuel cur seen = some l →
      ¬ l = [] ∧ l.Chain' (predEdge g) ∧
        (∀ x ∈ l.getLast?, ∀ y ∈ l.head?, predEdge g x y) := by
  intro fuel
  induction fuel with
  | zero =>
    intro g cur seen l _ _ h
    exact Option.noConfusion h
  | succ fuel ih =>
    intro g cur seen l hchain hlast h
    rw [walk_eq_step] at h
    obtain ⟨w, hw⟩ : ∃ w, Mirror.alistLookup g cur = w := ⟨_, rfl⟩
    rw [hw] at h
    cases w with
    | none => exact Option.noConfusion h
    | some pl =>
      have h2 : (match pl.head? with
          | none => none
          | some p =>
            if p ∈ seen then some ((seen.drop (seen.indexOf p)).reverse)
            else walk g fuel p (seen ++ [p])) = some l := h
      obtain ⟨w2, hw2⟩ : ∃ w2, pl.head? = w2 := ⟨_, rfl⟩
      rw [hw2] at h2
      cases w2 with
      | none => exact Option.noConfusion h2
      | some p =>
        have h3 : (if p ∈ seen
            then some ((seen.drop (seen.indexOf p)).reverse)
            else walk g fuel p (seen ++ [p])) = some l := h2
        have hphd : p ∈ pl := by
          cases pl with
          | nil => exact Option.noConfusion hw2
          | cons q qs =>
            rw [← (Option.some.inj hw2 : q = p)]
            exact List.mem_cons_self _ _
        have hedge : predEdge g p cur := ⟨pl, hw, hphd⟩
        by_cases hp : p ∈ seen
        · rw [if_pos hp] at h3
          obtain rfl := Option.some.inj h3
          have hidx : seen.indexOf p < seen.length :=
            List.indexOf_lt_length.mpr hp
          have hdne : seen.drop (seen.indexOf p) ≠ [] := by
            intro hc
            have h0 := congrArg List.length hc
            rw [List.length_drop] at h0
            rw [show List.length ([] : List Nat) = 0 from rfl] at h0
            omega
          refine ⟨?_, ?_, ?_⟩
          · intro hnil
            have h0 := congrArg List.length hnil
            rw [List.length_reverse, List.length_drop] at h0
            rw [show List.length ([] : List Nat) = 0 from rfl] at h0
            omega
          · refine List.chain'_reverse.mpr ?_
            exact hchain.suffix (List.drop_suffix _ _)
          · intro x hx y hy
            have hxl : (seen.drop (seen.indexOf p)).reverse.getLast?
                = some p := by
              rw [List.getLast?_reverse, List.head?_drop,
                ← List.get?_eq_getElem?, List.indexOf_get? hp]
            have hyl : (seen.drop (seen.indexOf p)).reverse.head?
                = some cur := by
              rw [List.head?_reverse]
              have hsplit : seen.getLast?
                  = (seen.drop (seen.indexOf p)).getLast? := by
                conv_lhs => rw [← List.take_append_drop (seen.indexOf p) seen]
                exact List.getLast?_append_of_ne_nil _ hdne
              rw [← hsplit]
              exact hlast
            rw [hxl] at hx
            rw [hyl] at hy
            rw [← Option.some.inj hx, ← Option.some.inj hy]
            exact hedge
        · rw [if_neg hp] at h3
          refine ih g p (seen ++ [p]) l ?_ ?_ h3
          · refine List.Chain'.append hchain (List.chain'_singleton p) ?_
            intro x hx y hy
            have hx2 : x = cur := by
              rw [hlast] at hx
              exact (Option.some.inj hx).symm
            have hy2 : p = y := Option.some.inj hy
            rw [hx2, ← hy2]
            exact hedge
          · exact List.getLast?_concat seen

theorem cycle_guilty (g : PGraph) (l : List Nat) (hne : ¬ l = [])
    (hchain : l.Chain' (predEdge g))
    (hclose : ∀ x ∈ l.getLast?, ∀ y ∈ l.head?, predEdge g x y) :
    ∀ i ∈ l, ∃ p ∈ l, predEdge g p i := by
  intro i hi
  obtain ⟨⟨k, hk⟩, hget⟩ := List.mem_iff_get.mp hi
  cases k with
  | zero =>
    obtain ⟨z, hz⟩ : ∃ z, l.getLast? = some z :=
      Option.isSome_iff_exists.mp (List.getLast?_isSome.mpr hne)
    refine ⟨z, Mirror.getLast?_mem_list l z hz, ?_⟩
    have hhead : l.head? = some i := by
      cases l with
      | nil => exact absurd rfl hne
      | cons a t =>
        rw [show (a :: t).head? = some a from rfl]
        rw [show (a :: t).get ⟨0, hk⟩ = a from rfl] at hget
        rw [hget]
    exact hclose z hz i hhead
  | succ j =>
    have hj : j < l.length - 1 := by omega
    have hedge := List.chain'_iff_get.mp hchain j hj
    have hjl : j < l.length := by omega
    refine ⟨l.get ⟨j, hjl⟩, List.get_mem l j hjl, ?_⟩
    have hstep : predEdge g (l.get ⟨j, hjl⟩) i := by
      rw [← hget]
      exact hedge
    exact hstep

/-- C3: find_cycle drains the graph of predecessor-free nodes and then
answers None exactly when the graph emptied — equivalently, when no
nonempty set of changesets is predecessor-closed (the graph was
acyclic) — and otherwise returns a nonempty list of changesets in
which every element is a predecessor of the next and the last is a
predecessor of the first. -/
theorem C3_find_cycle_correct :
    ∀ (g : PGraph), WFg g →
      (find_cycle g = none ↔ ¬ HasPredClosedSet g) ∧
      (∀ l, find_cycle g = some l →
        ¬ l = [] ∧ l.Chain' (predEdge g) ∧
        ∀ x ∈ l.getLast?, ∀ y ∈ l.head?, predEdge g x y) := by
  intro g hwf
  have hwork : ∀ w ∈ nopreds g, Mirror.alistLookup g w = some [] :=
    fun w hw => mem_nopreds_lookup g w hwf.1 hw
  have hP : ∀ n ∈ g, n.2 = [] → n.1 ∈ nopreds g := by
    intro n hn hemp
    exact mem_nopreds_intro g n.1 n.2 (show (n.1, n.2) ∈ g from hn) hemp
  obtain ⟨hW2, hNE2, hSub⟩ := drainF_spec (g.length + 1) g (nopreds g)
    hwf (nopreds_nodup g hwf.1) hwork hP (Nat.le_refl _)
  have hguilty_survives : ∀ S, ¬ S = [] →
      (∀ i ∈ S, ∃ p ∈ S, predEdge g p i) →
      ¬ drainF (g.length + 1) g (nopreds g) = [] := by
    intro S hSne hSg hnil
    have hdisj : ∀ w ∈ nopreds g, w ∉ S := by
      intro w hw hwS
      obtain ⟨p, hpS, pl, hpl, hpin⟩ := hSg w hwS
      have hlw := mem_nopreds_lookup g w hwf.1 hw
      rw [hlw] at hpl
      obtain rfl := Option.some.inj hpl
      exact absurd hpin (List.not_mem_nil p)
    have hgu := drainF_guilty (g.length + 1) g (nopreds g) S hwf hSg hdisj
    obtain ⟨i, hi⟩ := List.exists_mem_of_ne_nil S hSne
    obtain ⟨p, _, pl, hpl, _⟩ := hgu i hi
    rw [hnil] at hpl
    exact Option.noConfusion hpl
  obtain ⟨g2, hg2⟩ : ∃ g2, drainF (g.length + 1) g (nopreds g) = g2 :=
    ⟨_, rfl⟩
  rw [hg2] at hW2 hNE2 hSub
  cases g2 with
  | nil =>
    have hfc : find_cycle g = none := by
      rw [show find_cycle g
          = (match drainF (g.length + 1) g (nopreds g) with
             | [] => none
             | n :: rest => walk (n :: rest) (rest.length + 2) n.1 [n.1])
          from rfl, hg2]
    constructor
    · constructor
      · intro _ hguilty
        obtain ⟨S, hSne, hSg⟩ := hguilty
        exact hguilty_survives S hSne hSg hg2
      · intro _
        exact hfc
    · intro l hl
      rw [hfc] at hl
      exact Option.noConfusion hl
  | cons n rest =>
    have htrans : ∀ a b, predEdge (n :: rest) a b → predEdge g a b := by
      intro a b hedge
      obtain ⟨pl2, hl2, ha⟩ := hedge
      obtain ⟨pl, hpl, hsub⟩ := hSub b pl2 hl2
      exact ⟨pl, hpl, hsub ha⟩
    have hfc2 : find_cycle g
        = walk (n :: rest) (rest.length + 2) n.1 [n.1] := by
      rw [show find_cycle g
          = (match drainF (g.length + 1) g (nopreds g) with
             | [] => none
             | m :: r => walk (m :: r) (r.length + 2) m.1 [m.1])
          from rfl, hg2]
    have hn1 : n.1 ∈ (n :: rest).map Prod.fst := by
      rw [List.map_cons]
      exact List.mem_cons_self _ _
    have hsucc := walk_succeeds (rest.length + 2) (n :: rest) n.1 [n.1]
      hW2.1 hNE2 hW2.2 (List.nodup_singleton _)
      (fun x hx => by
        rw [List.mem_singleton.mp hx]
        exact hn1)
      hn1
      (by
        rw [show List.length [n.1] = 1 from rfl, List.length_cons]
        omega)
    obtain ⟨l0, hl0⟩ := Option.isSome_iff_exists.mp hsucc
    have hprops := walk_cycle (rest.length + 2) (n :: rest) n.1 [n.1] l0
      (List.chain'_singleton _) rfl hl0
    have hprops_g : ¬ l0 = [] ∧ l0.Chain' (predEdge g) ∧
        (∀ x ∈ l0.getLast?, ∀ y ∈ l0.head?, predEdge g x y) := by
      refine ⟨hprops.1, List.Chain'.imp htrans hprops.2.1, ?_⟩
      intro x hx y hy
      exact htrans x y (hprops.2.2 x hx y hy)
    constructor
    · constructor
      · intro hnone
        rw [hfc2, hl0] at hnone
        exact Option.noConfusion hnone
      · intro hnot
        exact absurd
          ⟨l0, hprops_g.1,
            cycle_guilty g l0 hprops_g.1 hprops_g.2.1 hprops_g.2.2⟩
          hnot
    · intro l hl
      rw [hfc2, hl0] at hl
      obtain rfl := Option.some.inj hl
      exact hprops_g

/-- C3 witness: an acyclic two-node graph answers None (no
predecessor-closed set exists), and the two-node cycle yields the
cyclically pred-linked list [2, 1]. -/
theorem C3_find_cycle_correct_witness :
    (find_cycle [(1, []), (2, [1])] = none
      ↔ ¬ HasPredClosedSet [(1, []), (2, [1])]) ∧
    (¬ ([2, 1] : List Nat) = [] ∧
      List.Chain' (predEdge [(1, [2]), (2, [1])]) [2, 1] ∧
      ∀ x ∈ ([2, 1] : List Nat).getLast?,
        ∀ y ∈ ([2, 1] : List Nat).head?,
          predEdge [(1, [2]), (2, [1])] x y) :=
  ⟨(C3_find_cycle_correct [(1, []), (2, [1])]
      ⟨by decide, by decide⟩).1,
   (C3_find_cycle_correct [(1, [2]), (2, [1])]
      ⟨by decide, by decide⟩).2 [2, 1] (by rfl)⟩

end Changeset
/- ----------------------------------------------------------------------
   _FileTree (steroids/cvs2svn_lib/checkout_internal.py)

   __init__ builds, from the file's recorded LOD lists (each in reverse
   chronological order, a branch's last entry being the revision it
   sprouted from), the map _revs of per-revision records: `prev` is the
   revision this one is defined relative to and `ref` counts the
   revisions defined relative to this one.  _checkout_rev materializes
   a revision's full text from its ancestor's cached text plus a delta
   (deltas and texts are content-free here: only the production events
   and the cache keys matter for the reference-counting claim),
   decrements the ancestor's reference count and drops its cache entry
   at zero, caches the new text iff the revision still has pending
   descendants, and recurses with deref = 1 when the ancestor was
   skipped.  Fuel bounds that recursion; looking up a missing key is
   Python's KeyError (`none`).
   ---------------------------------------------------------------------- -/

namespace Checkout

structure FRev where
  ref : Nat
  prev : Option Nat
deriving Repr, DecidableEq

structure FTState where
  revs : List (Nat × FRev)
  co_db : List Nat
deriving Repr, DecidableEq

/- Association-list facts reused from the Mirror development. -/

theorem alistLookup_none_iff {β : Type} (j : Nat) :
    ∀ (l : List (Nat × β)),
      Mirror.alistLookup l j = none ↔ ¬ j ∈ l.map Prod.fst := by
  intro l
  induction l with
  | nil => simp [Mirror.alistLookup]
  | cons n l ih =>
    obtain ⟨k0, v0⟩ := n
    show (if k0 = j then some v0 else Mirror.alistLookup l j) = none ↔ _
    by_cases h0 : k0 = j
    · rw [if_pos h0]
      simp [h0]
    · rw [if_neg h0, List.map_cons]
      simp only [List.mem_cons]
      rw [ih]
      constructor
      · intro h hm
        rcases hm with hm | hm
        · exact h0 hm.symm
        · exact h hm
      · intro h hm
        exact h (Or.inr hm)

theorem alistErase_lookup {β : Type} (k j : Nat) :
    ∀ (l : List (Nat × β)),
      Mirror.alistLookup (Mirror.alistErase l k) j
        = if j = k then none else Mirror.alistLookup l j := by
  intro l
  induction l with
  | nil => by_cases hj : j = k <;> simp [Mirror.alistErase, hj,
      Mirror.alistLookup]
  | cons n l ih =>
    obtain ⟨k0, v0⟩ := n
    by_cases hk0 : k0 = k
    · rw [show Mirror.alistErase ((k0, v0) :: l) k = Mirror.alistErase l k
          from by simp [Mirror.alistErase, List.filter_cons, hk0]]
      rw [ih]
      by_cases hj : j = k
      · rw [if_pos hj, if_pos hj]
      · rw [if_neg hj, if_neg hj]
        show Mirror.alistLookup l j
          = if k0 = j then some v0 else Mirror.alistLookup l j
        rw [if_neg (fun h : k0 = j => hj (h.symm.trans hk0))]
    · rw [show Mirror.alistErase ((k0, v0) :: l) k
          = (k0, v0) :: Mirror.alistErase l k
          from by simp [Mirror.alistErase, List.filter_cons, hk0]]
      show (if k0 = j then some v0
            else Mirror.alistLookup (Mirror.alistErase l k) j)
        = if j = k then none else Mirror.alistLookup ((k0, v0) :: l) j
      by_cases hj : j = k
      · rw [if_pos hj, if_neg (fun h : k0 = j => hk0 (h.trans hj)), ih,
          if_pos hj]
      · rw [if_neg hj, ih, if_neg hj]
        rfl

theorem alist_mem_lookup_nodup {β : Type} :
    ∀ (l : List (Nat × β)) (j : Nat) (v : β),
      (l.map Prod.fst).Nodup → (j, v) ∈ l →
      Mirror.alistLookup l j = some v := by
  intro l
  induction l with
  | nil => intro j v _ hm; exact absurd hm (List.not_mem_nil _)
  | cons n l ih =>
    intro j v hnd hm
    obtain ⟨k, w⟩ := n
    rw [List.map_cons] at hnd
    rcases List.mem_cons.mp hm with h | h
    · obtain ⟨h1, h2⟩ := Prod.mk.inj h.symm
      show (if k = j then some w else Mirror.alistLookup l j) = some v
      rw [if_pos h1, h2]
    · show (if k = j then some w else Mirror.alistLookup l j) = some v
      have hk : ¬ k = j := by
        intro hkj
        exact (List.nodup_cons.mp hnd).1
          (hkj ▸ List.mem_map.mpr ⟨(j, v), h, rfl⟩)
      rw [if_neg hk]
      exact ih j v (List.nodup_cons.mp hnd).2 h

theorem alistInsert_keys_mem {β : Type} (k : Nat) (v : β) (j : Nat) :
    ∀ (l : List (Nat × β)),
      j ∈ (Mirror.alistInsert l k v).map Prod.fst ↔
        j ∈ l.map Prod.fst ∨ j = k := by
  intro l
  induction l with
  | nil => simp [Mirror.alistInsert, eq_comm]
  | cons n l ih =>
    obtain ⟨k0, v0⟩ := n
    by_cases h0 : k0 = k
    · rw [show Mirror.alistInsert ((k0, v0) :: l) k v = (k0, v) :: l from by
        show (if k0 = k then (k0, v) :: l
              else (k0, v0) :: Mirror.alistInsert l k v) = (k0, v) :: l
        rw [if_pos h0]]
      rw [List.map_cons, List.map_cons]
      simp only [List.mem_cons]
      constructor
      · intro h
        rcases h with h | h
        · exact Or.inl (Or.inl h)
        · exact Or.inl (Or.inr h)
      · intro h
        rcases h with h | h
        · exact h
        · left
          exact h.trans h0.symm
    · rw [show Mirror.alistInsert ((k0, v0) :: l) k v
          = (k0, v0) :: Mirror.alistInsert l k v from by
        show (if k0 = k then (k0, v) :: l
              else (k0, v0) :: Mirror.alistInsert l k v)
          = (k0, v0) :: Mirror.alistInsert l k v
        rw [if_neg h0]]
      rw [List.map_cons, List.map_cons]
      simp only [List.mem_cons]
      rw [ih]
      constructor
      · intro h
        rcases h with h | h | h
        · exact Or.inl (Or.inl h)
        · exact Or.inl (Or.inr h)
        · exact Or.inr h
      · intro h
        rcases h with (h | h) | h
        · exact Or.inl h
        · exact Or.inr (Or.inl h)
        · exact Or.inr (Or.inr h)

theorem alistInsert_keys_nodup {β : Type} :
    ∀ (l : List (Nat × β)) (k : Nat) (v : β),
      (l.map Prod.fst).Nodup →
      ((Mirror.alistInsert l k v).map Prod.fst).Nodup := by
  intro l
  induction l with
  | nil => intro k v _; exact List.nodup_singleton k
  | cons n l ih =>
    intro k v hnd
    obtain ⟨k0, v0⟩ := n
    rw [List.map_cons] at hnd
    by_cases hk0 : k0 = k
    · rw [show Mirror.alistInsert ((k0, v0) :: l) k v = (k0, v) :: l from by
        show (if k0 = k then (k0, v) :: l
              else (k0, v0) :: Mirror.alistInsert l k v) = (k0, v) :: l
        rw [if_pos hk0]]
      rw [List.map_cons]
      exact hnd
    · rw [show Mirror.alistInsert ((k0, v0) :: l) k v
          = (k0, v0) :: Mirror.alistInsert l k v from by
        show (if k0 = k then (k0, v) :: l
              else (k0, v0) :: Mirror.alistInsert l k v)
          = (k0, v0) :: Mirror.alistInsert l k v
        rw [if_neg hk0]]
      rw [List.map_cons]
      refine List.nodup_cons.mpr ⟨?_, ih k v (List.nodup_cons.mp hnd).2⟩
      intro hmem
      rcases (alistInsert_keys_mem k v k0 l).mp hmem with h | h
      · exact (List.nodup_cons.mp hnd).1 h
      · exact hk0 h

theorem alistInsert_mem_iff {β : Type} (k : Nat) (v : β) (p : Nat × β) :
    ∀ (l : List (Nat × β)), (l.map Prod.fst).Nodup →
      (p ∈ Mirror.alistInsert l k v ↔ (p ∈ l ∧ ¬ p.1 = k) ∨ p = (k, v)) := by
  intro l
  induction l with
  | nil =>
    intro _
    show p ∈ [(k, v)] ↔ _
    simp
  | cons n l ih =>
    intro hnd
    obtain ⟨k0, v0⟩ := n
    rw [List.map_cons] at hnd
    by_cases h0 : k0 = k
    · rw [show Mirror.alistInsert ((k0, v0) :: l) k v = (k0, v) :: l from by
        show (if k0 = k then (k0, v) :: l
              else (k0, v0) :: Mirror.alistInsert l k v) = (k0, v) :: l
        rw [if_pos h0]]
      constructor
      · intro hp
        rcases List.mem_cons.mp hp with h | h
        · right
          rw [h, h0]
        · left
          refine ⟨List.mem_cons_of_mem _ h, ?_⟩
          intro hpk
          exact (List.nodup_cons.mp hnd).1
            (hpk.trans h0.symm ▸ List.mem_map.mpr ⟨p, h, rfl⟩)
      · intro hp
        rcases hp with ⟨hm, hne⟩ | he
        · rcases List.mem_cons.mp hm with h | h
          · exact absurd (by rw [h]; exact h0) hne
          · exact List.mem_cons_of_mem _ h
        · rw [he, ← h0]
          exact List.mem_cons_self _ _
    · rw [show Mirror.alistInsert ((k0, v0) :: l) k v
          = (k0, v0) :: Mirror.alistInsert l k v from by
        show (if k0 = k then (k0, v) :: l
              else (k0, v0) :: Mirror.alistInsert l k v)
          = (k0, v0) :: Mirror.alistInsert l k v
        rw [if_neg h0]]
      constructor
      · intro hp
        rcases List.mem_cons.mp hp with h | h
        · left
          refine ⟨by rw [h]; exact List.mem_cons_self _ _, ?_⟩
          rw [h]
          exact h0
        · rcases (ih (List.nodup_cons.mp hnd).2).mp h with ⟨hm, hne⟩ | he
          · exact Or.inl ⟨List.mem_cons_of_mem _ hm, hne⟩
          · exact Or.inr he
      · intro hp
        rcases hp with ⟨hm, hne⟩ | he
        · rcases List.mem_cons.mp hm with h | h
          · rw [h]
            exact List.mem_cons_self _ _
          · exact List.mem_cons_of_mem _
              ((ih (List.nodup_cons.mp hnd).2).mpr (Or.inl ⟨h, hne⟩))
        · exact List.mem_cons_of_mem _
            ((ih (List.nodup_cons.mp hnd).2).mpr (Or.inr he))

theorem alistErase_mem_iff {β : Type} (k : Nat) (p : Nat × β)
    (l : List (Nat × β)) :
    p ∈ Mirror.alistErase l k ↔ p ∈ l ∧ ¬ p.1 = k := by
  show p ∈ l.filter (fun e => !(e.1 = k)) ↔ _
  rw [List.mem_filter]
  simp

theorem alistErase_keys_mem {β : Type} (k j : Nat) (l : List (Nat × β)) :
    j ∈ (Mirror.alistErase l k).map Prod.fst ↔
      j ∈ l.map Prod.fst ∧ ¬ j = k := by
  constructor
  · intro h
    obtain ⟨p, hp, hfst⟩ := List.mem_map.mp h
    obtain ⟨hm, hne⟩ := (alistErase_mem_iff k p l).mp hp
    exact ⟨List.mem_map.mpr ⟨p, hm, hfst⟩, hfst ▸ hne⟩
  · intro ⟨h, hne⟩
    obtain ⟨p, hp, hfst⟩ := List.mem_map.mp h
    exact List.mem_map.mpr
      ⟨p, (alistErase_mem_iff k p l).mpr ⟨hp, hfst ▸ hne⟩, hfst⟩

theorem alistErase_keys_nodup {β : Type} (k : Nat) (l : List (Nat × β))
    (hnd : (l.map Prod.fst).Nodup) :
    ((Mirror.alistErase l k).map Prod.fst).Nodup :=
  ((List.filter_sublist l).map Prod.fst).nodup hnd

theorem alistInsert_not_mem_append {β : Type} (k : Nat) (v : β) :
    ∀ (l : List (Nat × β)), Mirror.alistLookup l k = none →
      Mirror.alistInsert l k v = l ++ [(k, v)] := by
  intro l
  induction l with
  | nil => intro _; rfl
  | cons n l ih =>
    intro h
    obtain ⟨k0, v0⟩ := n
    have h2 : (if k0 = k then some v0 else Mirror.alistLookup l k) = none := h
    by_cases h0 : k0 = k
    · rw [if_pos h0] at h2
      exact Option.noConfusion h2
    · rw [if_neg h0] at h2
      show (if k0 = k then (k0, v) :: l
            else (k0, v0) :: Mirror.alistInsert l k v) = _
      rw [if_neg h0, ih h2]
      rfl

/- `_FileTree.__init__` (checkout_internal.py 228-243). -/

/-- `rev = self._revs.get(cvs_rev_id)` plus the registration of a fresh
`_Rev(cvs_rev_id)` (ref 0, prev None) when the id is unseen. -/
def initReg (revs : List (Nat × FRev)) (id : Nat) : List (Nat × FRev) :=
  match Mirror.alistLookup revs id with
  | some _ => revs
  | none => Mirror.alistInsert revs id ⟨0, none⟩

/-- `self._revs[succ_cvs_rev_id].prev = rev.cvs_rev_id; rev.ref += 1`.
The `none` fallbacks are unreachable in `__init__`: both ids were
registered by the time the link is made. -/
def initLink (revs : List (Nat × FRev)) (sid id : Nat) :
    List (Nat × FRev) :=
  let revs2 :=
    match Mirror.alistLookup revs sid with
    | some srev => Mirror.alistInsert revs sid ⟨srev.ref, some id⟩
    | none => revs
  match Mirror.alistLookup revs2 id with
  | some r => Mirror.alistInsert revs2 id ⟨r.ref + 1, r.prev⟩
  | none => revs2

/-- One iteration of the inner loop of `_FileTree.__init__`: register
`id` if unseen, then link the previous iteration's revision `succ` to
it. -/
def initStep (revs : List (Nat × FRev)) (succ : Option Nat) (id : Nat) :
    List (Nat × FRev) :=
  match succ with
  | none => initReg revs id
  | some sid => initLink (initReg revs id) sid id

/-- The inner loop of `_FileTree.__init__` over one LOD list, carrying
the previous iteration's revision id. -/
def initLod : List (Nat × FRev) → Option Nat → List Nat → List (Nat × FRev)
  | revs, _, [] => revs
  | revs, succ, id :: rest => initLod (initStep revs succ id) (some id) rest

/-- The outer loop of `_FileTree.__init__` over all LOD lists. -/
def fileTreeRevs : List (Nat × FRev) → List (List Nat) → List (Nat × FRev)
  | revs, [] => revs
  | revs, lod :: rest => fileTreeRevs (initLod revs none lod) rest

/-- `_FileTree.__init__`: the revision map plus an empty checkout
cache. -/
def fileTree (lods : List (List Nat)) : FTState :=
  ⟨fileTreeRevs [] lods, []⟩

/-- The (succ, cur) adjacencies that the inner loop of `__init__` links,
starting from carried value `succ`. -/
def pairsFrom : Option Nat → List Nat → List (Nat × Nat)
  | _, [] => []
  | none, c :: rest => pairsFrom (some c) rest
  | some s, c :: rest => (s, c) :: pairsFrom (some c) rest

/-- All adjacencies linked while building the tree from `lods`. -/
def allPairs : List (List Nat) → List (Nat × Nat)
  | [] => []
  | lod :: rest => pairsFrom none lod ++ allPairs rest

/-- Well-formed LOD lists: each revision is given a delta base at most
once, and never relative to itself.  Real LOD trees satisfy this: a
revision appears with a predecessor only in its own LOD list. -/
def WFLods (lods : List (List Nat)) : Prop :=
  ((allPairs lods).map Prod.fst).Nodup ∧
    ∀ pr ∈ allPairs lods, ¬ pr.1 = pr.2

instance : DecidablePred WFLods := fun lods =>
  inferInstanceAs (Decidable (((allPairs lods).map Prod.fst).Nodup ∧
    ∀ pr ∈ allPairs lods, ¬ pr.1 = pr.2))

/-- Number of revisions defined relative to `n` (its children in the
delta-dependency tree). -/
def childCount (revs0 : List (Nat × FRev)) (n : Nat) : Nat :=
  (revs0.filter (fun q => decide (q.2.prev = some n))).length

/-- Number of children of `n` whose text has not yet been requested:
the reference count that `_checkout_rev` maintains. -/
def unreq (revs0 : List (Nat × FRev)) (R : List Nat) (n : Nat) : Nat :=
  (revs0.filter
    (fun q => decide (q.2.prev = some n) && !(decide (q.1 ∈ R)))).length



/-- Invariant of the `__init__` loops: unique keys, every reference
count equals the number of children currently recorded, `prev` targets
are recorded revisions, and revisions whose own adjacency has not been
linked yet (the ids in `F`) still have `prev = none`. -/
structure InitInv (revs : List (Nat × FRev)) (F : List Nat) : Prop where
  nodup : (revs.map Prod.fst).Nodup
  refs : ∀ p ∈ revs, p.2.ref = childCount revs p.1
  closed : ∀ p ∈ revs, ∀ t, p.2.prev = some t → t ∈ revs.map Prod.fst
  pending : ∀ p ∈ revs, p.1 ∈ F → p.2.prev = none

theorem childCount_cons (k : Nat) (v : FRev) (t : List (Nat × FRev))
    (n : Nat) :
    childCount ((k, v) :: t) n
      = (if v.prev = some n then 1 else 0) + childCount t n := by
  by_cases h : v.prev = some n
  · simp [childCount, List.filter_cons, h, Nat.add_comm]
  · simp [childCount, List.filter_cons, h]

theorem childCount_append (l1 l2 : List (Nat × FRev)) (n : Nat) :
    childCount (l1 ++ l2) n = childCount l1 n + childCount l2 n := by
  simp [childCount, List.filter_append]

theorem childCount_insert (k : Nat) (w v : FRev) (n : Nat) :
    ∀ (l : List (Nat × FRev)), (l.map Prod.fst).Nodup →
      Mirror.alistLookup l k = some w →
      childCount (Mirror.alistInsert l k v) n
          + (if w.prev = some n then 1 else 0)
        = childCount l n + (if v.prev = some n then 1 else 0) := by
  intro l
  induction l with
  | nil => intro _ h; exact Option.noConfusion h
  | cons e t ih =>
    intro hnd hlk
    obtain ⟨k0, v0⟩ := e
    have hlk2 : (if k0 = k then some v0 else Mirror.alistLookup t k)
        = some w := hlk
    by_cases h0 : k0 = k
    · rw [if_pos h0] at hlk2
      obtain rfl := Option.some.inj hlk2
      rw [show Mirror.alistInsert ((k0, v0) :: t) k v = (k0, v) :: t from by
        show (if k0 = k then (k0, v) :: t
              else (k0, v0) :: Mirror.alistInsert t k v) = (k0, v) :: t
        rw [if_pos h0]]
      rw [childCount_cons, childCount_cons]
      omega
    · rw [if_neg h0] at hlk2
      rw [show Mirror.alistInsert ((k0, v0) :: t) k v
          = (k0, v0) :: Mirror.alistInsert t k v from by
        show (if k0 = k then (k0, v) :: t
              else (k0, v0) :: Mirror.alistInsert t k v)
          = (k0, v0) :: Mirror.alistInsert t k v
        rw [if_neg h0]]
      rw [List.map_cons] at hnd
      rw [childCount_cons, childCount_cons]
      have := ih (List.nodup_cons.mp hnd).2 hlk2
      omega

theorem initReg_inv (revs : List (Nat × FRev)) (F : List Nat) (c : Nat)
    (hinv : InitInv revs F) :
    InitInv (initReg revs c) F ∧
    c ∈ (initReg revs c).map Prod.fst ∧
    (∀ j, j ∈ (initReg revs c).map Prod.fst ↔
      j ∈ revs.map Prod.fst ∨ j = c) := by
  obtain ⟨w, hw⟩ : ∃ w, Mirror.alistLookup revs c = w := ⟨_, rfl⟩
  cases w with
  | some v =>
    have he : initReg revs c = revs := by
      show (match Mirror.alistLookup revs c with
            | some _ => revs
            | none => Mirror.alistInsert revs c ⟨0, none⟩) = revs
      rw [hw]
    have hc : c ∈ revs.map Prod.fst := by
      by_contra hnc
      exact Option.noConfusion
        (hw.symm.trans ((alistLookup_none_iff c revs).mpr hnc))
    rw [he]
    refine ⟨hinv, hc, fun j => ⟨Or.inl, fun h => ?_⟩⟩
    rcases h with h | h
    · exact h
    · rw [h]
      exact hc
  | none =>
    have he : initReg revs c = revs ++ [(c, ⟨0, none⟩)] := by
      show (match Mirror.alistLookup revs c with
            | some _ => revs
            | none => Mirror.alistInsert revs c ⟨0, none⟩) = _
      rw [hw]
      exact alistInsert_not_mem_append c ⟨0, none⟩ revs hw
    have hnc : ¬ c ∈ revs.map Prod.fst := (alistLookup_none_iff c revs).mp hw
    have hc0 : childCount revs c = 0 := by
      rw [childCount, List.length_eq_zero, List.filter_eq_nil_iff]
      intro q hq hq2
      exact hnc (hinv.closed q hq c (of_decide_eq_true hq2))
    have hcc : ∀ n, childCount (revs ++ [(c, (⟨0, none⟩ : FRev))]) n
        = childCount revs n := by
      intro n
      rw [childCount_append,
        show childCount [(c, (⟨0, none⟩ : FRev))] n = 0 from by
          simp [childCount], Nat.add_zero]
    refine ⟨⟨?_, ?_, ?_, ?_⟩, ?_, ?_⟩
    · rw [he, List.map_append]
      refine List.Nodup.append hinv.nodup (List.nodup_singleton c) ?_
      intro a ha hb
      rw [show ([(c, (⟨0, none⟩ : FRev))].map Prod.fst) = [c] from rfl,
        List.mem_singleton] at hb
      exact hnc (hb ▸ ha)
    · intro p hp
      rw [he] at hp ⊢
      rw [hcc]
      rcases List.mem_append.mp hp with h | h
      · exact hinv.refs p h
      · rw [List.mem_singleton.mp h, hc0]
    · intro p hp t ht
      rw [he] at hp ⊢
      rw [List.map_append]
      rcases List.mem_append.mp hp with h | h
      · exact List.mem_append_left _ (hinv.closed p h t ht)
      · rw [List.mem_singleton.mp h] at ht
        exact Option.noConfusion ht
    · intro p hp hpF
      rw [he] at hp
      rcases List.mem_append.mp hp with h | h
      · exact hinv.pending p h hpF
      · rw [List.mem_singleton.mp h]
    · rw [he, List.map_append]
      exact List.mem_append_right _ (List.mem_singleton.mpr rfl)
    · intro j
      rw [he, List.map_append]
      rw [List.mem_append,
        show ([(c, (⟨0, none⟩ : FRev))].map Prod.fst) = [c] from rfl,
        List.mem_singleton]

theorem initLink_inv (revs : List (Nat × FRev)) (F : List Nat) (s c : Nat)
    (hinv : InitInv revs F) (hFnd : F.Nodup)
    (hs : s ∈ revs.map Prod.fst) (hc : c ∈ revs.map Prod.fst)
    (hsF : s ∈ F) (hsc : ¬ s = c) :
    InitInv (initLink revs s c) (F.erase s) ∧
    (∀ j, j ∈ (initLink revs s c).map Prod.fst ↔ j ∈ revs.map Prod.fst) := by
  obtain ⟨⟨s1, srev⟩, hmems', hs1⟩ := List.mem_map.mp hs
  have hseq : s1 = s := hs1
  rw [hseq] at hmems'
  have hlks : Mirror.alistLookup revs s = some srev :=
    alist_mem_lookup_nodup revs s srev hinv.nodup hmems'
  have hsprev : srev.prev = none := hinv.pending (s, srev) hmems' hsF
  obtain ⟨⟨c1, rc⟩, hmemc', hc1⟩ := List.mem_map.mp hc
  have hceq : c1 = c := hc1
  rw [hceq] at hmemc'
  have hlkc : Mirror.alistLookup revs c = some rc :=
    alist_mem_lookup_nodup revs c rc hinv.nodup hmemc'
  have hnd2 :
      ((Mirror.alistInsert revs s ⟨srev.ref, some c⟩).map Prod.fst).Nodup :=
    alistInsert_keys_nodup revs s _ hinv.nodup
  have hlkc2 : Mirror.alistLookup
      (Mirror.alistInsert revs s ⟨srev.ref, some c⟩) c = some rc := by
    rw [Mirror.alistLookup_insert, if_neg hsc]
    exact hlkc
  have hlink : initLink revs s c
      = Mirror.alistInsert (Mirror.alistInsert revs s ⟨srev.ref, some c⟩) c
          ⟨rc.ref + 1, rc.prev⟩ := by
    show (match Mirror.alistLookup (match Mirror.alistLookup revs s with
            | some sr => Mirror.alistInsert revs s ⟨sr.ref, some c⟩
            | none => revs) c with
          | some r => Mirror.alistInsert
              (match Mirror.alistLookup revs s with
               | some sr => Mirror.alistInsert revs s ⟨sr.ref, some c⟩
               | none => revs) c ⟨r.ref + 1, r.prev⟩
          | none => (match Mirror.alistLookup revs s with
               | some sr => Mirror.alistInsert revs s ⟨sr.ref, some c⟩
               | none => revs)) = _
    rw [hlks]
    show (match Mirror.alistLookup (Mirror.alistInsert revs s
            ⟨srev.ref, some c⟩) c with
          | some r => Mirror.alistInsert (Mirror.alistInsert revs s
              ⟨srev.ref, some c⟩) c ⟨r.ref + 1, r.prev⟩
          | none => Mirror.alistInsert revs s ⟨srev.ref, some c⟩) = _
    rw [hlkc2]
  have hkeys : ∀ j, j ∈ (initLink revs s c).map Prod.fst ↔
      j ∈ revs.map Prod.fst := by
    intro j
    rw [hlink, alistInsert_keys_mem, alistInsert_keys_mem]
    constructor
    · intro h
      rcases h with (h | h) | h
      · exact h
      · rw [h]
        exact hs
      · rw [h]
        exact hc
    · intro h
      exact Or.inl (Or.inl h)
  have hccA : ∀ n, childCount (Mirror.alistInsert revs s ⟨srev.ref, some c⟩) n
      = childCount revs n
        + (if (some c : Option Nat) = some n then 1 else 0) := by
    intro n
    have h := childCount_insert s srev ⟨srev.ref, some c⟩ n revs
      hinv.nodup hlks
    rw [hsprev,
      if_neg (fun hx : (none : Option Nat) = some n => Option.noConfusion hx),
      Nat.add_zero] at h
    exact h
  have hccB : ∀ n, childCount (initLink revs s c) n
      = childCount revs n
        + (if (some c : Option Nat) = some n then 1 else 0) := by
    intro n
    have h := childCount_insert c rc ⟨rc.ref + 1, rc.prev⟩ n _ hnd2 hlkc2
    have h2 : childCount (Mirror.alistInsert
          (Mirror.alistInsert revs s ⟨srev.ref, some c⟩) c
          ⟨rc.ref + 1, rc.prev⟩) n
          + (if rc.prev = some n then 1 else 0)
        = childCount (Mirror.alistInsert revs s ⟨srev.ref, some c⟩) n
          + (if rc.prev = some n then 1 else 0) := h
    rw [hlink]
    have h3 := hccA n
    omega
  have hmem3 : ∀ p, p ∈ initLink revs s c ↔
      ((p ∈ revs ∧ ¬ p.1 = s ∧ ¬ p.1 = c) ∨ p = (s, ⟨srev.ref, some c⟩)
        ∨ p = (c, ⟨rc.ref + 1, rc.prev⟩)) := by
    intro p
    rw [hlink, alistInsert_mem_iff c _ p _ hnd2,
      alistInsert_mem_iff s _ p revs hinv.nodup]
    constructor
    · rintro (⟨⟨hm, hns⟩ | he, hnc⟩ | he2)
      · exact Or.inl ⟨hm, hns, hnc⟩
      · exact Or.inr (Or.inl he)
      · exact Or.inr (Or.inr he2)
    · rintro (⟨hm, hns, hnc⟩ | he | he)
      · exact Or.inl ⟨Or.inl ⟨hm, hns⟩, hnc⟩
      · refine Or.inl ⟨Or.inr he, ?_⟩
        rw [he]
        exact hsc
      · exact Or.inr he
  refine ⟨⟨?_, ?_, ?_, ?_⟩, hkeys⟩
  · rw [hlink]
    exact alistInsert_keys_nodup _ c _ hnd2
  · intro p hp
    rcases (hmem3 p).mp hp with ⟨hm, hns, hnc⟩ | he | he
    · rw [hccB p.1,
        if_neg (fun hx : (some c : Option Nat) = some p.1 =>
          hnc (Option.some.inj hx).symm),
        Nat.add_zero]
      exact hinv.refs p hm
    · rw [he]
      show srev.ref = childCount (initLink revs s c) s
      rw [hccB s,
        if_neg (fun hx : (some c : Option Nat) = some s =>
          hsc (Option.some.inj hx).symm),
        Nat.add_zero]
      exact hinv.refs (s, srev) hmems'
    · rw [he]
      show rc.ref + 1 = childCount (initLink revs s c) c
      rw [hccB c, if_pos rfl]
      have h4 : rc.ref = childCount revs c := hinv.refs (c, rc) hmemc'
      omega
  · intro p hp t ht
    rw [hkeys t]
    rcases (hmem3 p).mp hp with ⟨hm, _, _⟩ | he | he
    · exact hinv.closed p hm t ht
    · rw [he] at ht
      have ht2 : some c = some t := ht
      rw [← Option.some.inj ht2]
      exact hc
    · rw [he] at ht
      have ht2 : rc.prev = some t := ht
      exact hinv.closed (c, rc) hmemc' t ht2
  · intro p hp hpF
    have hpF2 := (List.Nodup.mem_erase_iff hFnd).mp hpF
    rcases (hmem3 p).mp hp with ⟨hm, _, _⟩ | he | he
    · exact hinv.pending p hm hpF2.2
    · exfalso
      rw [he] at hpF2
      exact hpF2.1 rfl
    · rw [he]
      show rc.prev = none
      rw [he] at hpF2
      exact hinv.pending (c, rc) hmemc' hpF2.2

theorem initLod_inv :
    ∀ (rest : List Nat) (revs : List (Nat × FRev)) (succ : Option Nat)
      (F : List Nat),
      InitInv revs F → F.Nodup →
      (∀ sid, succ = some sid → sid ∈ revs.map Prod.fst) →
      ((pairsFrom succ rest).map Prod.fst).Nodup →
      (∀ x ∈ (pairsFrom succ rest).map Prod.fst, x ∈ F) →
      (∀ pr ∈ pairsFrom succ rest, ¬ pr.1 = pr.2) →
      InitInv (initLod revs succ rest)
        (F.diff ((pairsFrom succ rest).map Prod.fst)) := by
  intro rest
  induction rest with
  | nil =>
    intro revs succ F hinv hFnd hsucc hnd hsub hne
    cases succ with
    | none => simpa [initLod, pairsFrom, List.diff_nil] using hinv
    | some s => simpa [initLod, pairsFrom, List.diff_nil] using hinv
  | cons c rest ih =>
    intro revs succ F hinv hFnd hsucc hnd hsub hne
    cases succ with
    | none =>
      obtain ⟨hinv1, hc1, hkeys1⟩ := initReg_inv revs F c hinv
      have h := ih (initReg revs c) (some c) F hinv1 hFnd
        (fun sid hs => by
          have hsc : c = sid := Option.some.inj hs
          rw [← hsc]
          exact hc1)
        hnd hsub hne
      exact h
    | some s =>
      have hpairs : pairsFrom (some s) (c :: rest)
          = (s, c) :: pairsFrom (some c) rest := rfl
      rw [hpairs] at hnd hsub hne ⊢
      rw [List.map_cons] at hnd hsub ⊢
      have hsmem : s ∈ revs.map Prod.fst := hsucc s rfl
      obtain ⟨hinv1, hc1, hkeys1⟩ := initReg_inv revs F c hinv
      have hsmem1 : s ∈ (initReg revs c).map Prod.fst :=
        (hkeys1 s).mpr (Or.inl hsmem)
      have hsF : s ∈ F := hsub s (List.mem_cons_self _ _)
      have hsc : ¬ s = c := hne (s, c) (List.mem_cons_self _ _)
      obtain ⟨hinv2, hkeys2⟩ :=
        initLink_inv (initReg revs c) F s c hinv1 hFnd hsmem1 hc1 hsF hsc
      have hrec := ih (initLink (initReg revs c) s c) (some c) (F.erase s)
        hinv2 (hFnd.erase s)
        (fun sid hs2 => by
          have hsc2 : c = sid := Option.some.inj hs2
          rw [← hsc2]
          exact (hkeys2 c).mpr hc1)
        (List.nodup_cons.mp hnd).2
        (fun x hx => by
          have hnotin : ¬ s ∈ (pairsFrom (some c) rest).map Prod.fst :=
            (List.nodup_cons.mp hnd).1
          refine (List.mem_erase_of_ne ?_).mpr
            (hsub x (List.mem_cons_of_mem _ hx))
          intro hxs
          rw [hxs] at hx
          exact hnotin hx)
        (fun pr hpr => hne pr (List.mem_cons_of_mem _ hpr))
      rw [List.diff_cons]
      exact hrec

theorem fileTreeRevs_inv :
    ∀ (lods : List (List Nat)) (revs : List (Nat × FRev)) (F : List Nat),
      InitInv revs F → F.Nodup →
      ((allPairs lods).map Prod.fst).Nodup →
      (∀ x ∈ (allPairs lods).map Prod.fst, x ∈ F) →
      (∀ pr ∈ allPairs lods, ¬ pr.1 = pr.2) →
      InitInv (fileTreeRevs revs lods)
        (F.diff ((allPairs lods).map Prod.fst)) := by
  intro lods
  induction lods with
  | nil =>
    intro revs F hinv _ _ _ _
    simpa [fileTreeRevs, allPairs, List.diff_nil] using hinv
  | cons lod rest ih =>
    intro revs F hinv hFnd hnd hsub hne
    have hap : allPairs (lod :: rest) = pairsFrom none lod ++ allPairs rest :=
      rfl
    rw [hap, List.map_append] at hnd hsub ⊢
    have hdisj := List.disjoint_of_nodup_append hnd
    have h1 := initLod_inv lod revs none F hinv hFnd
      (fun sid hs => Option.noConfusion hs)
      (hnd.of_append_left)
      (fun x hx => hsub x (List.mem_append_left _ hx))
      (fun pr hpr => hne pr (List.mem_append_left _ hpr))
    have h2 := ih (initLod revs none lod)
      (F.diff ((pairsFrom none lod).map Prod.fst)) h1
      ((List.diff_sublist _ _).nodup hFnd)
      (hnd.of_append_right)
      (fun x hx => List.mem_diff_of_mem
        (hsub x (List.mem_append_right _ hx))
        (fun hx1 => hdisj hx1 hx))
      (fun pr hpr => hne pr (List.mem_append_right _ hpr))
    rw [List.diff_append]
    exact h2

theorem fileTree_good (lods : List (List Nat)) (hwf : WFLods lods) :
    ((fileTree lods).revs.map Prod.fst).Nodup ∧
    (∀ p ∈ (fileTree lods).revs,
      p.2.ref = childCount (fileTree lods).revs p.1) ∧
    (∀ p ∈ (fileTree lods).revs, ∀ t, p.2.prev = some t →
      t ∈ (fileTree lods).revs.map Prod.fst) := by
  have h0 : InitInv ([] : List (Nat × FRev)) ((allPairs lods).map Prod.fst) :=
    ⟨by simp, fun p hp => absurd hp (List.not_mem_nil _),
      fun p hp => absurd hp (List.not_mem_nil _),
      fun p hp => absurd hp (List.not_mem_nil _)⟩
  have h := fileTreeRevs_inv lods [] ((allPairs lods).map Prod.fst) h0
    hwf.1 hwf.1 (fun x hx => hx) hwf.2
  exact ⟨h.nodup, h.refs, h.closed⟩

/-- The tail of `_checkout_rev` (lines 274-284): `rev.ref -= deref`,
then either cache the text and keep the record (`rev.ref` nonzero) or
drop the record (branch head / last use).  Returns the state paired
with the production log extended by this revision. -/
def applyFinish (s1 : FTState) (id : Nat) (rev : FRev) (deref : Nat)
    (prod : List Nat) : FTState × List Nat :=
  if rev.ref - deref = 0 then
    (⟨Mirror.alistErase s1.revs id, s1.co_db⟩, prod ++ [id])
  else
    (⟨Mirror.alistInsert s1.revs id ⟨rev.ref - deref, rev.prev⟩,
      s1.co_db.insert id⟩, prod ++ [id])

/-- `_FileTree._checkout_rev` (lines 248-285).  The ancestor branch
looks the predecessor up in `_revs` (KeyError → `none`), then either
uses its cached text (decrementing its reference count and deleting it
at zero) or recurses with `deref = 1` because it was skipped.  The log
records each text production. -/
def checkout_rev : Nat → FTState → Nat → Nat → Option (FTState × List Nat)
  | 0, _, _, _ => none
  | fuel + 1, s, id, deref =>
    match Mirror.alistLookup s.revs id with
    | none => none
    | some rev =>
      match rev.prev with
      | none => some (applyFinish s id rev deref [])
      | some pid =>
        match Mirror.alistLookup s.revs pid with
        | none => none
        | some prev =>
          if pid ∈ s.co_db then
            some (applyFinish
              (if prev.ref - 1 = 0 then
                ⟨Mirror.alistErase s.revs pid, s.co_db.erase pid⟩
              else
                ⟨Mirror.alistInsert s.revs pid ⟨prev.ref - 1, prev.prev⟩,
                  s.co_db⟩)
              id rev deref [])
          else
            match checkout_rev fuel s pid 1 with
            | none => none
            | some (s1, prod) => some (applyFinish s1 id rev deref prod)

/-- The emitter's request loop: one `checkout` (`_checkout_rev` with
`deref = 0`) per requested revision, concatenating the production
logs. -/
def runRequests : FTState → List Nat → Option (FTState × List Nat)
  | s, [] => some (s, [])
  | s, id :: rest =>
    match checkout_rev (s.revs.length + 1) s id 0 with
    | none => none
    | some (s1, prod) =>
      match runRequests s1 rest with
      | some (s2, prods) => some (s2, prod ++ prods)
      | none => none

/-- A request sequence that follows the recorded LOD trees: each id is
a recorded revision, requested at most once, and only after the
revision it is defined relative to.  `R` is the reversed list of
already-requested ids. -/
def validSeq (revs0 : List (Nat × FRev)) : List Nat → List Nat → Bool
  | _, [] => true
  | R, id :: rest =>
    (match Mirror.alistLookup revs0 id with
     | none => false
     | some r0 =>
       !(decide (id ∈ R)) &&
       (match r0.prev with
        | none => true
        | some q => decide (q ∈ R))) &&
    validSeq revs0 (id :: R) rest

/-- Run-time invariant of the checkout engine, relative to the built
tree `revs0` and the list `R` of already-requested revisions: live
records carry the original `prev` and a reference count equal to the
number of children not yet requested; the cache holds exactly the
requested revisions still alive; a revision stays alive until it is
requested and its count is exhausted. -/
structure RunInv (revs0 : List (Nat × FRev)) (s : FTState) (R : List Nat) :
    Prop where
  nodup : (s.revs.map Prod.fst).Nodup
  cacheNodup : s.co_db.Nodup
  prevs : ∀ p ∈ s.revs, ∃ r0, Mirror.alistLookup revs0 p.1 = some r0 ∧
    p.2.prev = r0.prev
  refs : ∀ p ∈ s.revs, p.2.ref = unreq revs0 R p.1
  cache : ∀ p ∈ s.revs, (p.1 ∈ s.co_db ↔ p.1 ∈ R)
  cacheKeys : ∀ n ∈ s.co_db, n ∈ s.revs.map Prod.fst
  present : ∀ n, n ∈ s.revs.map Prod.fst ↔
    (n ∈ revs0.map Prod.fst ∧ (¬ n ∈ R ∨ 0 < unreq revs0 R n))

theorem unreq_nil (revs0 : List (Nat × FRev)) (n : Nat) :
    unreq revs0 [] n = childCount revs0 n := by
  refine congrArg List.length (List.filter_congr ?_)
  intro q _
  simp

theorem unreq_congr (revs0 : List (Nat × FRev)) (R R' : List Nat)
    (hm : ∀ x, x ∈ R ↔ x ∈ R') (n : Nat) :
    unreq revs0 R n = unreq revs0 R' n := by
  refine congrArg List.length (List.filter_congr ?_)
  intro q _
  rw [decide_eq_decide.mpr (hm q.1)]

theorem unreq_pos (revs0 : List (Nat × FRev)) (R : List Nat) (id : Nat)
    (r0 : FRev) (n : Nat)
    (hlook : Mirror.alistLookup revs0 id = some r0)
    (hnotR : ¬ id ∈ R) (hprev : r0.prev = some n) :
    0 < unreq revs0 R n := by
  have hm : (id, r0) ∈ revs0 := Mirror.alistLookup_mem _ _ _ hlook
  have hmf : (id, r0) ∈ revs0.filter
      (fun q => decide (q.2.prev = some n) && !(decide (q.1 ∈ R))) :=
    List.mem_filter.mpr ⟨hm, by simp [hprev, hnotR]⟩
  exact List.length_pos_of_mem hmf

theorem unreq_cons_entry (k : Nat) (v : FRev) (t : List (Nat × FRev))
    (R : List Nat) (n : Nat) :
    unreq ((k, v) :: t) R n
      = (if v.prev = some n ∧ ¬ k ∈ R then 1 else 0) + unreq t R n := by
  by_cases h1 : v.prev = some n <;> by_cases h2 : k ∈ R <;>
    simp [unreq, List.filter_cons, h1, h2, Nat.add_comm]

theorem unreq_skip (id : Nat) (R : List Nat) (n : Nat) :
    ∀ t : List (Nat × FRev), ¬ id ∈ t.map Prod.fst →
      unreq t (id :: R) n = unreq t R n := by
  intro t hid
  refine congrArg List.length (List.filter_congr ?_)
  intro q hq
  have hne : ¬ q.1 = id := fun h => hid (h ▸ List.mem_map.mpr ⟨q, hq, rfl⟩)
  have hiff : q.1 ∈ id :: R ↔ q.1 ∈ R := by
    rw [List.mem_cons]
    constructor
    · rintro (h | h)
      · exact absurd h hne
      · exact h
    · exact Or.inr
  rw [decide_eq_decide.mpr hiff]

theorem unreq_cons (id : Nat) (r0 : FRev) (R : List Nat) (n : Nat) :
    ∀ l : List (Nat × FRev), (l.map Prod.fst).Nodup →
      Mirror.alistLookup l id = some r0 → ¬ id ∈ R →
      unreq l (id :: R) n
        = unreq l R n - (if r0.prev = some n then 1 else 0) := by
  intro l
  induction l with
  | nil => intro _ h _; exact Option.noConfusion h
  | cons e t ih =>
    intro hnd hlk hnotR
    obtain ⟨k, v⟩ := e
    rw [List.map_cons] at hnd
    have hlk2 : (if k = id then some v else Mirror.alistLookup t id)
        = some r0 := hlk
    rw [unreq_cons_entry, unreq_cons_entry]
    by_cases h0 : k = id
    · rw [if_pos h0] at hlk2
      obtain rfl := Option.some.inj hlk2
      have hskip : unreq t (id :: R) n = unreq t R n :=
        unreq_skip id R n t (h0 ▸ (List.nodup_cons.mp hnd).1)
      have hkR : k ∈ id :: R := by
        rw [h0]
        exact List.mem_cons_self _ _
      have hkR2 : ¬ k ∈ R := h0 ▸ hnotR
      rw [if_neg (fun hx : v.prev = some n ∧ ¬ k ∈ id :: R => hx.2 hkR),
        hskip]
      by_cases hv : v.prev = some n
      · rw [if_pos ⟨hv, hkR2⟩, if_pos hv]
        omega
      · rw [if_neg (fun hx : v.prev = some n ∧ ¬ k ∈ R => hv hx.1),
          if_neg hv]
        omega
    · rw [if_neg h0] at hlk2
      have hih := ih (List.nodup_cons.mp hnd).2 hlk2 hnotR
      have hiff : (v.prev = some n ∧ ¬ k ∈ id :: R)
          ↔ (v.prev = some n ∧ ¬ k ∈ R) := by
        constructor
        · rintro ⟨h1, h2⟩
          exact ⟨h1, fun hx => h2 (List.mem_cons_of_mem _ hx)⟩
        · rintro ⟨h1, h2⟩
          refine ⟨h1, fun hx => ?_⟩
          rcases List.mem_cons.mp hx with hx | hx
          · exact h0 hx
          · exact h2 hx
      rw [if_congr hiff rfl rfl]
      by_cases hd : r0.prev = some n
      · have hpos := unreq_pos t R id r0 n hlk2 hnotR hd
        rw [if_pos hd] at hih ⊢
        omega
      · rw [if_neg hd] at hih ⊢
        omega

theorem mem_cons_iff_of_ne (R : List Nat) (id x : Nat) (hne : ¬ x = id) :
    x ∈ id :: R ↔ x ∈ R := by
  rw [List.mem_cons]
  constructor
  · rintro (h | h)
    · exact absurd h hne
    · exact h
  · exact Or.inr

theorem pres_shift (revs0 : List (Nat × FRev)) (R : List Nat) (id n : Nat)
    (hne : ¬ n = id)
    (hu : unreq revs0 (id :: R) n = unreq revs0 R n) :
    ((n ∈ revs0.map Prod.fst ∧ (¬ n ∈ R ∨ 0 < unreq revs0 R n)) ↔
      (n ∈ revs0.map Prod.fst
        ∧ (¬ n ∈ id :: R ∨ 0 < unreq revs0 (id :: R) n))) := by
  rw [hu, mem_cons_iff_of_ne R id n hne]

theorem checkout_rev_succ (fuel : Nat) (s : FTState) (id deref : Nat) :
    checkout_rev (fuel + 1) s id deref
      = match Mirror.alistLookup s.revs id with
        | none => none
        | some rev =>
          match rev.prev with
          | none => some (applyFinish s id rev deref [])
          | some pid =>
            match Mirror.alistLookup s.revs pid with
            | none => none
            | some prev =>
              if pid ∈ s.co_db then
                some (applyFinish
                  (if prev.ref - 1 = 0 then
                    ⟨Mirror.alistErase s.revs pid, s.co_db.erase pid⟩
                  else
                    ⟨Mirror.alistInsert s.revs pid ⟨prev.ref - 1, prev.prev⟩,
                      s.co_db⟩)
                  id rev deref [])
              else
                match checkout_rev fuel s pid 1 with
                | none => none
                | some (s1, prod) => some (applyFinish s1 id rev deref prod)
      := rfl

theorem applyFinish_inv (revs0 : List (Nat × FRev)) (s1 : FTState)
    (R' : List Nat) (id : Nat) (rid : FRev) (prod : List Nat)
    (hnd : (s1.revs.map Prod.fst).Nodup)
    (hcnd : s1.co_db.Nodup)
    (hprevs : ∀ p ∈ s1.revs, ∃ r0, Mirror.alistLookup revs0 p.1 = some r0 ∧
      p.2.prev = r0.prev)
    (hrefs : ∀ p ∈ s1.revs, ¬ p.1 = id → p.2.ref = unreq revs0 R' p.1)
    (hcache : ∀ p ∈ s1.revs, ¬ p.1 = id → (p.1 ∈ s1.co_db ↔ p.1 ∈ R'))
    (hcacheK : ∀ n ∈ s1.co_db, n ∈ s1.revs.map Prod.fst ∧ ¬ n = id)
    (hpres : ∀ n, ¬ n = id → (n ∈ s1.revs.map Prod.fst ↔
      (n ∈ revs0.map Prod.fst ∧ (¬ n ∈ R' ∨ 0 < unreq revs0 R' n))))
    (hlkid : Mirror.alistLookup s1.revs id = some rid)
    (href2 : rid.ref = unreq revs0 R' id)
    (hid0 : ∃ r0, Mirror.alistLookup revs0 id = some r0 ∧
      rid.prev = r0.prev)
    (hidR : id ∈ R')
    (hid0k : id ∈ revs0.map Prod.fst) :
    RunInv revs0 (applyFinish s1 id rid 0 prod).1 R' ∧
      (applyFinish s1 id rid 0 prod).2 = prod ++ [id] := by
  have happ : applyFinish s1 id rid 0 prod
      = if rid.ref - 0 = 0 then
          ((⟨Mirror.alistErase s1.revs id, s1.co_db⟩ : FTState),
            prod ++ [id])
        else
          ((⟨Mirror.alistInsert s1.revs id ⟨rid.ref - 0, rid.prev⟩,
            s1.co_db.insert id⟩ : FTState), prod ++ [id]) := rfl
  by_cases h0 : rid.ref = 0
  · rw [happ, if_pos (by rw [Nat.sub_zero]; exact h0)]
    refine ⟨⟨?_, hcnd, ?_, ?_, ?_, ?_, ?_⟩, rfl⟩
    · exact alistErase_keys_nodup id s1.revs hnd
    · intro p hp
      exact hprevs p ((alistErase_mem_iff id p s1.revs).mp hp).1
    · intro p hp
      obtain ⟨hm, hne⟩ := (alistErase_mem_iff id p s1.revs).mp hp
      exact hrefs p hm hne
    · intro p hp
      obtain ⟨hm, hne⟩ := (alistErase_mem_iff id p s1.revs).mp hp
      exact hcache p hm hne
    · intro n hn
      obtain ⟨hk, hne⟩ := hcacheK n hn
      exact (alistErase_keys_mem id n s1.revs).mpr ⟨hk, hne⟩
    · intro n
      rw [alistErase_keys_mem]
      by_cases hne : n = id
      · subst hne
        constructor
        · rintro ⟨_, habs⟩
          exact absurd rfl habs
        · rintro ⟨_, h | h⟩
          · exact absurd hidR h
          · exfalso
            rw [← href2] at h
            omega
      · rw [hpres n hne]
        constructor
        · rintro ⟨h, _⟩
          exact h
        · intro h
          exact ⟨h, hne⟩
  · rw [happ, if_neg (by rw [Nat.sub_zero]; exact h0), Nat.sub_zero]
    have hnotco : ¬ id ∈ s1.co_db := fun h => (hcacheK id h).2 rfl
    refine ⟨⟨?_, hcnd.insert, ?_, ?_, ?_, ?_, ?_⟩, rfl⟩
    · exact alistInsert_keys_nodup s1.revs id _ hnd
    · intro p hp
      rcases (alistInsert_mem_iff id _ p s1.revs hnd).mp hp with ⟨hm, _⟩ | he
      · exact hprevs p hm
      · rw [he]
        exact hid0
    · intro p hp
      rcases (alistInsert_mem_iff id _ p s1.revs hnd).mp hp with
        ⟨hm, hne⟩ | he
      · exact hrefs p hm hne
      · rw [he]
        show rid.ref = unreq revs0 R' id
        exact href2
    · intro p hp
      rcases (alistInsert_mem_iff id _ p s1.revs hnd).mp hp with
        ⟨hm, hne⟩ | he
      · rw [List.mem_insert_iff]
        constructor
        · rintro (h | h)
          · exact absurd h hne
          · exact (hcache p hm hne).mp h
        · intro h
          exact Or.inr ((hcache p hm hne).mpr h)
      · rw [he]
        show id ∈ s1.co_db.insert id ↔ id ∈ R'
        constructor
        · intro _
          exact hidR
        · intro _
          exact List.mem_insert_self id s1.co_db
    · intro n hn
      rw [alistInsert_keys_mem]
      rcases List.mem_insert_iff.mp hn with h | h
      · exact Or.inr h
      · exact Or.inl (hcacheK n h).1
    · intro n
      rw [alistInsert_keys_mem]
      by_cases hne : n = id
      · subst hne
        constructor
        · intro _
          refine ⟨hid0k, Or.inr ?_⟩
          rw [← href2]
          omega
        · intro _
          exact Or.inr rfl
      · rw [hpres n hne]
        constructor
        · rintro (h | h)
          · exact h
          · exact absurd h hne
        · exact Or.inl

theorem checkout_step (revs0 : List (Nat × FRev)) (s : FTState)
    (R : List Nat) (id : Nat) (r0 : FRev) (fuel : Nat)
    (hnd0 : (revs0.map Prod.fst).Nodup)
    (hclosed0 : ∀ p ∈ revs0, ∀ t, p.2.prev = some t →
      t ∈ revs0.map Prod.fst)
    (hinv : RunInv revs0 s R)
    (hid0 : Mirror.alistLookup revs0 id = some r0)
    (hnotR : ¬ id ∈ R)
    (hprevR : ∀ q, r0.prev = some q → q ∈ R) :
    ∃ s2, checkout_rev (fuel + 1) s id 0 = some (s2, [id]) ∧
      RunInv revs0 s2 (id :: R) := by
  have hid0k : id ∈ revs0.map Prod.fst :=
    List.mem_map.mpr ⟨(id, r0), Mirror.alistLookup_mem _ _ _ hid0, rfl⟩
  have hidkeys : id ∈ s.revs.map Prod.fst :=
    (hinv.present id).mpr ⟨hid0k, Or.inl hnotR⟩
  obtain ⟨⟨id1, rid⟩, hmid, hid1⟩ := List.mem_map.mp hidkeys
  have hideq : id1 = id := hid1
  rw [hideq] at hmid
  have hlkid : Mirror.alistLookup s.revs id = some rid :=
    alist_mem_lookup_nodup s.revs id rid hinv.nodup hmid
  obtain ⟨r0', hr0', hprid'⟩ := hinv.prevs (id, rid) hmid
  have hr0'' : Mirror.alistLookup revs0 id = some r0' := hr0'
  have hprideq : r0' = r0 := Option.some.inj (hr0''.symm.trans hid0)
  rw [hprideq] at hprid'
  have hprid : rid.prev = r0.prev := hprid'
  have hrefid : rid.ref = unreq revs0 R id := hinv.refs (id, rid) hmid
  have hcons : ∀ n, unreq revs0 (id :: R) n
      = unreq revs0 R n - (if r0.prev = some n then 1 else 0) :=
    fun n => unreq_cons id r0 R n revs0 hnd0 hid0 hnotR
  have hnotco : ¬ id ∈ s.co_db :=
    fun h => hnotR ((hinv.cache (id, rid) hmid).mp h)
  obtain ⟨w, hw⟩ : ∃ w, r0.prev = w := ⟨_, rfl⟩
  cases w with
  | none =>
    have hrid_prev : rid.prev = none := by rw [hprid, hw]
    have hsame : ∀ n, unreq revs0 (id :: R) n = unreq revs0 R n := by
      intro n
      rw [hcons n, hw,
        if_neg (fun hx : (none : Option Nat) = some n =>
          Option.noConfusion hx),
        Nat.sub_zero]
    have heval : checkout_rev (fuel + 1) s id 0
        = some (applyFinish s id rid 0 []) := by
      rw [checkout_rev_succ, hlkid]
      show (match rid.prev with
            | none => some (applyFinish s id rid 0 [])
            | some pid =>
              match Mirror.alistLookup s.revs pid with
              | none => none
              | some prev =>
                if pid ∈ s.co_db then
                  some (applyFinish
                    (if prev.ref - 1 = 0 then
                      ⟨Mirror.alistErase s.revs pid, s.co_db.erase pid⟩
                    else
                      ⟨Mirror.alistInsert s.revs pid
                        ⟨prev.ref - 1, prev.prev⟩, s.co_db⟩)
                    id rid 0 [])
                else
                  match checkout_rev fuel s pid 1 with
                  | none => none
                  | some (s1, prod) => some (applyFinish s1 id rid 0 prod))
          = _
      rw [hrid_prev]
    have happ := applyFinish_inv revs0 s (id :: R) id rid []
      hinv.nodup hinv.cacheNodup hinv.prevs
      (fun p hp hne => by
        rw [hsame p.1]
        exact hinv.refs p hp)
      (fun p hp hne => by
        rw [mem_cons_iff_of_ne R id p.1 hne]
        exact hinv.cache p hp)
      (fun n hn => ⟨hinv.cacheKeys n hn,
        fun heq => hnotco (heq ▸ hn)⟩)
      (fun n hne => by
        rw [hinv.present n]
        exact pres_shift revs0 R id n hne (hsame n))
      hlkid
      (by rw [hsame id]; exact hrefid)
      ⟨r0, hid0, hprid⟩
      (List.mem_cons_self id R)
      hid0k
    refine ⟨(applyFinish s id rid 0 []).1, ?_, happ.1⟩
    rw [heval]
    have h2 : (applyFinish s id rid 0 []).2 = [id] := happ.2
    rw [← h2]
  | some q =>
    have hqR : q ∈ R := hprevR q hw
    have hrid_prev : rid.prev = some q := by rw [hprid, hw]
    have hqne : ¬ q = id := fun h => hnotR (h ▸ hqR)
    have hidnq : ¬ id = q := fun h => hqne h.symm
    have hq0k : q ∈ revs0.map Prod.fst :=
      hclosed0 (id, r0) (Mirror.alistLookup_mem _ _ _ hid0) q hw
    have hposq : 0 < unreq revs0 R q :=
      unreq_pos revs0 R id r0 q hid0 hnotR hw
    have hqkeys : q ∈ s.revs.map Prod.fst :=
      (hinv.present q).mpr ⟨hq0k, Or.inr hposq⟩
    obtain ⟨⟨q1, pq⟩, hmq, hq1⟩ := List.mem_map.mp hqkeys
    have hqeq : q1 = q := hq1
    rw [hqeq] at hmq
    have hlkq : Mirror.alistLookup s.revs q = some pq :=
      alist_mem_lookup_nodup s.revs q pq hinv.nodup hmq
    have hqco : q ∈ s.co_db := (hinv.cache (q, pq) hmq).mpr hqR
    have hrefq : pq.ref = unreq revs0 R q := hinv.refs (q, pq) hmq
    have hconsq : unreq revs0 (id :: R) q = unreq revs0 R q - 1 := by
      rw [hcons q, if_pos hw]
    have hconso : ∀ n, ¬ n = q →
        unreq revs0 (id :: R) n = unreq revs0 R n := by
      intro n hn
      rw [hcons n,
        if_neg (fun hx : r0.prev = some n =>
          hn (Option.some.inj (hw.symm.trans hx)).symm),
        Nat.sub_zero]
    have heval : checkout_rev (fuel + 1) s id 0
        = some (applyFinish
          (if pq.ref - 1 = 0 then
            (⟨Mirror.alistErase s.revs q, s.co_db.erase q⟩ : FTState)
          else
            ⟨Mirror.alistInsert s.revs q ⟨pq.ref - 1, pq.prev⟩, s.co_db⟩)
          id rid 0 []) := by
      rw [checkout_rev_succ, hlkid]
      show (match rid.prev with
            | none => some (applyFinish s id rid 0 [])
            | some pid =>
              match Mirror.alistLookup s.revs pid with
              | none => none
              | some prev =>
                if pid ∈ s.co_db then
                  some (applyFinish
                    (if prev.ref - 1 = 0 then
                      ⟨Mirror.alistErase s.revs pid, s.co_db.erase pid⟩
                    else
                      ⟨Mirror.alistInsert s.revs pid
                        ⟨prev.ref - 1, prev.prev⟩, s.co_db⟩)
                    id rid 0 [])
                else
                  match checkout_rev fuel s pid 1 with
                  | none => none
                  | some (s1, prod) => some (applyFinish s1 id rid 0 prod))
          = _
      rw [hrid_prev]
      show (match Mirror.alistLookup s.revs q with
            | none => none
            | some prev =>
              if q ∈ s.co_db then
                some (applyFinish
                  (if prev.ref - 1 = 0 then
                    ⟨Mirror.alistErase s.revs q, s.co_db.erase q⟩
                  else
                    ⟨Mirror.alistInsert s.revs q
                      ⟨prev.ref - 1, prev.prev⟩, s.co_db⟩)
                  id rid 0 [])
              else
                match checkout_rev fuel s q 1 with
                | none => none
                | some (s1, prod) => some (applyFinish s1 id rid 0 prod))
          = _
      rw [hlkq]
      show (if q ∈ s.co_db then
              some (applyFinish
                (if pq.ref - 1 = 0 then
                  (⟨Mirror.alistErase s.revs q, s.co_db.erase q⟩ : FTState)
                else
                  ⟨Mirror.alistInsert s.revs q ⟨pq.ref - 1, pq.prev⟩,
                    s.co_db⟩)
                id rid 0 [])
            else
              match checkout_rev fuel s q 1 with
              | none => none
              | some (s1, prod) => some (applyFinish s1 id rid 0 prod))
          = _
      rw [if_pos hqco]
    by_cases h1 : pq.ref - 1 = 0
    · rw [if_pos h1] at heval
      have hzero : unreq revs0 (id :: R) q = 0 := by
        rw [hconsq, ← hrefq]
        omega
      have happ := applyFinish_inv revs0
        ⟨Mirror.alistErase s.revs q, s.co_db.erase q⟩ (id :: R) id rid []
        (alistErase_keys_nodup q s.revs hinv.nodup)
        (hinv.cacheNodup.erase q)
        (fun p hp =>
          hinv.prevs p ((alistErase_mem_iff q p s.revs).mp hp).1)
        (fun p hp hne => by
          obtain ⟨hm, hnq⟩ := (alistErase_mem_iff q p s.revs).mp hp
          rw [hconso p.1 hnq]
          exact hinv.refs p hm)
        (fun p hp hne => by
          obtain ⟨hm, hnq⟩ := (alistErase_mem_iff q p s.revs).mp hp
          show p.1 ∈ s.co_db.erase q ↔ p.1 ∈ id :: R
          rw [hinv.cacheNodup.mem_erase_iff,
            mem_cons_iff_of_ne R id p.1 hne]
          constructor
          · rintro ⟨_, h⟩
            exact (hinv.cache p hm).mp h
          · intro h
            exact ⟨hnq, (hinv.cache p hm).mpr h⟩)
        (fun n hn => by
          obtain ⟨hnq, hco⟩ := hinv.cacheNodup.mem_erase_iff.mp hn
          refine ⟨(alistErase_keys_mem q n s.revs).mpr
            ⟨hinv.cacheKeys n hco, hnq⟩, ?_⟩
          intro heq
          exact hnotco (heq ▸ hco))
        (fun n hne => by
          show n ∈ (Mirror.alistErase s.revs q).map Prod.fst ↔ _
          rw [alistErase_keys_mem]
          by_cases hnq : n = q
          · subst hnq
            constructor
            · rintro ⟨_, habs⟩
              exact absurd rfl habs
            · rintro ⟨_, h | h⟩
              · exact absurd (List.mem_cons_of_mem _ hqR) h
              · exfalso
                rw [hzero] at h
                omega
          · rw [hinv.present n,
              pres_shift revs0 R id n hne (hconso n hnq)]
            constructor
            · rintro ⟨h, _⟩
              exact h
            · intro h
              exact ⟨h, hnq⟩)
        (by
          show Mirror.alistLookup (Mirror.alistErase s.revs q) id = some rid
          rw [alistErase_lookup q id s.revs, if_neg hidnq]
          exact hlkid)
        (by
          rw [hconso id hidnq]
          exact hrefid)
        ⟨r0, hid0, hprid⟩
        (List.mem_cons_self id R)
        hid0k
      refine ⟨_, ?_, happ.1⟩
      rw [heval]
      have h2 : (applyFinish
          (⟨Mirror.alistErase s.revs q, s.co_db.erase q⟩ : FTState)
          id rid 0 []).2 = [id] := happ.2
      rw [← h2]
    · rw [if_neg h1] at heval
      have hposq2 : 0 < unreq revs0 (id :: R) q := by
        rw [hconsq, ← hrefq]
        omega
      have hnd2 : ((Mirror.alistInsert s.revs q
          ⟨pq.ref - 1, pq.prev⟩).map Prod.fst).Nodup :=
        alistInsert_keys_nodup s.revs q _ hinv.nodup
      obtain ⟨rq0, hrq0, hprq0⟩ := hinv.prevs (q, pq) hmq
      have happ := applyFinish_inv revs0
        ⟨Mirror.alistInsert s.revs q ⟨pq.ref - 1, pq.prev⟩, s.co_db⟩
        (id :: R) id rid []
        hnd2
        hinv.cacheNodup
        (fun p hp => by
          rcases (alistInsert_mem_iff q _ p s.revs hinv.nodup).mp hp with
            ⟨hm, _⟩ | he
          · exact hinv.prevs p hm
          · rw [he]
            exact ⟨rq0, hrq0, hprq0⟩)
        (fun p hp hne => by
          rcases (alistInsert_mem_iff q _ p s.revs hinv.nodup).mp hp with
            ⟨hm, hnq⟩ | he
          · rw [hconso p.1 hnq]
            exact hinv.refs p hm
          · rw [he]
            show pq.ref - 1 = unreq revs0 (id :: R) q
            rw [hconsq, ← hrefq]
          )
        (fun p hp hne => by
          rcases (alistInsert_mem_iff q _ p s.revs hinv.nodup).mp hp with
            ⟨hm, hnq⟩ | he
          · show p.1 ∈ s.co_db ↔ p.1 ∈ id :: R
            rw [mem_cons_iff_of_ne R id p.1 hne]
            exact hinv.cache p hm
          · rw [he]
            show q ∈ s.co_db ↔ q ∈ id :: R
            constructor
            · intro _
              exact List.mem_cons_of_mem _ hqR
            · intro _
              exact hqco)
        (fun n hn => by
          refine ⟨?_, fun heq => hnotco (heq ▸ hn)⟩
          show n ∈ (Mirror.alistInsert s.revs q
            ⟨pq.ref - 1, pq.prev⟩).map Prod.fst
          rw [alistInsert_keys_mem]
          exact Or.inl (hinv.cacheKeys n hn))
        (fun n hne => by
          show n ∈ (Mirror.alistInsert s.revs q
            ⟨pq.ref - 1, pq.prev⟩).map Prod.fst ↔ _
          rw [alistInsert_keys_mem]
          by_cases hnq : n = q
          · subst hnq
            constructor
            · intro _
              exact ⟨hq0k, Or.inr hposq2⟩
            · intro _
              exact Or.inr rfl
          · rw [hinv.present n,
              pres_shift revs0 R id n hne (hconso n hnq)]
            constructor
            · rintro (h | h)
              · exact h
              · exact absurd h hnq
            · exact Or.inl)
        (by
          show Mirror.alistLookup (Mirror.alistInsert s.revs q
            ⟨pq.ref - 1, pq.prev⟩) id = some rid
          rw [Mirror.alistLookup_insert, if_neg hqne]
          exact hlkid)
        (by
          rw [hconso id hidnq]
          exact hrefid)
        ⟨r0, hid0, hprid⟩
        (List.mem_cons_self id R)
        hid0k
      refine ⟨_, ?_, happ.1⟩
      rw [heval]
      have h2 : (applyFinish
          (⟨Mirror.alistInsert s.revs q ⟨pq.ref - 1, pq.prev⟩,
            s.co_db⟩ : FTState)
          id rid 0 []).2 = [id] := happ.2
      rw [← h2]

theorem runRequests_spec (revs0 : List (Nat × FRev))
    (hnd0 : (revs0.map Prod.fst).Nodup)
    (hclosed0 : ∀ p ∈ revs0, ∀ t, p.2.prev = some t →
      t ∈ revs0.map Prod.fst) :
    ∀ (reqs : List Nat) (s : FTState) (R : List Nat),
      RunInv revs0 s R → validSeq revs0 R reqs = true →
      ∃ s2, runRequests s reqs = some (s2, reqs) ∧
        RunInv revs0 s2 (reqs.reverse ++ R) := by
  intro reqs
  induction reqs with
  | nil =>
    intro s R hinv _
    exact ⟨s, rfl, by simpa using hinv⟩
  | cons id rest ih =>
    intro s R hinv hv
    have hv2 : ((match Mirror.alistLookup revs0 id with
        | none => false
        | some r0 =>
          !(decide (id ∈ R)) &&
          (match r0.prev with
           | none => true
           | some q => decide (q ∈ R))) &&
        validSeq revs0 (id :: R) rest) = true := hv
    rw [Bool.and_eq_true] at hv2
    obtain ⟨hv3, hvrest⟩ := hv2
    obtain ⟨w, hw⟩ : ∃ w, Mirror.alistLookup revs0 id = w := ⟨_, rfl⟩
    cases w with
    | none =>
      rw [hw] at hv3
      exact Bool.noConfusion (show (false : Bool) = true from hv3)
    | some r0 =>
      rw [hw] at hv3
      have hv4 : (!(decide (id ∈ R)) &&
          (match r0.prev with
           | none => true
           | some q => decide (q ∈ R))) = true := hv3
      rw [Bool.and_eq_true] at hv4
      obtain ⟨hnotR', hprev'⟩ := hv4
      have hnotR : ¬ id ∈ R := by simpa using hnotR'
      have hprevR : ∀ q, r0.prev = some q → q ∈ R := by
        intro q hq
        rw [hq] at hprev'
        exact of_decide_eq_true (show decide (q ∈ R) = true from hprev')
      obtain ⟨s2, hstep, hinv2⟩ := checkout_step revs0 s R id r0
        s.revs.length hnd0 hclosed0 hinv hw hnotR hprevR
      obtain ⟨s3, hrun, hinv3⟩ := ih s2 (id :: R) hinv2 hvrest
      refine ⟨s3, ?_, ?_⟩
      · show (match checkout_rev (s.revs.length + 1) s id 0 with
              | none => none
              | some (s1, prod) =>
                match runRequests s1 rest with
                | some (s2, prods) => some (s2, prod ++ prods)
                | none => none) = some (s3, id :: rest)
        rw [hstep]
        show (match runRequests s2 rest with
              | some (s2, prods) => some (s2, [id] ++ prods)
              | none => none) = some (s3, id :: rest)
        rw [hrun]
        rfl
      · have hR : (id :: rest).reverse ++ R = rest.reverse ++ (id :: R) := by
          rw [List.reverse_cons, List.append_assoc]
          rfl
        rw [hR]
        exact hinv3

theorem runInv_init (revs0 : List (Nat × FRev))
    (hnd0 : (revs0.map Prod.fst).Nodup)
    (hrefs0 : ∀ p ∈ revs0, p.2.ref = childCount revs0 p.1) :
    RunInv revs0 ⟨revs0, []⟩ [] := by
  refine ⟨hnd0, List.nodup_nil, ?_, ?_, ?_, ?_, ?_⟩
  · intro p hp
    exact ⟨p.2, alist_mem_lookup_nodup revs0 p.1 p.2 hnd0 hp, rfl⟩
  · intro p hp
    rw [unreq_nil]
    exact hrefs0 p hp
  · intro p _
    exact Iff.rfl
  · intro n hn
    exact absurd hn (List.not_mem_nil n)
  · intro n
    constructor
    · intro h
      exact ⟨h, Or.inl (List.not_mem_nil n)⟩
    · rintro ⟨h, _⟩
      exact h

theorem validSeq_keys (revs0 : List (Nat × FRev)) :
    ∀ (reqs R : List Nat), validSeq revs0 R reqs = true →
      ∀ x ∈ reqs, x ∈ revs0.map Prod.fst := by
  intro reqs
  induction reqs with
  | nil => intro R _ x hx; exact absurd hx (List.not_mem_nil x)
  | cons id rest ih =>
    intro R hv x hx
    have hv2 : ((match Mirror.alistLookup revs0 id with
        | none => false
        | some r0 =>
          !(decide (id ∈ R)) &&
          (match r0.prev with
           | none => true
           | some q => decide (q ∈ R))) &&
        validSeq revs0 (id :: R) rest) = true := hv
    rw [Bool.and_eq_true] at hv2
    rcases List.mem_cons.mp hx with hx | hx
    · subst hx
      obtain ⟨w, hw⟩ : ∃ w, Mirror.alistLookup revs0 x = w := ⟨_, rfl⟩
      cases w with
      | none =>
        rw [hw] at hv2
        exact Bool.noConfusion (show (false : Bool) = true from hv2.1)
      | some r0 =>
        exact List.mem_map.mpr
          ⟨(x, r0), Mirror.alistLookup_mem _ _ _ hw, rfl⟩
    · exact ih (id :: R) hv2.2 x hx

/-- C5: if the emitter requests the recorded revisions of a file at
most once each, in an order consistent with the file's recorded LOD
trees (each revision after the revision it is defined relative to),
then the checkout engine succeeds and its production log is exactly the
request list, i.e. every requested revision's full text is produced
exactly once (in particular the skipped-ancestor recursion never
refetches anything); and afterwards a revision's text sits in the
checkout cache if and only if it was produced and its reference count —
the number of its direct descendants not yet materialized — is still
positive, i.e. a cache entry is deleted exactly when that count reaches
zero.  When every recorded revision is requested, cache and revision
table end up empty.  This holds at every prefix of the run because
every prefix of a valid request list is again valid. -/
theorem C5_checkout_refcount_exact (lods : List (List Nat))
    (reqs : List Nat) (hwf : WFLods lods)
    (hv : validSeq (fileTree lods).revs [] reqs = true) :
    ∃ s2, runRequests (fileTree lods) reqs = some (s2, reqs) ∧
      (∀ n, n ∈ s2.co_db ↔
        (n ∈ reqs ∧ 0 < unreq (fileTree lods).revs reqs n)) ∧
      ((∀ n ∈ (fileTree lods).revs.map Prod.fst, n ∈ reqs) →
        s2.co_db = [] ∧ s2.revs = []) := by
  obtain ⟨hnd0, hrefs0, hclosed0⟩ := fileTree_good lods hwf
  have hinit : RunInv (fileTree lods).revs
      ⟨(fileTree lods).revs, []⟩ [] :=
    runInv_init (fileTree lods).revs hnd0 hrefs0
  obtain ⟨s2, hrun, hinv⟩ := runRequests_spec (fileTree lods).revs hnd0
    hclosed0 reqs ⟨(fileTree lods).revs, []⟩ [] hinit hv
  have hft : fileTree lods = (⟨(fileTree lods).revs, []⟩ : FTState) := rfl
  have hmemR : ∀ x : Nat, x ∈ reqs.reverse ++ ([] : List Nat) ↔ x ∈ reqs := by
    intro x
    rw [List.append_nil, List.mem_reverse]
  have huR : ∀ n, unreq (fileTree lods).revs (reqs.reverse ++ []) n
      = unreq (fileTree lods).revs reqs n :=
    fun n => unreq_congr (fileTree lods).revs _ _ hmemR n
  refine ⟨s2, by rw [hft]; exact hrun, ?_, ?_⟩
  · intro n
    constructor
    · intro hn
      have hkeys := hinv.cacheKeys n hn
      obtain ⟨⟨n1, pn⟩, hmn, hn1⟩ := List.mem_map.mp hkeys
      have hneq : n1 = n := hn1
      rw [hneq] at hmn
      have hR : n ∈ reqs.reverse ++ [] := (hinv.cache (n, pn) hmn).mp hn
      refine ⟨(hmemR n).mp hR, ?_⟩
      have hpres := (hinv.present n).mp hkeys
      rcases hpres.2 with h | h
      · exact absurd hR h
      · rw [← huR n]
        exact h
    · rintro ⟨hn1, hn2⟩
      have hx : n ∈ (fileTree lods).revs.map Prod.fst :=
        validSeq_keys (fileTree lods).revs reqs [] hv n hn1
      have hk : n ∈ s2.revs.map Prod.fst :=
        (hinv.present n).mpr ⟨hx, Or.inr (by rw [huR n]; exact hn2)⟩
      obtain ⟨⟨n1, pn⟩, hmn, hn1'⟩ := List.mem_map.mp hk
      have hneq : n1 = n := hn1'
      rw [hneq] at hmn
      exact (hinv.cache (n, pn) hmn).mpr ((hmemR n).mpr hn1)
  · intro hall
    have hempty : ∀ n, ¬ n ∈ s2.revs.map Prod.fst := by
      intro n hk
      have hpres := (hinv.present n).mp hk
      have hR : n ∈ reqs := hall n hpres.1
      rcases hpres.2 with h | h
      · exact h ((hmemR n).mpr hR)
      · rw [huR n] at h
        have h0 : unreq (fileTree lods).revs reqs n = 0 := by
          rw [show unreq (fileTree lods).revs reqs n
              = ((fileTree lods).revs.filter
                (fun qq => decide (qq.2.prev = some n)
                  && !(decide (qq.1 ∈ reqs)))).length from rfl,
            List.length_eq_zero, List.filter_eq_nil_iff]
          intro q hq hq2
          rw [Bool.and_eq_true] at hq2
          have hqreqs : ¬ q.1 ∈ reqs := by simpa using hq2.2
          exact hqreqs
            (hall q.1 (List.mem_map.mpr ⟨q, hq, rfl⟩))
        rw [h0] at h
        omega
    refine ⟨?_, ?_⟩
    · rw [List.eq_nil_iff_forall_not_mem]
      intro n hn
      exact hempty n (hinv.cacheKeys n hn)
    · exact List.map_eq_nil.mp
        (List.eq_nil_iff_forall_not_mem.mpr hempty)

/-- Witness: the two-LOD tree with trunk `1 ← 2 ← 3` and branch
`2 ← 4`, requested in chronological order. -/
theorem C5_checkout_refcount_exact_witness :
    WFLods [[3, 2, 1], [4, 2]] ∧
    validSeq (fileTree [[3, 2, 1], [4, 2]]).revs [] [1, 2, 3, 4] = true ∧
    (∃ s2, runRequests (fileTree [[3, 2, 1], [4, 2]]) [1, 2, 3, 4]
        = some (s2, [1, 2, 3, 4]) ∧
      (∀ n, n ∈ s2.co_db ↔
        (n ∈ [1, 2, 3, 4] ∧
          0 < unreq (fileTree [[3, 2, 1], [4, 2]]).revs [1, 2, 3, 4] n)) ∧
      ((∀ n ∈ (fileTree [[3, 2, 1], [4, 2]]).revs.map Prod.fst,
          n ∈ [1, 2, 3, 4]) → s2.co_db = [] ∧ s2.revs = [])) :=
  ⟨by decide, by decide,
    C5_checkout_refcount_exact [[3, 2, 1], [4, 2]] [1, 2, 3, 4]
      (by decide) (by decide)⟩

end Checkout
